import Mathlib

/-!
# PSENet progressive scale expansion: `adaptor_3.cpp`

A shallow embedding of `lanms_adaptor::get_kernels`,
`lanms_adaptor::growing_text_line` and `lanms_adaptor::merge_quadrangle_n9`
from `src/psenet/pse/adaptor_3.cpp`, followed by theorems about them.

Conventions of the embedding

* A `cv::Mat` and a `vector<vector<int>>` are lists of rows of integers.
  Every read or write through an index is checked: an index outside the
  container is undefined behaviour in C++ and is the outcome `outOfRange` here.
* A `CV_8UC1` cell stores one byte: storing the `int` value `v` keeps `v % 256`.
* `std::queue<Point>` is a list, front first; `push` appends at the back.
* `for (int i = 0; i < n; ++i)` is `forUpTo n`; the `while (!queue.empty())`
  loop is `whileQueue`, which carries a fuel argument (outcome `outOfFuel`
  when it is used up while the queue is not empty).
* `cv::connectedComponents` is a library routine: it is a parameter `cc` of
  the embedding, returning the pair `(label_num, label_mat)`.
-/

namespace lanms_adaptor

/-! ## Outcomes -/

/-- Result of running a piece of the program. -/
inductive Outcome (α : Type) where
  | ok : α → Outcome α
  | outOfRange : Outcome α
  | outOfFuel : Outcome α
deriving DecidableEq, Repr

/-- Sequencing of outcomes: the first fault stops the run. -/
def Outcome.bind {α β : Type} (m : Outcome α) (f : α → Outcome β) : Outcome β :=
  match m with
  | .ok a => f a
  | .outOfRange => .outOfRange
  | .outOfFuel => .outOfFuel

instance : Monad Outcome where
  pure := Outcome.ok
  bind := Outcome.bind

/-- Checked read `l[i]`. -/
def idx {α : Type} (l : List α) (i : Nat) : Outcome α :=
  match l[i]? with
  | some a => .ok a
  | none => .outOfRange

/-- Loop `for (int i = 0; i < n; ++i) body(i)` over a state `s`. -/
def forUpTo {σ : Type} (n : Nat) (body : Nat → σ → Outcome σ) (s : σ) : Outcome σ :=
  match n with
  | 0 => .ok s
  | k + 1 => (forUpTo k body s).bind (body k)

/-! ## Matrices -/

/-- A `cv::Mat` with one channel (also used for `vector<vector<int>>`). -/
abbrev Mat := List (List Int)

/-- Field `Mat::rows`. -/
def Mat.rows (m : Mat) : Nat := m.length

/-- Field `Mat::cols`: the common length of the rows. -/
def Mat.cols (m : Mat) : Nat := (m.headD []).length

/-- `Mat::zeros(rows, cols, type)`. -/
def Mat.zeros (rows cols : Nat) : Mat := List.replicate rows (List.replicate cols 0)

/-- Checked read `m.at<T>(x, y)` or `m[x][y]`. -/
def matAt (m : Mat) (x y : Nat) : Outcome Int :=
  (idx m x).bind (fun row => idx row y)

/-- Checked write `m.at<T>(x, y) = v` or `m[x][y] = v`. -/
def matSet (m : Mat) (x y : Nat) (v : Int) : Outcome Mat :=
  match m[x]? with
  | none => .outOfRange
  | some row => if y < row.length then .ok (m.set x (row.set y v)) else .outOfRange

/-- The byte kept by a `CV_8UC1` cell when the `int` value `v` is stored in it. -/
def toByte (v : Int) : Int := v % 256

/-! ## `get_kernels` (lines 20-34) -/

/-- Body of the loop over `y` (lines 26-29). -/
def get_kernels_cell (data : List Int) (d1 d2 : Nat) (i x y : Nat) (kernel : Mat) :
    Outcome Mat := do
  let v ← idx data (i * d1 * d2 + x * d2 + y)
  matSet kernel x y (toByte v)

/-- Body of the loop over `x` (lines 25-30). -/
def get_kernels_row (data : List Int) (d1 d2 : Nat) (i x : Nat) (kernel : Mat) :
    Outcome Mat :=
  forUpTo kernel.cols (get_kernels_cell data d1 d2 i x) kernel

/-- Body of the loop over `i` (lines 23-32). -/
def get_kernels_plane (data : List Int) (data_shape : List Nat) (i : Nat)
    (kernels : List Mat) : Outcome (List Mat) := do
  let d1 ← idx data_shape 1
  let d2 ← idx data_shape 2
  let kernel := Mat.zeros d1 d2
  let kernel ← forUpTo kernel.rows (get_kernels_row data d1 d2 i) kernel
  pure (kernels ++ [kernel])

/-- Function `get_kernels(data, data_shape, kernels)`, called with `kernels` empty. -/
def get_kernels (data : List Int) (data_shape : List Nat) : Outcome (List Mat) := do
  let d0 ← idx data_shape 0
  forUpTo d0 (get_kernels_plane data data_shape) []

/-! ## `growing_text_line` (lines 36-154) -/

/-- A `cv::Point`: `x` is the row and `y` the column, as the source uses it. -/
structure Point where
  x : Nat
  y : Nat
deriving DecidableEq, Repr

/-- Constant `th1` (line 37). -/
def th1 : Int := 10

/-- Body of the area loop (lines 49-51): `area[label] += 1` unless `label == 0`. -/
def area_cell (label_mat : Mat) (x y : Nat) (area : List Int) : Outcome (List Int) := do
  let label ← matAt label_mat x y
  if label = 0 then pure area
  else if label < 0 then .outOfRange
  else do
    let a ← idx area label.toNat
    pure (area.set label.toNat (a + 1))

/-- Lines 45-53: `int area[label_num + 1]`, zeroed, then counted. -/
def count_area (label_mat : Mat) (label_num : Nat) : Outcome (List Int) :=
  forUpTo label_mat.rows
    (fun x => forUpTo label_mat.cols (area_cell label_mat x))
    (List.replicate (label_num + 1) 0)

/-- Read `area[label]` for a label known to be non-zero. -/
def area_at (area : List Int) (label : Int) : Outcome Int :=
  if label < 0 then .outOfRange else idx area label.toNat

/-- Body of the loop over `y` building one row (lines 60-73). -/
def init_cell (label_mat : Mat) (area : List Int) (x y : Nat)
    (st : List Int × List Point) : Outcome (List Int × List Point) := do
  let label ← matAt label_mat x y
  if label = 0 then pure st
  else do
    let a ← area_at area label
    if a < th1 then pure st
    else if y < st.1.length then pure (st.1.set y label, st.2 ++ [⟨x, y⟩])
    else .outOfRange

/-- Body of the loop over `x` (lines 58-75): build the row, append it. -/
def init_row (label_mat : Mat) (area : List Int) (x : Nat)
    (st : Mat × List Point) : Outcome (Mat × List Point) := do
  let r ← forUpTo label_mat.cols (init_cell label_mat area x)
    (List.replicate label_mat.cols 0, st.2)
  pure (st.1 ++ [r.1], r.2)

/-- Lines 56-76: the initial label grid and the initial queue. -/
def init_grid (label_mat : Mat) (area : List Int) : Outcome (Mat × List Point) :=
  forUpTo label_mat.rows (init_row label_mat area) ([], [])

/-- Arrays `dx` and `dy` (lines 80-81). -/
def dx : List Int := [-1, 1, 0, 0]

/-- See `dx`. -/
def dy : List Int := [0, 0, -1, 1]

/-- Variables of the growth loops. -/
structure GrowState where
  text_line : Mat
  queue : List Point
  next_queue : List Point
deriving DecidableEq, Repr

/-- Body of the loop over `d` (lines 94-105); the flag is `is_edge`. -/
def visit (kernel : Mat) (x y : Nat) (label : Int) (d : Nat)
    (st : GrowState × Bool) : Outcome (GrowState × Bool) := do
  let ddx ← idx dx d
  let ddy ← idx dy d
  let tmp_x : Int := (x : Int) + ddx
  let tmp_y : Int := (y : Int) + ddy
  if tmp_x < 0 ∨ tmp_x ≥ (st.1.text_line.length : Int) then pure st
  else if tmp_y < 0 then pure st
  else do
    let row1 ← idx st.1.text_line 1
    if tmp_y ≥ (row1.length : Int) then pure st
    else do
      let k ← matAt kernel tmp_x.toNat tmp_y.toNat
      if k = 0 then pure st
      else do
        let t ← matAt st.1.text_line tmp_x.toNat tmp_y.toNat
        if t > 0 then pure st
        else do
          let text_line ← matSet st.1.text_line tmp_x.toNat tmp_y.toNat label
          pure ({ st.1 with text_line := text_line,
                            queue := st.1.queue ++ [⟨tmp_x.toNat, tmp_y.toNat⟩] }, false)

/-- One iteration of the `while` loop (lines 85-110) for the popped `point`;
`st.queue` is the queue after `pop`. -/
def process_point (kernel : Mat) (point : Point) (st : GrowState) : Outcome GrowState := do
  let label ← matAt st.text_line point.x point.y
  let r ← forUpTo 4 (visit kernel point.x point.y label) (st, true)
  if r.2 then pure { r.1 with next_queue := r.1.next_queue ++ [point] }
  else pure r.1

/-- Loop `while (!queue.empty())` (lines 84-111), with fuel. -/
def whileQueue (kernel : Mat) (fuel : Nat) (st : GrowState) : Outcome GrowState :=
  match st.queue with
  | [] => .ok st
  | point :: rest =>
    match fuel with
    | 0 => .outOfFuel
    | f + 1 => (process_point kernel point { st with queue := rest }).bind (whileQueue kernel f)

/-- Number of cells of the grid that are not positive. -/
def unlabelled (text_line : Mat) : Nat :=
  (text_line.map (fun row => (row.filter (fun v => decide (v ≤ 0))).length)).sum

/-- Body of the loop over `kernel_id` (lines 84-148): drain the queue against
`kernels[kernel_id]`, then `swap(queue, next_queue)`. -/
def grow_round (kernels : List Mat) (kernel_id : Nat) (st : GrowState) : Outcome GrowState := do
  let kernel ← idx kernels kernel_id
  let s ← whileQueue kernel (st.queue.length + unlabelled st.text_line) st
  pure { s with queue := s.next_queue, next_queue := s.queue }

/-- Loop `for (kernel_id = n - 1; kernel_id >= 0; --kernel_id)`. -/
def grow_rounds (kernels : List Mat) (n : Nat) (st : GrowState) : Outcome GrowState :=
  match n with
  | 0 => .ok st
  | k + 1 => (grow_round kernels k st).bind (grow_rounds kernels k)

/-- The state in front of the first growth round (lines 41-76). -/
def initial_state (cc : Mat → Nat × Mat) (kernels : List Mat) : Outcome GrowState := do
  if kernels.length = 0 then .outOfRange
  else do
    let seed ← idx kernels (kernels.length - 1)
    let label_num := (cc seed).1
    let label_mat := (cc seed).2
    let area ← count_area label_mat label_num
    let r ← init_grid label_mat area
    pure { text_line := r.1, queue := r.2, next_queue := [] }

/-- Function `growing_text_line(kernels, text_line)`, called with `text_line`
empty; the result is the final `text_line`. -/
def growing_text_line (cc : Mat → Nat × Mat) (kernels : List Mat) : Outcome Mat := do
  let st ← initial_state cc kernels
  let st ← grow_rounds kernels (kernels.length - 1) st
  pure st.text_line

/-- Function `merge_quadrangle_n9` (lines 156-177) on the buffer `data` of
shape `data_shape`. -/
def merge_quadrangle_n9 (cc : Mat → Nat × Mat) (data : List Int) (data_shape : List Nat) :
    Outcome Mat := do
  let kernels ← get_kernels data data_shape
  growing_text_line cc kernels

/-! ## Notions used to state the properties -/

/-- The value of cell `(x, y)`, and `0` outside the matrix. -/
def cell (m : Mat) (x y : Nat) : Int := (m.getD x []).getD y 0

/-- The matrix has `H` rows, each of `W` entries. -/
def HasShape (m : Mat) (H W : Nat) : Prop := m.length = H ∧ ∀ row ∈ m, row.length = W

instance (m : Mat) (H W : Nat) : Decidable (HasShape m H W) := by
  unfold HasShape; infer_instance

/-- The two points are neighbours in the 4-neighbourhood. -/
def Adj4 (p q : Point) : Prop :=
  (p.x = q.x ∧ (p.y + 1 = q.y ∨ q.y + 1 = p.y)) ∨
  (p.y = q.y ∧ (p.x + 1 = q.x ∨ q.x + 1 = p.x))

instance (p q : Point) : Decidable (Adj4 p q) := by
  unfold Adj4; infer_instance

/-- There is a 4-path from `p` to `q` all of whose cells satisfy `fg`
(a path of length zero is allowed). -/
def Connected4 (fg : Point → Prop) (p q : Point) : Prop :=
  Relation.ReflTransGen (fun a b => fg a ∧ fg b ∧ Adj4 a b) p q

/-- Foreground of a plane: the cell is not zero. -/
def Fg (m : Mat) (p : Point) : Prop := cell m p.x p.y ≠ 0

instance (m : Mat) (p : Point) : Decidable (Fg m p) := by
  unfold Fg; infer_instance

/-- Foreground of the union of the planes of a stack. -/
def FgAny (kernels : List Mat) (p : Point) : Prop := ∃ k ∈ kernels, Fg k p

/-- Modelled from the spec: `cv::connectedComponents(image, labels, 4)` is a
library routine that is not part of the sources. Its contract (section 4.2,
step 1, and the library's documentation): the label image has the shape of the
input, labels lie in `[0, N - 1]` for the returned count `N`, label `0` is the
background, and two foreground cells have the same label exactly when a
4-path of foreground cells joins them. -/
structure CCSpec (img : Mat) (r : Nat × Mat) : Prop where
  shape : r.2.map List.length = img.map List.length
  range : ∀ row ∈ r.2, ∀ v ∈ row, 0 ≤ v ∧ v < (r.1 : Int)
  foreground : ∀ x y, cell r.2 x y ≠ 0 ↔ cell img x y ≠ 0
  component : ∀ p q : Point, Fg img p → Fg img q →
    (cell r.2 p.x p.y = cell r.2 q.x q.y ↔ Connected4 (Fg img) p q)

/-- Number of cells of the label image that hold `l`: the pixel area of the
component labelled `l`. -/
def componentArea (label_mat : Mat) (l : Int) : Nat := (label_mat.map (List.count l)).sum

/-- The label a seed cell keeps: its own when its component has at least
`th1 = 10` cells, and `0` otherwise. -/
def seedLabel (label_mat : Mat) (l : Int) : Int :=
  if (componentArea label_mat l : Int) < th1 then 0 else l

/-- The label grid in front of the growth rounds, as a function of the label image. -/
def initialGrid (label_mat : Mat) : Mat := label_mat.map (List.map (seedLabel label_mat))

/-- The coordinates of an `H x W` grid in row-major order. -/
def rowMajor (H W : Nat) : List Point :=
  (List.range H).flatMap (fun x => (List.range W).map (fun y => Point.mk x y))

/-- The cells of `initialGrid` that are not zero, in row-major order. -/
def initialQueue (label_mat : Mat) : List Point :=
  (rowMajor label_mat.rows label_mat.cols).filter
    (fun p => decide (seedLabel label_mat (cell label_mat p.x p.y) ≠ 0))

/-- The seed plane of a stack: the plane of highest index. -/
def seedOf (kernels : List Mat) : Mat := kernels.getD (kernels.length - 1) []

/-- The label image computed for the seed plane of the stack. -/
def labelsOf (cc : Mat → Nat × Mat) (kernels : List Mat) : Mat := (cc (seedOf kernels)).2

/-- A valid input of `growing_text_line`: at least one plane, all planes of
size `H x W`, and `cc` meeting the contract of `connectedComponents` on the
seed plane. -/
structure ValidStack (cc : Mat → Nat × Mat) (kernels : List Mat) (H W : Nat) : Prop where
  nonempty : 0 < kernels.length
  shape : ∀ k ∈ kernels, HasShape k H W
  labelled : CCSpec (seedOf kernels) (cc (seedOf kernels))

/-- One write of the growth (line 104): a cell `q` that is not positive and is
foreground in `kernel` receives the label of a neighbour `p` holding a positive label. -/
def Claim (kernel : Mat) (g g' : Mat) : Prop :=
  ∃ p q : Point, Adj4 p q ∧ 0 < cell g p.x p.y ∧ cell kernel q.x q.y ≠ 0 ∧
    cell g q.x q.y ≤ 0 ∧ matSet g q.x q.y (cell g p.x p.y) = .ok g'

/-- A sequence of writes of the growth, each against some plane of the stack. -/
def Grown (kernels : List Mat) (g g' : Mat) : Prop :=
  Relation.ReflTransGen (fun a b => ∃ k ∈ kernels, Claim k a b) g g'

/-- Invariant of the growth loops: the grid is `H x W`, no cell is negative,
and every queued coordinate holds a positive label. -/
structure GoodState (H W : Nat) (s : GrowState) : Prop where
  shape : HasShape s.text_line H W
  nonneg : ∀ a b, 0 ≤ cell s.text_line a b
  queued : ∀ p ∈ s.queue ++ s.next_queue, 0 < cell s.text_line p.x p.y

/-- Cell by cell, `g'` keeps every non-zero value of `g`, and differs from `g`
only where `g` is `0` and `g'` is positive. -/
def Monotone (g g' : Mat) : Prop :=
  ∀ a b, (cell g a b ≠ 0 → cell g' a b = cell g a b) ∧
    (cell g' a b ≠ cell g a b → cell g a b = 0 ∧ 0 < cell g' a b)

/-- A foreground cell whose left and upper neighbours are not foreground. -/
def isRoot (img : Mat) (p : Point) : Prop :=
  cell img p.x p.y ≠ 0 ∧ (p.y = 0 ∨ cell img p.x (p.y - 1) = 0) ∧
    (p.x = 0 ∨ cell img (p.x - 1) p.y = 0)

instance (img : Mat) (p : Point) : Decidable (isRoot img p) := by
  unfold isRoot; infer_instance

/-- A decidable test that is sufficient for `CCSpec` when every component can
be walked to one cell by steps to the left and upwards: same shape and same
zero cells, labels in range, neighbouring foreground cells labelled alike, and
distinct labels on distinct roots. -/
def CCCheck (img : Mat) (r : Nat × Mat) : Prop :=
  HasShape img img.rows img.cols ∧
  r.2.map (List.map (fun v => decide (v = 0))) = img.map (List.map (fun v => decide (v = 0))) ∧
  (∀ row ∈ r.2, ∀ v ∈ row, 0 ≤ v ∧ v < (r.1 : Int)) ∧
  (∀ x < img.rows, ∀ y < img.cols, cell img x y ≠ 0 →
    (cell img (x + 1) y ≠ 0 → cell r.2 (x + 1) y = cell r.2 x y) ∧
    (cell img x (y + 1) ≠ 0 → cell r.2 x (y + 1) = cell r.2 x y)) ∧
  (((rowMajor img.rows img.cols).filter (fun p => decide (isRoot img p))).map
    (fun p => cell r.2 p.x p.y)).Nodup

instance (img : Mat) (r : Nat × Mat) : Decidable (CCCheck img r) := by
  unfold CCCheck; infer_instance

/-- All neighbours of `p` inside the `H x W` grid that are foreground in
`kernel` hold a positive label in `g`. -/
def Closed (kernel : Mat) (H W : Nat) (g : Mat) (p : Point) : Prop :=
  ∀ q : Point, Adj4 p q → q.x < H → q.y < W → cell kernel q.x q.y ≠ 0 → 0 < cell g q.x q.y

/-- The failures that section 7 of the specification names. -/
inductive SpecError where
  | InvalidShape : SpecError
  | EmptyStack : SpecError
  | ShapeMismatch : SpecError
deriving DecidableEq, Repr

/-- The error of section 7 that a run raises. The sources contain no `throw`,
no error return and no test of their inputs: a run completes, or it reads or
writes outside a container, which is undefined behaviour and not an error
value. So no outcome raises an error. -/
def Outcome.raised {α : Type} (o : Outcome α) : Option SpecError :=
  match o with
  | .ok _ => none
  | .outOfRange => none
  | .outOfFuel => none

instance (kernel : Mat) (H W : Nat) (g : Mat) (p : Point) : Decidable (Closed kernel H W g p) :=
  decidable_of_iff
    (∀ x, x < H → ∀ y, y < W → Adj4 p ⟨x, y⟩ → cell kernel x y ≠ 0 → 0 < cell g x y)
    ⟨fun h q hadj hx hy hk => h q.x hx q.y hy hadj hk,
      fun h x hx y hy hadj hk => h ⟨x, y⟩ hadj hx hy hk⟩

/-- One iteration of the `while` loop: the point that was popped, the state
left by `pop`, and the state at the end of the iteration. -/
structure Dequeue where
  point : Point
  before : GrowState
  after : GrowState

/-- The iterations of the `while` loop in order: `whileQueue` with a record of
what it dequeues. -/
def dequeues (kernel : Mat) (fuel : Nat) (st : GrowState) : List Dequeue :=
  match st.queue with
  | [] => []
  | point :: rest =>
    match fuel with
    | 0 => []
    | f + 1 =>
      match process_point kernel point { st with queue := rest } with
      | .ok s => ⟨point, { st with queue := rest }, s⟩ :: dequeues kernel f s
      | .outOfRange => []
      | .outOfFuel => []

/-- The `while` loop run from `st` performs the iterations `T` and ends in `st'`
with an empty queue. -/
inductive Drain (kernel : Mat) : GrowState → List Dequeue → GrowState → Prop
  | done (st : GrowState) : st.queue = [] → Drain kernel st [] st
  | step (st : GrowState) (point : Point) (rest : List Point) (s st' : GrowState)
      (T : List Dequeue) :
      st.queue = point :: rest →
      process_point kernel point { st with queue := rest } = .ok s →
      Drain kernel s T st' →
      Drain kernel st (⟨point, { st with queue := rest }, s⟩ :: T) st'

/-- The state in front of the first round, as a function of the label image
(`initial_state` computes it, see `initial_state_spec`). -/
def startState (cc : Mat → Nat × Mat) (kernels : List Mat) : GrowState :=
  { text_line := initialGrid (labelsOf cc kernels),
    queue := initialQueue (labelsOf cc kernels), next_queue := [] }

/-- The rounds `kernel_id = n, ..., 1` of the loop of `grow_rounds`: all rounds
but the last one. -/
def early_rounds (kernels : List Mat) (n : Nat) (st : GrowState) : Outcome GrowState :=
  match n with
  | 0 => .ok st
  | k + 1 => (grow_round kernels (k + 1) st).bind (early_rounds kernels k)

/-- The regions of `g` are anchored in the label image `lab`: every cell `z` of
`g` with a non-zero label `L` is joined by a 4-path of cells of `g` labelled `L`
to a cell of the component `L` of `lab`, every cell of that component holds `L`
in `g`, and every cell of `g` labelled `L` is joined to `z` by a 4-path of
cells labelled `L`. -/
def Anchored (lab g : Mat) : Prop :=
  ∀ z : Point, cell g z.x z.y ≠ 0 →
    (∃ s : Point, cell lab s.x s.y = cell g z.x z.y ∧
      Connected4 (fun p => cell g p.x p.y = cell g z.x z.y) z s) ∧
    (∀ p : Point, cell lab p.x p.y = cell g z.x z.y → cell g p.x p.y = cell g z.x z.y) ∧
    (∀ q : Point, cell g q.x q.y = cell g z.x z.y →
      Connected4 (fun p => cell g p.x p.y = cell g z.x z.y) z q)

/-- A cell a path of the growth may step on: a surviving seed cell (non-zero in
the initial grid `g0`) or a cell that is foreground in the plane `k`. -/
def Passable (g0 k : Mat) (q : Point) : Prop := cell g0 q.x q.y ≠ 0 ∨ cell k q.x q.y ≠ 0

/-- A 4-path of `n` steps from `a` to the last argument, each of whose cells
after `a` satisfies `ok`. -/
inductive Walk (ok : Point → Prop) (a : Point) : Nat → Point → Prop
  | here : Walk ok a 0 a
  | next {n : Nat} {b c : Point} : Walk ok a n b → Adj4 b c → ok c → Walk ok a (n + 1) c

/-- Some surviving seed cell has a path of `n` steps to `z`. -/
def Reach (g0 k : Mat) (n : Nat) (z : Point) : Prop :=
  ∃ s : Point, cell g0 s.x s.y ≠ 0 ∧ Walk (Passable g0 k) s n z

/-- The geodesic distance of `z` from the surviving seed cells is `n`. -/
def MinDist (g0 k : Mat) (n : Nat) (z : Point) : Prop :=
  Reach g0 k n z ∧ ∀ m, Reach g0 k m z → n ≤ m

/-- The surviving seed cell `s` is at minimum path length from `z`: it has a
path of some `n` steps to `z`, and no surviving seed cell has a shorter one. -/
def NearestSeed (g0 k : Mat) (s z : Point) : Prop :=
  cell g0 s.x s.y ≠ 0 ∧ ∃ n, Walk (Passable g0 k) s n z ∧ MinDist g0 k n z

/-- Invariant of the breadth-first growth of one round: the queue is a block
`A` of cells at distance `d` followed by a block `B` of cells at distance
`d + 1`; every labelled cell carries the label of a nearest surviving seed cell;
a labelled cell is queued or has no eligible neighbour; every cell at distance
at most `d` is labelled. -/
structure Layered (g0 k : Mat) (H W : Nat) (st : GrowState) (d : Nat) (A B : List Point) :
    Prop where
  queue : st.queue = A ++ B
  levelA : ∀ p ∈ A, MinDist g0 k d p
  levelB : ∀ p ∈ B, MinDist g0 k (d + 1) p
  label : ∀ z : Point, cell st.text_line z.x z.y ≠ 0 →
    ∃ s, NearestSeed g0 k s z ∧ cell st.text_line z.x z.y = cell g0 s.x s.y
  closed : ∀ z : Point, 0 < cell st.text_line z.x z.y →
    z ∈ st.queue ∨ Closed k H W st.text_line z
  full : ∀ (z : Point) (n : Nat), n ≤ d → MinDist g0 k n z → cell st.text_line z.x z.y ≠ 0

/-! ## Concrete stacks -/

/-- The plane of `H x W` ones. -/
def onesPlane (H W : Nat) : Mat := List.replicate H (List.replicate W 1)

/-- A labelling routine that answers with a stored label count and label image. -/
def ccTable (label_num : Nat) (label_mat : Mat) : Mat → Nat × Mat :=
  fun _ => (label_num, label_mat)

/-- A `3 x 5` seed plane: one component of ten cells, the two upper rows. -/
def seedA : Mat := [[1, 1, 1, 1, 1], [1, 1, 1, 1, 1], [0, 0, 0, 0, 0]]

/-- Two planes of `3 x 5`: plane 0 is all ones, the seed plane is `seedA`. -/
def stackA : List Mat := [onesPlane 3 5, seedA]

/-- The scenario of section 8: the `3 x 3` seed plane with only `(1, 1)` set. -/
def seedDot : Mat := [[0, 0, 0], [0, 1, 0], [0, 0, 0]]

/-- Two planes of `3 x 3`: plane 0 is all ones, the seed plane is `seedDot`. -/
def stackDot : List Mat := [onesPlane 3 3, seedDot]

/-- A single row of ten ones, twice: the smallest stack with one row, a second
plane and a surviving seed. -/
def stackRow : List Mat := [onesPlane 1 10, onesPlane 1 10]

/-- The scenario of section 8: a `4 x 4` block of ones in a `10 x 10` seed plane. -/
def seedBlock : Mat :=
  List.replicate 3 (List.replicate 10 0) ++
  List.replicate 4 [0, 0, 0, 1, 1, 1, 1, 0, 0, 0] ++
  List.replicate 3 (List.replicate 10 0)

/-- Two planes of `10 x 10`: plane 0 is all ones, the seed plane is `seedBlock`. -/
def stackBlock : List Mat := [onesPlane 10 10, seedBlock]

/-- A `2 x 13` seed plane with two blocks of ten cells. -/
def seedTwo : Mat :=
  [[1, 1, 1, 1, 1, 0, 0, 0, 1, 1, 1, 1, 1], [1, 1, 1, 1, 1, 0, 0, 0, 1, 1, 1, 1, 1]]

/-- The label image of `seedTwo`: labels `1` and `2`. -/
def labelsTwo : Mat :=
  [[1, 1, 1, 1, 1, 0, 0, 0, 2, 2, 2, 2, 2], [1, 1, 1, 1, 1, 0, 0, 0, 2, 2, 2, 2, 2]]

/-- Plane 0 above `seedTwo`: column 6 is background, the other cells foreground. -/
def outerTwo : Mat :=
  [[1, 1, 1, 1, 1, 1, 0, 1, 1, 1, 1, 1, 1], [1, 1, 1, 1, 1, 1, 0, 1, 1, 1, 1, 1, 1]]

/-- Two planes of `2 x 13` whose two seed blocks are separated by column 6. -/
def stackTwo : List Mat := [outerTwo, seedTwo]

/-- The grid grown from `stackTwo`. -/
def grownTwo : Mat :=
  [[1, 1, 1, 1, 1, 1, 0, 2, 2, 2, 2, 2, 2], [1, 1, 1, 1, 1, 1, 0, 2, 2, 2, 2, 2, 2]]

/-- A `3 x 5` seed plane whose only component has nine cells. -/
def seedNine : Mat := [[1, 1, 1, 1, 1], [1, 1, 1, 1, 0], [0, 0, 0, 0, 0]]

/-- A `4 x 5` seed plane: one component of ten cells, the two upper rows. -/
def seedTall : Mat :=
  [[1, 1, 1, 1, 1], [1, 1, 1, 1, 1], [0, 0, 0, 0, 0], [0, 0, 0, 0, 0]]

/-- Two planes of `4 x 5`: plane 0 is all ones, the seed plane is `seedTall`. -/
def stackTall : List Mat := [onesPlane 4 5, seedTall]

/-- A `2 x 11` seed plane: two blocks of ten cells with column 5 between them. -/
def seedDuel : Mat :=
  [[1, 1, 1, 1, 1, 0, 1, 1, 1, 1, 1], [1, 1, 1, 1, 1, 0, 1, 1, 1, 1, 1]]

/-- The label image of `seedDuel`: labels `1` and `2`. -/
def labelsDuel : Mat :=
  [[1, 1, 1, 1, 1, 0, 2, 2, 2, 2, 2], [1, 1, 1, 1, 1, 0, 2, 2, 2, 2, 2]]

/-- Two planes of `2 x 11`: plane 0 is all ones, the seed plane is `seedDuel`. -/
def stackDuel : List Mat := [onesPlane 2 11, seedDuel]

/-- A `4 x 5` seed plane: a component of ten cells and, apart from it, the
single cell `(3, 0)`. -/
def seedSmall : Mat :=
  [[1, 1, 1, 1, 1], [1, 1, 1, 1, 1], [0, 0, 0, 0, 0], [1, 0, 0, 0, 0]]

/-- The label image of `seedSmall`: label `1` for the ten cells, `2` for `(3, 0)`. -/
def labelsSmall : Mat :=
  [[1, 1, 1, 1, 1], [1, 1, 1, 1, 1], [0, 0, 0, 0, 0], [2, 0, 0, 0, 0]]

/-- Two planes of `4 x 5`: plane 0 is all ones, the seed plane is `seedSmall`. -/
def stackSmall : List Mat := [onesPlane 4 5, seedSmall]

/-- A `3 x 11` seed plane: the ten cells `(1, 0)` to `(1, 9)`. -/
def seedLine : Mat :=
  [List.replicate 11 0, [1, 1, 1, 1, 1, 1, 1, 1, 1, 1, 0], List.replicate 11 0]

/-- Plane 1 above `seedLine`: the seed and the cell `(1, 10)`. -/
def midLine : Mat :=
  [List.replicate 11 0, List.replicate 11 1, List.replicate 11 0]

/-- Plane 0 above `midLine`: plane 1 and the cell `(0, 9)`. -/
def outerLine : Mat :=
  [[0, 0, 0, 0, 0, 0, 0, 0, 0, 1, 0], List.replicate 11 1, List.replicate 11 0]

/-- Three nested planes of `3 x 11`. -/
def stackLine : List Mat := [outerLine, midLine, seedLine]

/-- The round of `stackTall`: the grid is flooded, the frontier handed on is
row 0 followed by row 3. -/
def roundTall : GrowState :=
  { text_line := onesPlane 4 5,
    queue := [⟨0, 0⟩, ⟨0, 1⟩, ⟨0, 2⟩, ⟨0, 3⟩, ⟨0, 4⟩, ⟨3, 0⟩, ⟨3, 1⟩, ⟨3, 2⟩, ⟨3, 3⟩, ⟨3, 4⟩],
    next_queue := [] }

/-- The grid returned for `stackLine`. -/
def grownLine : Mat :=
  [List.replicate 11 0, List.replicate 11 1, List.replicate 11 0]

/-- The grid returned for `stackDuel`: column 5 goes to label `1`. -/
def grownDuel : Mat :=
  [[1, 1, 1, 1, 1, 1, 2, 2, 2, 2, 2], [1, 1, 1, 1, 1, 1, 2, 2, 2, 2, 2]]

/-! ## Reading the embedding -/

@[simp] theorem Outcome.bind_ok {α β : Type} (a : α) (f : α → Outcome β) :
    (Outcome.ok a).bind f = f a := rfl

@[simp] theorem Outcome.bind_outOfRange {α β : Type} (f : α → Outcome β) :
    (Outcome.outOfRange : Outcome α).bind f = .outOfRange := rfl

@[simp] theorem Outcome.bind_outOfFuel {α β : Type} (f : α → Outcome β) :
    (Outcome.outOfFuel : Outcome α).bind f = .outOfFuel := rfl

@[simp] theorem Outcome.pure_eq {α : Type} (a : α) : (pure a : Outcome α) = .ok a := rfl

@[simp] theorem Outcome.bind_eq {α β : Type} (m : Outcome α) (f : α → Outcome β) :
    (m >>= f) = m.bind f := rfl

theorem Outcome.bind_eq_ok {α β : Type} {m : Outcome α} {f : α → Outcome β} {b : β} :
    m.bind f = .ok b ↔ ∃ a, m = .ok a ∧ f a = .ok b := by
  cases m <;> simp [Outcome.bind]

theorem idx_eq_ok {α : Type} {l : List α} {i : Nat} {a : α} :
    idx l i = .ok a ↔ l[i]? = some a := by
  unfold idx
  cases h : l[i]? <;> simp

theorem idx_of_lt {α : Type} {l : List α} {i : Nat} (h : i < l.length) :
    idx l i = .ok l[i] := by
  rw [idx_eq_ok]; exact List.getElem?_eq_getElem h

/-- Invariant rule for `forUpTo`. -/
theorem forUpTo_inv {σ : Type} (P : Nat → σ → Prop) {f : Nat → σ → Outcome σ}
    (n : Nat) {s r : σ} (h0 : P 0 s)
    (hstep : ∀ i, i < n → ∀ t t', P i t → f i t = .ok t' → P (i + 1) t')
    (hrun : forUpTo n f s = .ok r) : P n r := by
  induction n generalizing r with
  | zero => simp [forUpTo] at hrun; subst hrun; exact h0
  | succ k ih =>
    simp only [forUpTo, Outcome.bind_eq_ok] at hrun
    obtain ⟨t, ht, hb⟩ := hrun
    exact hstep k (Nat.lt_succ_self k) t r
      (ih (fun i hi => hstep i (Nat.lt_succ_of_lt hi)) ht) hb

/-- Progress rule for `forUpTo`: the loop completes when each iteration does. -/
theorem forUpTo_total {σ : Type} (P : Nat → σ → Prop) {f : Nat → σ → Outcome σ}
    (n : Nat) {s : σ} (h0 : P 0 s)
    (hstep : ∀ i, i < n → ∀ t, P i t → ∃ t', f i t = .ok t' ∧ P (i + 1) t') :
    ∃ r, forUpTo n f s = .ok r ∧ P n r := by
  induction n with
  | zero => exact ⟨s, rfl, h0⟩
  | succ k ih =>
    obtain ⟨t, ht, hP⟩ := ih (fun i hi => hstep i (Nat.lt_succ_of_lt hi))
    obtain ⟨t', ht', hP'⟩ := hstep k (Nat.lt_succ_self k) t hP
    exact ⟨t', by simp [forUpTo, ht, ht'], hP'⟩

theorem HasShape.row_length {m : Mat} {H W : Nat} (h : HasShape m H W) {x : Nat}
    (hx : x < m.length) : (m[x]).length = W :=
  h.2 _ (List.getElem_mem hx)

theorem HasShape.cols {m : Mat} {H W : Nat} (h : HasShape m H W) (hH : 0 < H) :
    m.cols = W := by
  obtain ⟨h1, h2⟩ := h
  cases m with
  | nil => simp at h1; omega
  | cons r rs => simp [Mat.cols]; exact h2 r (by simp)

theorem HasShape.rows {m : Mat} {H W : Nat} (h : HasShape m H W) : m.rows = H := h.1

theorem hasShape_zeros (H W : Nat) : HasShape (Mat.zeros H W) H W := by
  constructor
  · simp [Mat.zeros]
  · intro row hrow
    simp [Mat.zeros] at hrow
    rw [hrow.2]; simp

theorem cell_zeros (H W x y : Nat) : cell (Mat.zeros H W) x y = 0 := by
  unfold cell Mat.zeros
  simp only [List.getD_eq_getElem?_getD, List.getElem?_replicate]
  split <;> simp [List.getElem?_replicate]
  split <;> simp

theorem matAt_eq_ok {m : Mat} {x y : Nat} {v : Int} :
    matAt m x y = .ok v ↔ ∃ row, m[x]? = some row ∧ row[y]? = some v := by
  simp [matAt, Outcome.bind_eq_ok, idx_eq_ok]

theorem cell_of_matAt {m : Mat} {x y : Nat} {v : Int} (h : matAt m x y = .ok v) :
    cell m x y = v := by
  obtain ⟨row, h1, h2⟩ := matAt_eq_ok.1 h
  simp [cell, List.getD_eq_getElem?_getD, h1, h2]

theorem matAt_of_shape {m : Mat} {H W x y : Nat} (h : HasShape m H W)
    (hx : x < H) (hy : y < W) : matAt m x y = .ok (cell m x y) := by
  have hx' : x < m.length := by rw [h.1]; exact hx
  have hy' : y < (m[x]).length := by rw [h.row_length hx']; exact hy
  rw [matAt_eq_ok]
  refine ⟨m[x], List.getElem?_eq_getElem hx', ?_⟩
  simp [cell, List.getD_eq_getElem?_getD, List.getElem?_eq_getElem hx',
    List.getElem?_eq_getElem hy']

theorem matAt_lt {m : Mat} {H W x y : Nat} {v : Int} (h : HasShape m H W)
    (hv : matAt m x y = .ok v) : x < H ∧ y < W := by
  obtain ⟨row, h1, h2⟩ := matAt_eq_ok.1 hv
  have hx : x < m.length := (List.getElem?_eq_some.1 h1).1
  have hrow : row = m[x] := by
    have := (List.getElem?_eq_some.1 h1).2; exact this.symm
  have hy : y < row.length := (List.getElem?_eq_some.1 h2).1
  rw [hrow, h.row_length hx] at hy
  exact ⟨h.1 ▸ hx, hy⟩

theorem cell_eq_zero_of_not_lt {m : Mat} {H W x y : Nat} (h : HasShape m H W)
    (hxy : ¬ (x < H ∧ y < W)) : cell m x y = 0 := by
  unfold cell
  by_cases hx : x < m.length
  · have hy : ¬ y < (m[x]).length := by
      rw [h.row_length hx]; intro hy; exact hxy ⟨h.1 ▸ hx, hy⟩
    simp [List.getD_eq_getElem?_getD, List.getElem?_eq_getElem hx]
    rw [List.getElem?_eq_none (by omega)]; rfl
  · simp [List.getD_eq_getElem?_getD, List.getElem?_eq_none (Nat.le_of_not_lt hx)]

theorem matSet_eq_ok {m m' : Mat} {x y : Nat} {v : Int} :
    matSet m x y v = .ok m' ↔
      ∃ row, m[x]? = some row ∧ y < row.length ∧ m' = m.set x (row.set y v) := by
  unfold matSet
  cases h : m[x]? with
  | none => simp
  | some row =>
    by_cases hy : y < row.length
    · simp [hy, eq_comm]
    · simp [hy]

theorem matSet_of_shape {m : Mat} {H W x y : Nat} (v : Int) (h : HasShape m H W)
    (hx : x < H) (hy : y < W) : ∃ m', matSet m x y v = .ok m' := by
  have hx' : x < m.length := by rw [h.1]; exact hx
  have hy' : y < (m[x]).length := by rw [h.row_length hx']; exact hy
  exact ⟨_, matSet_eq_ok.2 ⟨m[x], List.getElem?_eq_getElem hx', hy', rfl⟩⟩

theorem matSet_shape {m m' : Mat} {H W x y : Nat} {v : Int} (h : HasShape m H W)
    (hs : matSet m x y v = .ok m') : HasShape m' H W := by
  obtain ⟨row, h1, h2, rfl⟩ := matSet_eq_ok.1 hs
  have hx : x < m.length := (List.getElem?_eq_some.1 h1).1
  have hrow : m[x] = row := (List.getElem?_eq_some.1 h1).2
  constructor
  · simp [h.1]
  · intro r hr
    rcases List.mem_or_eq_of_mem_set hr with hr | hr
    · exact h.2 r hr
    · rw [hr, List.length_set, ← hrow]; exact h.row_length hx

theorem matSet_cell {m m' : Mat} {x y : Nat} {v : Int}
    (hs : matSet m x y v = .ok m') (a b : Nat) :
    cell m' a b = if a = x ∧ b = y then v else cell m a b := by
  obtain ⟨row, h1, h2, rfl⟩ := matSet_eq_ok.1 hs
  have hx : x < m.length := (List.getElem?_eq_some.1 h1).1
  unfold cell
  simp only [List.getD_eq_getElem?_getD, List.getElem?_set]
  by_cases ha : x = a
  · subst ha
    simp only [hx, if_true, true_and, h1, Option.getD_some, List.getElem?_set]
    by_cases hb : y = b
    · subst hb; simp [h2]
    · simp [hb, Ne.symm hb]
  · simp [ha, Ne.symm ha]

/-- Two matrices of one shape with the same cells are equal. -/
theorem mat_ext {m m' : Mat} {H W : Nat} (h : HasShape m H W) (h' : HasShape m' H W)
    (hc : ∀ x y, x < H → y < W → cell m x y = cell m' x y) : m = m' := by
  apply List.ext_getElem (by rw [h.1, h'.1])
  intro x hx hx'
  apply List.ext_getElem (by rw [h.row_length hx, h'.row_length hx'])
  intro y hy hy'
  have := hc x y (h.1 ▸ hx) (by rw [h.row_length hx] at hy; exact hy)
  simpa [cell, List.getD_eq_getElem?_getD, List.getElem?_eq_getElem hx,
    List.getElem?_eq_getElem hx', List.getElem?_eq_getElem hy,
    List.getElem?_eq_getElem hy'] using this

theorem flat_index_lt {P H W i x y : Nat} (hi : i < P) (hx : x < H) (hy : y < W) :
    i * H * W + x * W + y < P * H * W := by
  have h1 : x * W + y < H * W := by
    calc x * W + y < x * W + W := by omega
      _ = (x + 1) * W := by ring
      _ ≤ H * W := Nat.mul_le_mul_right W hx
  have h2 : (i + 1) * (H * W) ≤ P * (H * W) := Nat.mul_le_mul_right _ hi
  have h3 : i * H * W = i * (H * W) := Nat.mul_assoc i H W
  have h4 : P * H * W = P * (H * W) := Nat.mul_assoc P H W
  have h5 : (i + 1) * (H * W) = i * (H * W) + H * W := by ring
  omega

/-- The row loop of `get_kernels` fills row `x` and leaves the other rows. -/
theorem get_kernels_row_spec (data : List Int) {P H W i x : Nat} (hlen : P * H * W ≤ data.length)
    (hi : i < P) (hx : x < H) {k : Mat} (hk : HasShape k H W) :
    ∃ k', get_kernels_row data H W i x k = .ok k' ∧ HasShape k' H W ∧
      ∀ a b, b < W → cell k' a b =
        if a = x then toByte (data.getD (i * H * W + x * W + b) 0) else cell k a b := by
  have hcols : k.cols = W := hk.cols (by omega)
  unfold get_kernels_row
  rw [hcols]
  obtain ⟨k', hrun, hsh, hcell⟩ := forUpTo_total
    (fun y t => HasShape t H W ∧ ∀ a b, cell t a b =
        if a = x ∧ b < y then toByte (data.getD (i * H * W + x * W + b) 0) else cell k a b)
    W (s := k) (f := get_kernels_cell data H W i x)
    ⟨hk, by intro a b; simp⟩
    (by
      rintro y hy t ⟨ht, hc⟩
      have hlt : i * H * W + x * W + y < data.length := by
        exact lt_of_lt_of_le (flat_index_lt hi hx hy) hlen
      obtain ⟨t', ht'⟩ := matSet_of_shape (toByte data[i * H * W + x * W + y]) ht hx hy
      refine ⟨t', ?_, matSet_shape ht ht', ?_⟩
      · simp [get_kernels_cell, idx_of_lt hlt, ht']
      · intro a b
        rw [matSet_cell ht' a b, hc a b]
        by_cases ha : a = x
        · by_cases hb : b = y
          · subst ha; subst hb
            simp [List.getD_eq_getElem?_getD, List.getElem?_eq_getElem hlt]
          · have : b < y + 1 ↔ b < y := by omega
            simp [ha, hb, this]
        · simp [ha])
  refine ⟨k', hrun, hsh, ?_⟩
  intro a b hb
  rw [hcell a b]
  by_cases ha : a = x <;> simp [ha, hb]

/-- One plane of `get_kernels`: a new `H x W` matrix of the bytes of plane `i`. -/
theorem get_kernels_plane_spec (data : List Int) {P H W i : Nat} (hlen : P * H * W ≤ data.length)
    (hi : i < P) (ks : List Mat) :
    ∃ k, get_kernels_plane data [P, H, W] i ks = .ok (ks ++ [k]) ∧ HasShape k H W ∧
      ∀ x y, x < H → y < W →
        cell k x y = toByte (data.getD (i * H * W + x * W + y) 0) := by
  obtain ⟨k, hrun, hsh, hcell⟩ := forUpTo_total
    (fun x t => HasShape t H W ∧ ∀ a b, b < W → cell t a b =
        if a < x then toByte (data.getD (i * H * W + a * W + b) 0) else 0)
    H (s := Mat.zeros H W) (f := get_kernels_row data H W i)
    ⟨hasShape_zeros H W, by intro a b _; simp [cell_zeros]⟩
    (by
      rintro x hx t ⟨ht, hc⟩
      obtain ⟨t', ht', hsh', hc'⟩ := get_kernels_row_spec data hlen hi hx ht
      refine ⟨t', ht', hsh', ?_⟩
      intro a b hb
      rw [hc' a b hb, hc a b hb]
      by_cases ha : a = x
      · subst ha; simp
      · have : a < x + 1 ↔ a < x := by omega
        simp [ha, this])
  refine ⟨k, ?_, hsh, fun x y hx hy => ?_⟩
  · have hrows : (Mat.zeros H W).rows = H := (hasShape_zeros H W).rows
    simp [get_kernels_plane, idx, hrows, hrun]
  · rw [hcell x y hy]; simp [hx]

/-- On a buffer of at least `P * H * W` values `get_kernels` returns `P` matrices
of `H x W` bytes, the byte at `(x, y)` of plane `i` being that of
`data[i*H*W + x*W + y]`. -/
theorem get_kernels_spec_le (data : List Int) (P H W : Nat) (hlen : P * H * W ≤ data.length) :
    ∃ ks, get_kernels data [P, H, W] = .ok ks ∧ ks.length = P ∧
      ∀ i, i < P → HasShape (ks.getD i []) H W ∧ ∀ x y, x < H → y < W →
        cell (ks.getD i []) x y = toByte (data.getD (i * H * W + x * W + y) 0) := by
  obtain ⟨ks, hrun, hl, hall⟩ := forUpTo_total
    (fun n (t : List Mat) => t.length = n ∧ ∀ i, i < n → HasShape (t.getD i []) H W ∧
        ∀ x y, x < H → y < W →
          cell (t.getD i []) x y = toByte (data.getD (i * H * W + x * W + y) 0))
    P (s := []) (f := get_kernels_plane data [P, H, W])
    ⟨rfl, by intro i hi; omega⟩
    (by
      rintro n hn t ⟨htl, ht⟩
      obtain ⟨k, hk, hsh, hc⟩ := get_kernels_plane_spec data hlen hn t
      refine ⟨t ++ [k], hk, by simp [htl], ?_⟩
      intro i hi
      by_cases hin : i < n
      · have : (t ++ [k]).getD i [] = t.getD i [] := by
          simp [List.getD_eq_getElem?_getD, List.getElem?_append_left (htl ▸ hin)]
        rw [this]; exact ht i hin
      · have hin' : i = n := by omega
        have : (t ++ [k]).getD i [] = k := by
          subst hin'
          simp [List.getD_eq_getElem?_getD, ← htl]
        rw [this, hin']; exact ⟨hsh, hc⟩)
  exact ⟨ks, by simp [get_kernels, idx, hrun], hl, hall⟩

/-- On a buffer of `P * H * W` values `get_kernels` returns `P` matrices of
`H x W` bytes, the byte at `(x, y)` of plane `i` being that of `data[i*H*W + x*W + y]`. -/
theorem get_kernels_spec (data : List Int) (P H W : Nat) (hlen : data.length = P * H * W) :
    ∃ ks, get_kernels data [P, H, W] = .ok ks ∧ ks.length = P ∧
      ∀ i, i < P → HasShape (ks.getD i []) H W ∧ ∀ x y, x < H → y < W →
        cell (ks.getD i []) x y = toByte (data.getD (i * H * W + x * W + y) 0) :=
  get_kernels_spec_le data P H W (le_of_eq hlen.symm)

/-! ## The area table and the initial grid -/

theorem getD_set_int (l : List Int) (i j : Nat) (a : Int) (hi : i < l.length) :
    (l.set i a).getD j 0 = if j = i then a else l.getD j 0 := by
  simp only [List.getD_eq_getElem?_getD, List.getElem?_set]
  by_cases h : i = j
  · subst h; simp [hi]
  · simp [h, Ne.symm h]

theorem cell_eq_getD (m : Mat) (x y : Nat) : cell m x y = (m.getD x []).getD y 0 := rfl

theorem take_succ_of_lt {α : Type} (l : List α) (i : Nat) (h : i < l.length) :
    l.take (i + 1) = l.take i ++ [l[i]] := by
  rw [List.take_succ, List.getElem?_eq_getElem h]; rfl

theorem getD_eq_getElem_int (l : List Int) (i : Nat) (h : i < l.length) :
    l.getD i 0 = l[i] := by
  simp [List.getD_eq_getElem?_getD, List.getElem?_eq_getElem h]

theorem getD_row_length {m : Mat} {H W x : Nat} (h : HasShape m H W) (hx : x < H) :
    (m.getD x []).length = W := by
  have hx' : x < m.length := by rw [h.1]; exact hx
  have : m.getD x [] = m[x] := by
    simp [List.getD_eq_getElem?_getD, List.getElem?_eq_getElem hx']
  rw [this]; exact h.row_length hx'

/-- The inner area loop adds, for each label, its number of cells in row `x`. -/
theorem area_row_spec {lab : Mat} {H W n x : Nat} (hsh : HasShape lab H W)
    (hr : ∀ a b, 0 ≤ cell lab a b ∧ cell lab a b ≤ (n : Int)) (hx : x < H)
    {base : List Int} (hb : base.length = n + 1) :
    ∃ area, forUpTo W (area_cell lab x) base = .ok area ∧ area.length = n + 1 ∧
      ∀ j : Nat, 0 < j → area.getD j 0 = base.getD j 0 + ((lab.getD x []).count (j : Int) : Nat) := by
  have hrow : (lab.getD x []).length = W := getD_row_length hsh hx
  obtain ⟨area, hrun, hl, hc⟩ := forUpTo_total
    (fun y (t : List Int) => t.length = n + 1 ∧ ∀ j : Nat, 0 < j →
      t.getD j 0 = base.getD j 0 + ((((lab.getD x []).take y).count (j : Int) : Nat) : Int))
    W (s := base) (f := area_cell lab x)
    ⟨hb, by intro j _; simp⟩
    (by
      rintro y hy t ⟨htl, ht⟩
      have hy' : y < (lab.getD x []).length := by rw [hrow]; exact hy
      have hm : matAt lab x y = .ok (cell lab x y) := matAt_of_shape hsh hx hy
      have hcell : cell lab x y = (lab.getD x [])[y] := by
        rw [cell_eq_getD, getD_eq_getElem_int _ _ hy']
      have htake := take_succ_of_lt (lab.getD x []) y hy'
      obtain ⟨h0, hn⟩ := hr x y
      by_cases hz : cell lab x y = 0
      · refine ⟨t, by simp [area_cell, hm, hz], htl, ?_⟩
        intro j hj
        rw [ht j hj, htake, List.count_append, ← hcell, hz]
        have : List.count (j : Int) [0] = 0 := by
          rw [List.count_singleton]; simp; omega
        simp [this]
      · have hpos : ¬ cell lab x y < 0 := by omega
        have hlt : (cell lab x y).toNat < t.length := by rw [htl]; omega
        refine ⟨t.set (cell lab x y).toNat (t[(cell lab x y).toNat] + 1),
          by simp [area_cell, hm, hz, hpos, idx_of_lt hlt], by simp [htl], ?_⟩
        intro j hj
        rw [getD_set_int _ _ _ _ hlt, htake, List.count_append, ← hcell]
        by_cases hjl : j = (cell lab x y).toNat
        · have hji : (j : Int) = cell lab x y := by omega
          have : List.count (j : Int) [cell lab x y] = 1 := by
            rw [List.count_singleton]; simp [hji]
          rw [if_pos hjl, this, ← getD_eq_getElem_int _ _ hlt, ← hjl, ht j hj]
          push_cast; ring
        · have hji : ¬ (cell lab x y = (j : Int)) := by omega
          have : List.count (j : Int) [cell lab x y] = 0 := by
            rw [List.count_singleton]; simp [hji]
          rw [if_neg hjl, this, ht j hj]; simp)
  refine ⟨area, hrun, hl, ?_⟩
  intro j hj
  rw [hc j hj, ← hrow, List.take_length]

/-- The area table holds, for each label `1 ≤ j ≤ label_num`, its pixel area. -/
theorem count_area_spec {lab : Mat} {H W n : Nat} (hsh : HasShape lab H W)
    (hr : ∀ a b, 0 ≤ cell lab a b ∧ cell lab a b ≤ (n : Int)) :
    ∃ area, count_area lab n = .ok area ∧ area.length = n + 1 ∧
      ∀ j : Nat, 0 < j → area.getD j 0 = (componentArea lab (j : Int) : Int) := by
  by_cases hH : H = 0
  · refine ⟨List.replicate (n + 1) 0, ?_, by simp, ?_⟩
    · simp [count_area, hsh.rows, hH, forUpTo]
    · intro j _
      have : lab = [] := List.length_eq_zero.1 (by rw [hsh.1, hH])
      simp [componentArea, this, List.getD_eq_getElem?_getD, List.getElem?_replicate]
      split <;> simp
  have hcols : lab.cols = W := hsh.cols (by omega)
  obtain ⟨area, hrun, hl, hc⟩ := forUpTo_total
    (fun x (t : List Int) => t.length = n + 1 ∧ ∀ j : Nat, 0 < j →
      t.getD j 0 = ((((lab.take x).map (List.count (j : Int))).sum : Nat) : Int))
    H (s := List.replicate (n + 1) 0) (f := fun x => forUpTo lab.cols (area_cell lab x))
    ⟨by simp, by
      intro j _
      simp [List.getD_eq_getElem?_getD, List.getElem?_replicate]
      split <;> simp⟩
    (by
      rintro x hx t ⟨htl, ht⟩
      rw [hcols]
      obtain ⟨t', hrun', hl', hc'⟩ := area_row_spec hsh hr hx htl
      refine ⟨t', hrun', hl', ?_⟩
      intro j hj
      have hx' : x < lab.length := by rw [hsh.1]; exact hx
      have hg : lab.getD x [] = lab[x] := by
        simp [List.getD_eq_getElem?_getD, List.getElem?_eq_getElem hx']
      rw [hc' j hj, ht j hj, take_succ_of_lt lab x hx', hg, List.map_append,
        List.sum_append]
      simp)
  refine ⟨area, by rw [count_area, hsh.rows]; exact hrun, hl, ?_⟩
  intro j hj
  rw [hc j hj, componentArea, ← hsh.1, List.take_length]

theorem seedLabel_zero (lab : Mat) : seedLabel lab 0 = 0 := by
  unfold seedLabel; split <;> rfl

theorem rowMajor_succ (H W : Nat) :
    rowMajor (H + 1) W = rowMajor H W ++ (List.range W).map (fun y => Point.mk H y) := by
  simp [rowMajor, List.range_succ, List.flatMap_append]

/-- The row loop of the initial grid (lines 58-74). -/
theorem init_row_spec {lab : Mat} {H W n x : Nat} (hsh : HasShape lab H W)
    (hr : ∀ a b, 0 ≤ cell lab a b ∧ cell lab a b ≤ (n : Int)) (hx : x < H)
    {area : List Int} (hal : area.length = n + 1)
    (ha : ∀ j : Nat, 0 < j → area.getD j 0 = (componentArea lab (j : Int) : Int))
    (q0 : List Point) :
    forUpTo W (init_cell lab area x) (List.replicate W 0, q0) =
      .ok ((lab.getD x []).map (seedLabel lab),
        q0 ++ ((List.range W).map (fun y => Point.mk x y)).filter
          (fun p => decide (seedLabel lab (cell lab p.x p.y) ≠ 0))) := by
  have hrow : (lab.getD x []).length = W := getD_row_length hsh hx
  obtain ⟨⟨row, q⟩, hrun, hl, hc, hq⟩ := forUpTo_total
    (fun y (t : List Int × List Point) => t.1.length = W ∧
      (∀ b, t.1.getD b 0 = if b < y then seedLabel lab (cell lab x b) else 0) ∧
      t.2 = q0 ++ ((List.range y).map (fun y => Point.mk x y)).filter
          (fun p => decide (seedLabel lab (cell lab p.x p.y) ≠ 0)))
    W (s := (List.replicate W 0, q0)) (f := init_cell lab area x)
    ⟨by simp, by
      intro b
      simp [List.getD_eq_getElem?_getD, List.getElem?_replicate]
      split <;> simp, by simp⟩
    (by
      rintro y hy ⟨row, q⟩ ⟨htl, ht, hq⟩
      simp only at htl ht hq
      have hm : matAt lab x y = .ok (cell lab x y) := matAt_of_shape hsh hx hy
      obtain ⟨h0, hn⟩ := hr x y
      have hkeep : seedLabel lab (cell lab x y) = 0 →
          (∀ b, row.getD b 0 = if b < y + 1 then seedLabel lab (cell lab x b) else 0) ∧
          q = q0 ++ ((List.range (y + 1)).map (fun y => Point.mk x y)).filter
            (fun p => decide (seedLabel lab (cell lab p.x p.y) ≠ 0)) := by
        intro hs
        constructor
        · intro b
          rw [ht b]
          by_cases hb : b = y
          · subst hb; simp [hs]
          · have : b < y + 1 ↔ b < y := by omega
            simp [this]
        · rw [hq, List.range_succ]; simp [List.filter_append, hs]
      by_cases hz : cell lab x y = 0
      · refine ⟨(row, q), by simp [init_cell, hm, hz], htl, ?_⟩
        exact hkeep (by rw [hz]; exact seedLabel_zero lab)
      · have hpos : ¬ cell lab x y < 0 := by omega
        have hlt : (cell lab x y).toNat < area.length := by rw [hal]; omega
        have hcast : (((cell lab x y).toNat : Nat) : Int) = cell lab x y := by omega
        have harea : area[(cell lab x y).toNat] = (componentArea lab (cell lab x y) : Int) := by
          rw [← getD_eq_getElem_int _ _ hlt, ha _ (by omega), hcast]
        by_cases hsmall : (componentArea lab (cell lab x y) : Int) < th1
        · refine ⟨(row, q), by simp [init_cell, hm, hz, area_at, hpos, idx_of_lt hlt, harea, hsmall],
            htl, ?_⟩
          exact hkeep (by simp [seedLabel, hsmall])
        · have hs : seedLabel lab (cell lab x y) = cell lab x y := by simp [seedLabel, hsmall]
          have hyl : y < row.length := by rw [htl]; exact hy
          refine ⟨(row.set y (cell lab x y), q ++ [⟨x, y⟩]),
            by simp [init_cell, hm, hz, area_at, hpos, idx_of_lt hlt, harea, hsmall, hyl],
            by simp [htl], ?_, ?_⟩
          · intro b
            simp only
            rw [getD_set_int _ _ _ _ hyl, ht b]
            by_cases hb : b = y
            · subst hb; simp [hs]
            · have : b < y + 1 ↔ b < y := by omega
              simp [hb, this]
          · simp only
            rw [hq, List.range_succ]
            simp [List.filter_append, hs, hz])
  simp only at hl hc hq
  rw [hrun, hq]
  congr 2
  apply List.ext_getElem (by rw [List.length_map, hl, hrow])
  intro b hb hb'
  have hbW : b < W := by rw [← hl]; exact hb
  have h1 := hc b
  rw [getD_eq_getElem_int _ _ hb, if_pos hbW] at h1
  rw [h1, List.getElem_map, cell_eq_getD, getD_eq_getElem_int _ _ (by rw [hrow]; exact hbW)]

/-- Lines 56-76 compute `initialGrid` and `initialQueue`. -/
theorem init_grid_spec {lab : Mat} {H W n : Nat} (hsh : HasShape lab H W)
    (hr : ∀ a b, 0 ≤ cell lab a b ∧ cell lab a b ≤ (n : Int))
    {area : List Int} (hal : area.length = n + 1)
    (ha : ∀ j : Nat, 0 < j → area.getD j 0 = (componentArea lab (j : Int) : Int)) :
    init_grid lab area = .ok (initialGrid lab, initialQueue lab) := by
  by_cases hH : H = 0
  · have : lab = [] := List.length_eq_zero.1 (by rw [hsh.1, hH])
    subst this
    simp [init_grid, Mat.rows, forUpTo, initialGrid, initialQueue, rowMajor]
  have hcols : lab.cols = W := hsh.cols (by omega)
  obtain ⟨⟨t, q⟩, hrun, ht, hq⟩ := forUpTo_total
    (fun x (t : Mat × List Point) =>
      t.1 = (lab.take x).map (List.map (seedLabel lab)) ∧
      t.2 = (rowMajor x W).filter (fun p => decide (seedLabel lab (cell lab p.x p.y) ≠ 0)))
    H (s := (([] : Mat), ([] : List Point))) (f := init_row lab area)
    ⟨by simp, by simp [rowMajor]⟩
    (by
      rintro x hx ⟨t, q⟩ ⟨ht, hq⟩
      simp only at ht hq
      have hx' : x < lab.length := by rw [hsh.1]; exact hx
      have hg : lab.getD x [] = lab[x] := by
        simp [List.getD_eq_getElem?_getD, List.getElem?_eq_getElem hx']
      refine ⟨(t ++ [(lab.getD x []).map (seedLabel lab)],
          q ++ ((List.range W).map (fun y => Point.mk x y)).filter
            (fun p => decide (seedLabel lab (cell lab p.x p.y) ≠ 0))),
        by simp only [init_row, hcols, init_row_spec hsh hr hx hal ha q,
          Outcome.bind_eq, Outcome.bind_ok, Outcome.pure_eq], ?_, ?_⟩
      · simp only
        rw [ht, take_succ_of_lt lab x hx', hg, List.map_append]; rfl
      · simp only
        rw [hq, rowMajor_succ, List.filter_append])
  simp only at ht hq
  rw [init_grid, hsh.rows, hrun, ht, hq, initialGrid, initialQueue, hsh.rows, hcols,
    ← hsh.1, List.take_length]

/-! ## One neighbour, one dequeued point -/

/-- What `visit` does: nothing, or it claims the neighbour in direction `d`. -/
theorem visit_cases {kernel : Mat} {x y : Nat} {label : Int} {d : Nat}
    {st st' : GrowState × Bool} (h : visit kernel x y label d st = .ok st') :
    st' = st ∨ ∃ tx ty k t tl, Adj4 ⟨x, y⟩ ⟨tx, ty⟩ ∧
      matAt kernel tx ty = .ok k ∧ k ≠ 0 ∧
      matAt st.1.text_line tx ty = .ok t ∧ t ≤ 0 ∧
      matSet st.1.text_line tx ty label = .ok tl ∧
      st' = ({ text_line := tl, queue := st.1.queue ++ [⟨tx, ty⟩],
               next_queue := st.1.next_queue }, false) := by
  unfold visit at h
  simp only [Outcome.bind_eq, Outcome.pure_eq, Outcome.bind_eq_ok] at h
  obtain ⟨ddx, hdx, ddy, hdy, h⟩ := h
  have hadj : ∀ tx ty : Nat, (tx : Int) = (x : Int) + ddx → (ty : Int) = (y : Int) + ddy →
      Adj4 ⟨x, y⟩ ⟨tx, ty⟩ := by
    intro tx ty h1 h2
    rw [idx_eq_ok] at hdx hdy
    have hd4 : d < 4 := by
      have := (List.getElem?_eq_some.1 hdx).1
      simpa [dx] using this
    unfold Adj4
    simp only
    interval_cases d <;> simp [dx, dy] at hdx hdy <;> subst hdx <;> subst hdy <;> omega
  split at h
  · left; exact (Outcome.ok.inj h).symm
  split at h
  · left; exact (Outcome.ok.inj h).symm
  rename_i hx1 hy1
  simp only [Outcome.bind_eq_ok] at h
  obtain ⟨row1, _, h⟩ := h
  split at h
  · left; exact (Outcome.ok.inj h).symm
  simp only [Outcome.bind_eq_ok] at h
  obtain ⟨k, hk, h⟩ := h
  split at h
  · left; exact (Outcome.ok.inj h).symm
  rename_i hk0
  simp only [Outcome.bind_eq_ok] at h
  obtain ⟨t, ht, h⟩ := h
  split at h
  · left; exact (Outcome.ok.inj h).symm
  rename_i ht0
  simp only [Outcome.bind_eq_ok] at h
  obtain ⟨tl, htl, h⟩ := h
  right
  refine ⟨((x : Int) + ddx).toNat, ((y : Int) + ddy).toNat, k, t, tl,
    hadj _ _ (by omega) (by omega), hk, hk0, ht, by omega, htl, (Outcome.ok.inj h).symm⟩

/-! ## Writes of the growth -/

theorem adj4_ne {p q : Point} (h : Adj4 p q) : ¬ (p.x = q.x ∧ p.y = q.y) := by
  unfold Adj4 at h; omega

theorem Claim.shape_kept {k g g' : Mat} {H W : Nat} (h : Claim k g g') (hs : HasShape g H W) :
    HasShape g' H W := by
  obtain ⟨p, q, _, _, _, _, hset⟩ := h
  exact matSet_shape hs hset

theorem Claim.keeps_pos {k g g' : Mat} (h : Claim k g g') {a b : Nat} (hpos : 0 < cell g a b) :
    cell g' a b = cell g a b := by
  obtain ⟨p, q, _, _, _, hq, hset⟩ := h
  rw [matSet_cell hset a b]
  split
  · rename_i hab; rw [hab.1, hab.2] at hpos; omega
  · rfl

theorem Claim.cases {k g g' : Mat} (h : Claim k g g') (a b : Nat) :
    cell g' a b = cell g a b ∨
      (cell g a b ≤ 0 ∧ 0 < cell g' a b ∧ cell k a b ≠ 0 ∧
        ∃ p : Point, Adj4 p ⟨a, b⟩ ∧ 0 < cell g p.x p.y ∧ cell g' a b = cell g p.x p.y) := by
  obtain ⟨p, q, hadj, hp, hk, hq, hset⟩ := h
  rw [matSet_cell hset a b]
  by_cases hab : a = q.x ∧ b = q.y
  · right
    rw [if_pos hab, hab.1, hab.2]
    exact ⟨hq, hp, hk, p, hadj, hp, rfl⟩
  · left; rw [if_neg hab]

theorem list_set_filter_length (row : List Int) (y : Nat) (v : Int) (hy : y < row.length)
    (hold : row[y] ≤ 0) (hnew : 0 < v) :
    ((row.set y v).filter (fun v => decide (v ≤ 0))).length + 1 =
      (row.filter (fun v => decide (v ≤ 0))).length := by
  induction row generalizing y with
  | nil => simp at hy
  | cons a as ih =>
    cases y with
    | zero =>
      simp only [List.getElem_cons_zero] at hold
      have hv : ¬ v ≤ 0 := by omega
      simp [List.set, List.filter_cons, hold, hv]
    | succ y =>
      simp only [List.getElem_cons_succ] at hold
      simp only [List.length_cons, Nat.add_lt_add_iff_right] at hy
      have := ih y hy hold
      simp only [List.set, List.filter_cons]
      split <;> simp [this]

theorem list_set_map_sum (m : Mat) (f : List Int → Nat) (x : Nat) (r : List Int)
    (hx : x < m.length) (hr : f r + 1 = f m[x]) :
    ((m.set x r).map f).sum + 1 = (m.map f).sum := by
  induction m generalizing x with
  | nil => simp at hx
  | cons a as ih =>
    cases x with
    | zero =>
      simp only [List.getElem_cons_zero] at hr
      simp [List.set]; omega
    | succ x =>
      simp only [List.getElem_cons_succ] at hr
      simp only [List.length_cons, Nat.add_lt_add_iff_right] at hx
      have := ih x hx hr
      simp only [List.set, List.map_cons, List.sum_cons]; omega

theorem matSet_unlabelled {g g' : Mat} {x y : Nat} {v : Int} (hset : matSet g x y v = .ok g')
    (hold : cell g x y ≤ 0) (hnew : 0 < v) : unlabelled g' + 1 = unlabelled g := by
  obtain ⟨row, h1, h2, rfl⟩ := matSet_eq_ok.1 hset
  have hx : x < g.length := (List.getElem?_eq_some.1 h1).1
  have hrow : g[x] = row := (List.getElem?_eq_some.1 h1).2
  unfold unlabelled
  apply list_set_map_sum g _ x _ hx
  rw [hrow]
  apply list_set_filter_length row y v h2 _ hnew
  have : cell g x y = row[y] := by
    simp [cell, List.getD_eq_getElem?_getD, h1, List.getElem?_eq_getElem h2]
  rw [← this]; exact hold

theorem Claim.unlabelled {k g g' : Mat} (h : Claim k g g') :
    unlabelled g' + 1 = unlabelled g := by
  obtain ⟨p, q, _, hp, _, hq, hset⟩ := h
  exact matSet_unlabelled hset hq hp

theorem Claim.nonneg_kept {k g g' : Mat} (h : Claim k g g') (hn : ∀ a b, 0 ≤ cell g a b) :
    ∀ a b, 0 ≤ cell g' a b := by
  intro a b
  rcases h.cases a b with h1 | ⟨_, h2, _⟩
  · rw [h1]; exact hn a b
  · omega

theorem Claim.is_monotone {k g g' : Mat} (h : Claim k g g') (hn : ∀ a b, 0 ≤ cell g a b) :
    Monotone g g' := by
  intro a b
  have h0 := hn a b
  rcases h.cases a b with h1 | ⟨h2, h3, _⟩
  · exact ⟨fun _ => h1, fun hne => absurd h1 hne⟩
  · exact ⟨fun hne => by omega, fun _ => ⟨by omega, h3⟩⟩

theorem Monotone.self (g : Mat) : Monotone g g :=
  fun _ _ => ⟨fun _ => rfl, fun h => absurd rfl h⟩

theorem Monotone.comp {g1 g2 g3 : Mat} (h12 : Monotone g1 g2) (h23 : Monotone g2 g3) :
    Monotone g1 g3 := by
  intro a b
  obtain ⟨k1, c1⟩ := h12 a b
  obtain ⟨k2, c2⟩ := h23 a b
  constructor
  · intro hne
    rw [k2 (by rw [k1 hne]; exact hne), k1 hne]
  · intro hne
    by_cases h : cell g2 a b = cell g1 a b
    · rw [h] at c2 k2
      exact c2 hne
    · obtain ⟨hz, hp⟩ := c1 h
      refine ⟨hz, ?_⟩
      rw [k2 (by omega)]; exact hp

theorem Grown.refl (kernels : List Mat) (g : Mat) : Grown kernels g g :=
  Relation.ReflTransGen.refl

theorem Grown.trans {kernels : List Mat} {g1 g2 g3 : Mat} (h12 : Grown kernels g1 g2)
    (h23 : Grown kernels g2 g3) : Grown kernels g1 g3 :=
  Relation.ReflTransGen.trans h12 h23

theorem Grown.of_claim {kernels : List Mat} {k g g' : Mat} (hk : k ∈ kernels)
    (h : Claim k g g') : Grown kernels g g' :=
  Relation.ReflTransGen.single ⟨k, hk, h⟩

/-- Induction along a grown grid, for a property of grids kept by each write. -/
theorem Grown.induct {kernels : List Mat} {g g' : Mat} (P : Mat → Prop) (h : Grown kernels g g')
    (h0 : P g) (hstep : ∀ k a b, k ∈ kernels → P a → Claim k a b → P b) : P g' := by
  induction h with
  | refl => exact h0
  | tail _ hc ih =>
    obtain ⟨k, hk, hcl⟩ := hc
    exact hstep k _ _ hk ih hcl

theorem Grown.shape {kernels : List Mat} {g g' : Mat} {H W : Nat} (h : Grown kernels g g')
    (hs : HasShape g H W) : HasShape g' H W :=
  h.induct (fun m => HasShape m H W) hs (fun _ _ _ _ ha hc => hc.shape_kept ha)

theorem Grown.nonneg {kernels : List Mat} {g g' : Mat} (h : Grown kernels g g')
    (hn : ∀ a b, 0 ≤ cell g a b) : ∀ a b, 0 ≤ cell g' a b :=
  h.induct (fun m => ∀ a b, 0 ≤ cell m a b) hn (fun _ _ _ _ ha hc => hc.nonneg_kept ha)

theorem Grown.keeps {kernels : List Mat} {g g' : Mat} (h : Grown kernels g g') {a b : Nat}
    (hpos : 0 < cell g a b) : cell g' a b = cell g a b :=
  h.induct (fun m => cell m a b = cell g a b) rfl
    (fun _ _ _ _ ha hc => by
      simp only at ha ⊢
      rw [hc.keeps_pos (by rw [ha]; exact hpos), ha])

theorem Grown.monotone {kernels : List Mat} {g g' : Mat} (h : Grown kernels g g')
    (hn : ∀ a b, 0 ≤ cell g a b) : Monotone g g' := by
  have := h.induct (fun m => Monotone g m ∧ ∀ a b, 0 ≤ cell m a b) ⟨Monotone.self g, hn⟩
    (fun _ _ _ _ ha hc => ⟨ha.1.comp (hc.is_monotone ha.2), hc.nonneg_kept ha.2⟩)
  exact this.1

theorem Grown.mono {ks ks' : List Mat} {g g' : Mat} (hsub : ∀ k ∈ ks, k ∈ ks')
    (h : Grown ks g g') : Grown ks' g g' :=
  Relation.ReflTransGen.mono (fun _ _ ⟨k, hk, hc⟩ => ⟨k, hsub k hk, hc⟩) h

theorem Grown.unlabelled_le {ks : List Mat} {g g' : Mat} (h : Grown ks g g') :
    unlabelled g' ≤ unlabelled g :=
  h.induct (fun m => unlabelled m ≤ unlabelled g) (Nat.le_refl _)
    (fun _ _ _ _ ha hc => by have := hc.unlabelled; simp only at ha ⊢; omega)

/-- What one iteration of the `while` loop does to the state left by `pop`. -/
theorem process_point_spec {kernel : Mat} {point : Point} {st st' : GrowState}
    (hpos : 0 < cell st.text_line point.x point.y)
    (h : process_point kernel point st = .ok st') :
    Grown [kernel] st.text_line st'.text_line ∧
    ∃ new, st'.queue = st.queue ++ new ∧
      st'.next_queue = st.next_queue ++ (if new = [] then [point] else []) ∧
      (∀ q ∈ new, Adj4 point q ∧ cell kernel q.x q.y ≠ 0 ∧ cell st.text_line q.x q.y ≤ 0 ∧
        cell st'.text_line q.x q.y = cell st.text_line point.x point.y) ∧
      (∀ a b, cell st.text_line a b ≤ 0 → 0 < cell st'.text_line a b → Point.mk a b ∈ new) ∧
      unlabelled st'.text_line + new.length = unlabelled st.text_line := by
  unfold process_point at h
  simp only [Outcome.bind_eq, Outcome.pure_eq, Outcome.bind_eq_ok] at h
  obtain ⟨label, hlabel, r, hrun, h⟩ := h
  have hl : cell st.text_line point.x point.y = label := cell_of_matAt hlabel
  rw [hl] at hpos
  have hJ := forUpTo_inv
    (fun (_ : Nat) (t : GrowState × Bool) =>
      Grown [kernel] st.text_line t.1.text_line ∧ t.1.next_queue = st.next_queue ∧
      ∃ new, t.1.queue = st.queue ++ new ∧ (t.2 = true ↔ new = []) ∧
        (∀ q ∈ new, Adj4 point q ∧ cell kernel q.x q.y ≠ 0 ∧ cell st.text_line q.x q.y ≤ 0 ∧
          cell t.1.text_line q.x q.y = label) ∧
        (∀ a b, cell st.text_line a b ≤ 0 → 0 < cell t.1.text_line a b → Point.mk a b ∈ new) ∧
        unlabelled t.1.text_line + new.length = unlabelled st.text_line)
    4 (s := (st, true)) (r := r) (f := visit kernel point.x point.y label)
    ⟨Grown.refl _ _, rfl, [], by simp, by simp, by simp,
      by intro a b h1 h2; simp only at h2; omega, by simp⟩
    (by
      rintro d _ ⟨s, flag⟩ t' ⟨hch, hnq, new, hq, hflag, hnew, hall, hunl⟩ hv
      simp only at hch hnq hq hflag hnew hall hunl
      rcases visit_cases hv with rfl | ⟨tx, ty, k, t, tl, hadj, hk, hk0, ht, ht0, hset, rfl⟩
      · exact ⟨hch, hnq, new, hq, hflag, hnew, hall, hunl⟩
      · simp only at hk ht hset
        have hpl : cell s.text_line point.x point.y = label := by
          rw [hch.keeps (by rw [hl]; exact hpos), hl]
        have hkc : cell kernel tx ty ≠ 0 := by rw [cell_of_matAt hk]; exact hk0
        have htc : cell s.text_line tx ty ≤ 0 := by rw [cell_of_matAt ht]; exact ht0
        have hclaim : Claim kernel s.text_line tl :=
          ⟨point, ⟨tx, ty⟩, hadj, by rw [hpl]; exact hpos, hkc, htc, by rw [hpl]; exact hset⟩
        refine ⟨hch.trans (Grown.of_claim (List.mem_singleton.2 rfl) hclaim), hnq,
          new ++ [⟨tx, ty⟩], by simp [hq], by simp, ?_, ?_, ?_⟩
        · intro q hqm
          rcases List.mem_append.1 hqm with hqm | hqm
          · obtain ⟨h1, h2, h3, h4⟩ := hnew q hqm
            refine ⟨h1, h2, h3, ?_⟩
            simp only
            rw [hclaim.keeps_pos (by rw [h4]; exact hpos), h4]
          · rw [List.mem_singleton] at hqm
            subst hqm
            refine ⟨hadj, hkc, ?_, ?_⟩
            · show cell st.text_line tx ty ≤ 0
              by_contra hcon
              have := hch.keeps (a := tx) (b := ty) (by omega)
              omega
            · simp only
              rw [matSet_cell hset]; simp
        · intro a b h1 h2
          simp only at h2
          rw [matSet_cell hset] at h2
          by_cases hab : a = tx ∧ b = ty
          · rw [hab.1, hab.2]; simp
          · rw [if_neg hab] at h2
            exact List.mem_append_left _ (hall a b h1 h2)
        · simp only [List.length_append, List.length_singleton]
          have := hclaim.unlabelled
          omega)
    hrun
  obtain ⟨hch, hnq, new, hq, hflag, hnew, hall, hunl⟩ := hJ
  by_cases hr2 : r.2 = true
  · rw [if_pos hr2] at h
    have hst' := (Outcome.ok.inj h).symm
    subst hst'
    have hne := hflag.1 hr2
    exact ⟨hch, new, hq, by simp [hne, hnq], by rw [hl]; exact hnew, hall, hunl⟩
  · rw [if_neg hr2] at h
    have hst' := (Outcome.ok.inj h).symm
    subst hst'
    have hne : new ≠ [] := fun hc => hr2 (hflag.2 hc)
    exact ⟨hch, new, hq, by simp [hne, hnq], by rw [hl]; exact hnew, hall, hunl⟩

/-- An iteration of the `while` loop keeps the invariant of the growth. -/
theorem process_point_good {kernel : Mat} {point : Point} {st st' : GrowState} {H W : Nat}
    (hg : GoodState H W { st with queue := point :: st.queue })
    (h : process_point kernel point st = .ok st') : GoodState H W st' := by
  have hpos : 0 < cell st.text_line point.x point.y := hg.queued point (by simp)
  obtain ⟨hch, new, hq, hnq, hnew, _, _⟩ := process_point_spec hpos h
  refine ⟨hch.shape hg.shape, hch.nonneg hg.nonneg, ?_⟩
  intro p hp
  have hold : ∀ p, p = point ∨ p ∈ st.queue ∨ p ∈ st.next_queue →
      0 < cell st'.text_line p.x p.y := by
    intro p hp
    have : 0 < cell st.text_line p.x p.y := hg.queued p (by
      simp only [List.mem_append, List.mem_cons]; tauto)
    rw [hch.keeps this]; exact this
  rw [hq, hnq] at hp
  simp only [List.mem_append] at hp
  rcases hp with (hp | hp) | (hp | hp)
  · exact hold p (Or.inr (Or.inl hp))
  · rw [(hnew p hp).2.2.2]; exact hpos
  · exact hold p (Or.inr (Or.inr hp))
  · split at hp
    · rw [List.mem_singleton] at hp; exact hold p (Or.inl hp)
    · simp at hp

/-! ## The loops of the growth -/

/-- The `while` loop keeps the invariant, ends with an empty queue and only
performs writes of the growth against its plane. -/
theorem whileQueue_spec {kernel : Mat} {fuel : Nat} {st st' : GrowState} {H W : Nat}
    (hg : GoodState H W st) (h : whileQueue kernel fuel st = .ok st') :
    GoodState H W st' ∧ st'.queue = [] ∧ Grown [kernel] st.text_line st'.text_line := by
  induction fuel generalizing st with
  | zero =>
    unfold whileQueue at h
    split at h
    · rename_i hq
      have := (Outcome.ok.inj h).symm; subst this
      exact ⟨hg, hq, Grown.refl _ _⟩
    · simp at h
  | succ f ih =>
    unfold whileQueue at h
    split at h
    · rename_i hq
      have := (Outcome.ok.inj h).symm; subst this
      exact ⟨hg, hq, Grown.refl _ _⟩
    · rename_i point rest hq
      simp only [Outcome.bind_eq_ok] at h
      obtain ⟨s, hs, hrest⟩ := h
      have hg' : GoodState H W { { st with queue := rest } with queue := point :: rest } := by
        have : ({ { st with queue := rest } with queue := point :: rest } : GrowState) = st := by
          cases st; simp only at hq; simp [hq]
        rw [this]; exact hg
      have hgs := process_point_good hg' hs
      have hpos : 0 < cell st.text_line point.x point.y := hg.queued point (by simp [hq])
      obtain ⟨hch, _⟩ := @process_point_spec _ _ { st with queue := rest } _ hpos hs
      obtain ⟨h1, h2, h3⟩ := ih hgs hrest
      exact ⟨h1, h2, Grown.trans hch h3⟩

theorem idx_mem {α : Type} {l : List α} {i : Nat} {a : α} (h : idx l i = .ok a) : a ∈ l := by
  rw [idx_eq_ok] at h
  obtain ⟨hi, rfl⟩ := List.getElem?_eq_some.1 h
  exact List.getElem_mem hi

/-- A growth round keeps the invariant and only performs writes of the growth. -/
theorem grow_round_spec {kernels : List Mat} {kernel_id : Nat} {st st' : GrowState} {H W : Nat}
    (hg : GoodState H W st) (h : grow_round kernels kernel_id st = .ok st') :
    GoodState H W st' ∧ Grown kernels st.text_line st'.text_line := by
  unfold grow_round at h
  simp only [Outcome.bind_eq, Outcome.pure_eq, Outcome.bind_eq_ok] at h
  obtain ⟨kernel, hk, s, hs, h⟩ := h
  have := (Outcome.ok.inj h).symm; subst this
  obtain ⟨h1, _, h3⟩ := whileQueue_spec hg hs
  refine ⟨⟨h1.shape, h1.nonneg, ?_⟩, h3.mono (fun k hk' => ?_)⟩
  · intro p hp
    apply h1.queued p
    simp only [List.mem_append] at hp ⊢
    tauto
  · rw [List.mem_singleton] at hk'; subst hk'; exact idx_mem hk

/-- All growth rounds keep the invariant and only perform writes of the growth. -/
theorem grow_rounds_spec {kernels : List Mat} {n : Nat} {st st' : GrowState} {H W : Nat}
    (hg : GoodState H W st) (h : grow_rounds kernels n st = .ok st') :
    GoodState H W st' ∧ Grown kernels st.text_line st'.text_line := by
  induction n generalizing st with
  | zero =>
    simp only [grow_rounds] at h
    have := (Outcome.ok.inj h).symm; subst this
    exact ⟨hg, Grown.refl _ _⟩
  | succ k ih =>
    simp only [grow_rounds, Outcome.bind_eq_ok] at h
    obtain ⟨s, hs, hrest⟩ := h
    obtain ⟨h1, h2⟩ := grow_round_spec hg hs
    obtain ⟨h3, h4⟩ := ih h1 hrest
    exact ⟨h3, h2.trans h4⟩

/-! ## The initial state -/

theorem hasShape_of_map_length {m m' : Mat} {H W : Nat}
    (h : m.map List.length = m'.map List.length) (hs : HasShape m' H W) : HasShape m H W := by
  constructor
  · have := congrArg List.length h
    simp only [List.length_map] at this
    rw [this, hs.1]
  · intro row hrow
    have : row.length ∈ m.map List.length := List.mem_map_of_mem _ hrow
    rw [h, List.mem_map] at this
    obtain ⟨row', hrow', hl⟩ := this
    rw [← hl]; exact hs.2 row' hrow'

theorem cell_zero_or_mem (m : Mat) (a b : Nat) :
    cell m a b = 0 ∨ ∃ row ∈ m, cell m a b ∈ row := by
  unfold cell
  by_cases ha : a < m.length
  · by_cases hb : b < (m[a]).length
    · right
      refine ⟨m[a], List.getElem_mem ha, ?_⟩
      simp only [List.getD_eq_getElem?_getD, List.getElem?_eq_getElem ha, Option.getD_some,
        List.getElem?_eq_getElem hb]
      exact List.getElem_mem hb
    · left
      simp only [List.getD_eq_getElem?_getD, List.getElem?_eq_getElem ha, Option.getD_some]
      rw [List.getElem?_eq_none (by omega)]; rfl
  · left
    simp [List.getD_eq_getElem?_getD, List.getElem?_eq_none (Nat.le_of_not_lt ha)]

theorem CCSpec.hasShape {img : Mat} {r : Nat × Mat} {H W : Nat} (h : CCSpec img r)
    (hs : HasShape img H W) : HasShape r.2 H W :=
  hasShape_of_map_length h.shape hs

theorem CCSpec.cell_range {img : Mat} {r : Nat × Mat} (h : CCSpec img r) (a b : Nat) :
    0 ≤ cell r.2 a b ∧ cell r.2 a b ≤ (r.1 : Int) := by
  rcases cell_zero_or_mem r.2 a b with h0 | ⟨row, hrow, hmem⟩
  · rw [h0]; exact ⟨le_refl _, Int.natCast_nonneg _⟩
  · have := h.range row hrow _ hmem
    omega

theorem cell_map (m : Mat) (f : Int → Int) (hf : f 0 = 0) (a b : Nat) :
    cell (m.map (List.map f)) a b = f (cell m a b) := by
  unfold cell
  simp only [List.getD_eq_getElem?_getD, List.getElem?_map]
  cases h1 : m[a]? with
  | none => simp [hf]
  | some row =>
    simp only [Option.map_some', Option.getD_some, List.getElem?_map]
    cases h2 : row[b]? <;> simp [hf]

theorem cell_initialGrid (lab : Mat) (a b : Nat) :
    cell (initialGrid lab) a b = seedLabel lab (cell lab a b) :=
  cell_map lab (seedLabel lab) (seedLabel_zero lab) a b

theorem hasShape_initialGrid {lab : Mat} {H W : Nat} (h : HasShape lab H W) :
    HasShape (initialGrid lab) H W := by
  apply hasShape_of_map_length _ h
  simp [initialGrid, Function.comp_def]

theorem seedLabel_cases (lab : Mat) (l : Int) :
    (seedLabel lab l = 0 ∧ ((componentArea lab l : Int) < 10 ∨ l = 0)) ∨
    (seedLabel lab l = l ∧ (10 : Int) ≤ componentArea lab l ∧ l ≠ 0) := by
  unfold seedLabel th1
  by_cases h : (componentArea lab l : Int) < 10
  · left; simp [h]
  · by_cases hl : l = 0
    · left; simp [h, hl]
    · right; simp [h, hl]; omega

theorem mem_initialQueue {lab : Mat} {p : Point} (h : p ∈ initialQueue lab) :
    cell (initialGrid lab) p.x p.y ≠ 0 := by
  unfold initialQueue at h
  rw [List.mem_filter] at h
  rw [cell_initialGrid]
  simpa using h.2

theorem seedOf_idx {kernels : List Mat} (h : 0 < kernels.length) :
    idx kernels (kernels.length - 1) = .ok (seedOf kernels) := by
  rw [idx_eq_ok, seedOf, List.getD_eq_getElem?_getD,
    List.getElem?_eq_getElem (by omega : kernels.length - 1 < kernels.length)]
  rfl

theorem seedOf_mem {kernels : List Mat} (h : 0 < kernels.length) : seedOf kernels ∈ kernels :=
  idx_mem (seedOf_idx h)

/-- On a valid stack lines 41-76 complete; they leave `initialGrid` of the
label image as grid and `initialQueue` as queue. -/
theorem initial_state_spec {cc : Mat → Nat × Mat} {kernels : List Mat} {H W : Nat}
    (hv : ValidStack cc kernels H W) :
    initial_state cc kernels = .ok
      { text_line := initialGrid (labelsOf cc kernels),
        queue := initialQueue (labelsOf cc kernels), next_queue := [] } := by
  have hsh : HasShape (labelsOf cc kernels) H W :=
    hv.labelled.hasShape (hv.shape _ (seedOf_mem hv.nonempty))
  obtain ⟨area, harea, hal, ha⟩ := count_area_spec hsh hv.labelled.cell_range
  have hinit := init_grid_spec hsh hv.labelled.cell_range hal ha
  have hne : ¬ kernels.length = 0 := by have := hv.nonempty; omega
  unfold labelsOf at harea hinit
  simp only [initial_state, hne, if_false, seedOf_idx hv.nonempty, Outcome.bind_eq,
    Outcome.bind_ok, harea, hinit, Outcome.pure_eq]
  rfl

theorem initialGrid_nonneg {lab : Mat} (hr : ∀ a b, 0 ≤ cell lab a b) (a b : Nat) :
    0 ≤ cell (initialGrid lab) a b := by
  rw [cell_initialGrid]
  rcases seedLabel_cases lab (cell lab a b) with ⟨h, _⟩ | ⟨h, _⟩
  · rw [h]
  · rw [h]; exact hr a b

/-- The initial state satisfies the invariant of the growth. -/
theorem initial_state_good {cc : Mat → Nat × Mat} {kernels : List Mat} {H W : Nat}
    (hv : ValidStack cc kernels H W) :
    GoodState H W { text_line := initialGrid (labelsOf cc kernels),
                    queue := initialQueue (labelsOf cc kernels), next_queue := [] } := by
  have hsh : HasShape (labelsOf cc kernels) H W :=
    hv.labelled.hasShape (hv.shape _ (seedOf_mem hv.nonempty))
  have hnn : ∀ a b, 0 ≤ cell (initialGrid (labelsOf cc kernels)) a b :=
    initialGrid_nonneg (fun a b => (hv.labelled.cell_range a b).1)
  refine ⟨hasShape_initialGrid hsh, hnn, ?_⟩
  intro p hp
  simp only [List.append_nil] at hp
  have h1 := mem_initialQueue hp
  have h2 := hnn p.x p.y
  show 0 < cell (initialGrid (labelsOf cc kernels)) p.x p.y
  omega

/-- On a valid stack every result of `growing_text_line` is grown from the
initial grid by writes of the growth. -/
theorem growing_text_line_grown {cc : Mat → Nat × Mat} {kernels : List Mat} {H W : Nat}
    (hv : ValidStack cc kernels H W) {g : Mat} (h : growing_text_line cc kernels = .ok g) :
    Grown kernels (initialGrid (labelsOf cc kernels)) g := by
  unfold growing_text_line at h
  simp only [Outcome.bind_eq, Outcome.pure_eq, initial_state_spec hv, Outcome.bind_ok,
    Outcome.bind_eq_ok] at h
  obtain ⟨st, hst, h⟩ := h
  have := (Outcome.ok.inj h).symm; subst this
  exact (grow_rounds_spec (initial_state_good hv) hst).2

/-! ## A sufficient test for the contract of `connectedComponents` -/

theorem fg_in_bounds {m : Mat} {H W x y : Nat} (h : HasShape m H W) (hne : cell m x y ≠ 0) :
    x < H ∧ y < W := by
  by_contra hcon
  exact hne (cell_eq_zero_of_not_lt h hcon)

theorem mem_rowMajor {H W : Nat} {p : Point} : p ∈ rowMajor H W ↔ p.x < H ∧ p.y < W := by
  unfold rowMajor
  simp only [List.mem_flatMap, List.mem_range, List.mem_map]
  constructor
  · rintro ⟨x, hx, y, hy, rfl⟩; exact ⟨hx, hy⟩
  · rintro ⟨hx, hy⟩; exact ⟨p.x, hx, p.y, hy, rfl⟩

theorem cell_map_bool (m : Mat) (f : Int → Bool) (a b : Nat) :
    (((m.map (List.map f)).getD a []).getD b (f 0)) = f (cell m a b) := by
  unfold cell
  simp only [List.getD_eq_getElem?_getD, List.getElem?_map]
  cases h1 : m[a]? with
  | none => simp
  | some row =>
    simp only [Option.map_some', Option.getD_some, List.getElem?_map]
    cases h2 : row[b]? <;> simp

theorem adj4_symm {p q : Point} (h : Adj4 p q) : Adj4 q p := by
  unfold Adj4 at h ⊢; omega

theorem Connected4.symm {fg : Point → Prop} {p q : Point} (h : Connected4 fg p q) :
    Connected4 fg q p := by
  have hs : Symmetric (fun a b : Point => fg a ∧ fg b ∧ Adj4 a b) :=
    fun _ _ ⟨h1, h2, h3⟩ => ⟨h2, h1, adj4_symm h3⟩
  exact Relation.ReflTransGen.symmetric hs h

theorem Connected4.append {fg : Point → Prop} {p q r : Point} (h1 : Connected4 fg p q)
    (h2 : Connected4 fg q r) : Connected4 fg p r :=
  Relation.ReflTransGen.trans h1 h2

theorem Connected4.step {fg : Point → Prop} {p q : Point} (hp : fg p) (hq : fg q)
    (h : Adj4 p q) : Connected4 fg p q :=
  Relation.ReflTransGen.single ⟨hp, hq, h⟩

/-- Every foreground cell is joined to a root by steps to the left and upwards. -/
theorem connected_to_root (img : Mat) (n : Nat) :
    ∀ p : Point, p.x + p.y ≤ n → Fg img p → ∃ r, isRoot img r ∧ Connected4 (Fg img) p r := by
  induction n with
  | zero =>
    intro p hp hfg
    refine ⟨p, ⟨hfg, Or.inl (by omega), Or.inl (by omega)⟩, Relation.ReflTransGen.refl⟩
  | succ n ih =>
    intro p hp hfg
    by_cases hl : p.y = 0 ∨ cell img p.x (p.y - 1) = 0
    · by_cases hu : p.x = 0 ∨ cell img (p.x - 1) p.y = 0
      · exact ⟨p, ⟨hfg, hl, hu⟩, Relation.ReflTransGen.refl⟩
      · push_neg at hu
        have hfg' : Fg img ⟨p.x - 1, p.y⟩ := hu.2
        have hx0 := hu.1
        obtain ⟨r, hr, hc⟩ := ih ⟨p.x - 1, p.y⟩ (by simp only; omega) hfg'
        refine ⟨r, hr, (Connected4.step hfg hfg' (Or.inr ⟨rfl, Or.inr ?_⟩)).append hc⟩
        show p.x - 1 + 1 = p.x
        omega
    · push_neg at hl
      have hfg' : Fg img ⟨p.x, p.y - 1⟩ := hl.2
      have hy0 := hl.1
      obtain ⟨r, hr, hc⟩ := ih ⟨p.x, p.y - 1⟩ (by simp only; omega) hfg'
      refine ⟨r, hr, (Connected4.step hfg hfg' (Or.inl ⟨rfl, Or.inr ?_⟩)).append hc⟩
      show p.y - 1 + 1 = p.y
      omega

/-- The test `CCCheck` implies the contract `CCSpec`. -/
theorem CCSpec.of_check {img : Mat} {r : Nat × Mat} (h : CCCheck img r) : CCSpec img r := by
  obtain ⟨hsh, hzero, hrange, hlocal, hroots⟩ := h
  have hz : ∀ x y, cell r.2 x y = 0 ↔ cell img x y = 0 := by
    intro x y
    have h1 := cell_map_bool r.2 (fun v => decide (v = 0)) x y
    have h2 := cell_map_bool img (fun v => decide (v = 0)) x y
    rw [hzero, h2] at h1
    simpa using h1.symm
  have hadj : ∀ p q : Point, Fg img p → Fg img q → Adj4 p q →
      cell r.2 p.x p.y = cell r.2 q.x q.y := by
    intro p q hp hq ha
    obtain ⟨hpx, hpy⟩ := fg_in_bounds hsh hp
    obtain ⟨hqx, hqy⟩ := fg_in_bounds hsh hq
    obtain ⟨px, py⟩ := p
    obtain ⟨qx, qy⟩ := q
    unfold Fg at hp hq
    unfold Adj4 at ha
    simp only at hp hq ha hpx hpy hqx hqy ⊢
    rcases ha with ⟨rfl, rfl | rfl⟩ | ⟨rfl, rfl | rfl⟩
    · exact ((hlocal px hpx py hpy hp).2 hq).symm
    · exact (hlocal px hqx qy hqy hq).2 hp
    · exact ((hlocal px hpx py hpy hp).1 hq).symm
    · exact (hlocal qx hqx py hqy hq).1 hp
  have hconn : ∀ p q : Point, Connected4 (Fg img) p q →
      cell r.2 p.x p.y = cell r.2 q.x q.y := by
    intro p q hc
    induction hc with
    | refl => rfl
    | tail _ hstep ih => rw [ih]; exact hadj _ _ hstep.1 hstep.2.1 hstep.2.2
  refine ⟨?_, hrange, ?_, ?_⟩
  · have := congrArg (List.map List.length) hzero
    simpa [Function.comp_def] using this
  · intro x y; exact not_congr (hz x y)
  · intro p q hp hq
    refine ⟨fun heq => ?_, hconn p q⟩
    obtain ⟨rp, hrp, hcp⟩ := connected_to_root img (p.x + p.y) p (le_refl _) hp
    obtain ⟨rq, hrq, hcq⟩ := connected_to_root img (q.x + q.y) q (le_refl _) hq
    have hlab : cell r.2 rp.x rp.y = cell r.2 rq.x rq.y := by
      rw [← hconn p rp hcp, ← hconn q rq hcq]; exact heq
    have hmem : ∀ t : Point, isRoot img t →
        t ∈ (rowMajor img.rows img.cols).filter (fun p => decide (isRoot img p)) := by
      intro t ht
      rw [List.mem_filter]
      exact ⟨mem_rowMajor.2 (fg_in_bounds hsh ht.1), by simpa using ht⟩
    have : rp = rq := List.inj_on_of_nodup_map hroots (hmem rp hrp) (hmem rq hrq) hlab
    rw [this] at hcp
    exact hcp.append hcq.symm

/-! ## Where labels come from -/

/-- Every non-zero cell of a grown grid is foreground in some plane and carries
the value of a cell of the start grid to which a 4-path through the union of
the foregrounds leads. -/
theorem Grown.provenance {kernels : List Mat} {g0 g : Mat} (h : Grown kernels g0 g)
    (h0 : ∀ a b, cell g0 a b ≠ 0 → ∃ k ∈ kernels, cell k a b ≠ 0) :
    ∀ a b, cell g a b ≠ 0 → (∃ k ∈ kernels, cell k a b ≠ 0) ∧
      ∃ s : Point, cell g0 s.x s.y = cell g a b ∧ Connected4 (FgAny kernels) s ⟨a, b⟩ := by
  refine h.induct (fun m => ∀ a b, cell m a b ≠ 0 → (∃ k ∈ kernels, cell k a b ≠ 0) ∧
      ∃ s : Point, cell g0 s.x s.y = cell m a b ∧ Connected4 (FgAny kernels) s ⟨a, b⟩)
    (fun a b hne => ⟨h0 a b hne, ⟨a, b⟩, rfl, Relation.ReflTransGen.refl⟩) ?_
  intro k m m' hk ih hc a b hne
  rcases hc.cases a b with heq | ⟨_, _, hkab, p, hadj, hp, hval⟩
  · rw [heq] at hne ⊢; exact ih a b hne
  · refine ⟨⟨k, hk, hkab⟩, ?_⟩
    obtain ⟨hfp, s, hs, hcs⟩ := ih p.x p.y (by omega)
    refine ⟨s, by rw [hval]; exact hs, hcs.append (Connected4.step ?_ ?_ hadj)⟩
    · exact hfp
    · exact ⟨k, hk, hkab⟩

theorem initialGrid_ne_zero {lab : Mat} {a b : Nat} (h : cell (initialGrid lab) a b ≠ 0) :
    cell (initialGrid lab) a b = cell lab a b ∧ cell lab a b ≠ 0 ∧
      10 ≤ componentArea lab (cell lab a b) := by
  rw [cell_initialGrid] at h ⊢
  rcases seedLabel_cases lab (cell lab a b) with ⟨h1, _⟩ | ⟨h1, h2, h3⟩
  · exact absurd h1 h
  · exact ⟨h1, h3, by exact_mod_cast h2⟩

theorem initialGrid_foreground {cc : Mat → Nat × Mat} {kernels : List Mat} {H W : Nat}
    (hv : ValidStack cc kernels H W) (a b : Nat)
    (h : cell (initialGrid (labelsOf cc kernels)) a b ≠ 0) :
    ∃ k ∈ kernels, cell k a b ≠ 0 :=
  ⟨seedOf kernels, seedOf_mem hv.nonempty,
    (hv.labelled.foreground a b).1 (initialGrid_ne_zero h).2.1⟩

/-- With an empty queue and an empty next queue the rounds change nothing. -/
theorem grow_rounds_empty (kernels : List Mat) (n : Nat) (hn : n ≤ kernels.length) (g : Mat) :
    grow_rounds kernels n { text_line := g, queue := [], next_queue := [] } =
      .ok { text_line := g, queue := [], next_queue := [] } := by
  induction n with
  | zero => rfl
  | succ k ih =>
    have hk : k < kernels.length := by omega
    simp only [grow_rounds, grow_round, idx_of_lt hk, Outcome.bind_eq, Outcome.bind_ok,
      whileQueue, Outcome.pure_eq]
    exact ih (by omega)

/-! ## Completion on grids of at least two rows -/

/-- With at least two rows, a visit of a neighbour completes. -/
theorem visit_total {kernel : Mat} {x y : Nat} {label : Int} {d : Nat}
    {st : GrowState × Bool} {H W : Nat} (hs : HasShape st.1.text_line H W) (hH : 2 ≤ H)
    (hk : HasShape kernel H W) (hd : d < 4) :
    ∃ st', visit kernel x y label d st = .ok st' := by
  have hlen : st.1.text_line.length = H := hs.1
  have h1lt : 1 < st.1.text_line.length := by omega
  have h1 : idx st.1.text_line 1 = .ok (st.1.text_line[1]) := idx_of_lt h1lt
  have hrow1 : (st.1.text_line[1]).length = W := hs.row_length h1lt
  have hd1 : d < dx.length := by simp [dx]; omega
  have hd2 : d < dy.length := by simp [dy]; omega
  have hdx : idx dx d = .ok dx[d] := idx_of_lt hd1
  have hdy : idx dy d = .ok dy[d] := idx_of_lt hd2
  unfold visit
  simp only [hdx, hdy, Outcome.bind_eq, Outcome.bind_ok, Outcome.pure_eq]
  split
  · exact ⟨_, rfl⟩
  split
  · exact ⟨_, rfl⟩
  simp only [h1, Outcome.bind_ok]
  split
  · exact ⟨_, rfl⟩
  rename_i hx1 hy1 hy2
  have hx : ((x : Int) + dx[d]).toNat < H := by omega
  have hy : ((y : Int) + dy[d]).toNat < W := by omega
  simp only [matAt_of_shape hk hx hy, Outcome.bind_ok]
  by_cases hk0 : cell kernel ((x : Int) + dx[d]).toNat ((y : Int) + dy[d]).toNat = 0
  · rw [if_pos hk0]; exact ⟨_, rfl⟩
  rw [if_neg hk0]
  simp only [matAt_of_shape hs hx hy, Outcome.bind_ok]
  by_cases ht0 : cell st.1.text_line ((x : Int) + dx[d]).toNat
      ((y : Int) + dy[d]).toNat > 0
  · rw [if_pos ht0]; exact ⟨_, rfl⟩
  rw [if_neg ht0]
  obtain ⟨tl, htl⟩ := matSet_of_shape label hs hx hy
  simp only [htl, Outcome.bind_ok]
  exact ⟨_, rfl⟩

theorem visit_shape {kernel : Mat} {x y : Nat} {label : Int} {d : Nat}
    {st st' : GrowState × Bool} {H W : Nat} (hs : HasShape st.1.text_line H W)
    (h : visit kernel x y label d st = .ok st') : HasShape st'.1.text_line H W := by
  rcases visit_cases h with rfl | ⟨tx, ty, k, t, tl, _, _, _, _, _, hset, rfl⟩
  · exact hs
  · exact matSet_shape hs hset

/-- With at least two rows, an iteration of the `while` loop completes. -/
theorem process_point_total {kernel : Mat} {point : Point} {st : GrowState} {H W : Nat}
    (hs : HasShape st.text_line H W) (hH : 2 ≤ H) (hk : HasShape kernel H W)
    (hp : point.x < H ∧ point.y < W) : ∃ st', process_point kernel point st = .ok st' := by
  obtain ⟨r, hr, _⟩ := forUpTo_total
    (fun (_ : Nat) (t : GrowState × Bool) => HasShape t.1.text_line H W)
    4 (s := (st, true))
    (f := visit kernel point.x point.y (cell st.text_line point.x point.y)) hs
    (by
      intro d hd t ht
      obtain ⟨t', ht'⟩ := @visit_total kernel point.x point.y
        (cell st.text_line point.x point.y) d t H W ht hH hk hd
      exact ⟨t', ht', visit_shape ht ht'⟩)
  unfold process_point
  simp only [matAt_of_shape hs hp.1 hp.2, Outcome.bind_eq, Outcome.bind_ok, hr, Outcome.pure_eq]
  split <;> exact ⟨_, rfl⟩

/-- With at least two rows the `while` loop completes within its fuel. -/
theorem whileQueue_total {kernel : Mat} {fuel : Nat} {st : GrowState} {H W : Nat}
    (hg : GoodState H W st) (hH : 2 ≤ H) (hk : HasShape kernel H W)
    (hfuel : st.queue.length + unlabelled st.text_line ≤ fuel) :
    ∃ st', whileQueue kernel fuel st = .ok st' := by
  induction fuel generalizing st with
  | zero =>
    have : st.queue = [] := List.length_eq_zero.1 (by omega)
    exact ⟨st, by unfold whileQueue; rw [this]⟩
  | succ f ih =>
    unfold whileQueue
    split
    · exact ⟨st, rfl⟩
    · rename_i point rest hq
      have hpos : 0 < cell st.text_line point.x point.y := hg.queued point (by simp [hq])
      have hin := fg_in_bounds hg.shape (by omega : cell st.text_line point.x point.y ≠ 0)
      obtain ⟨s, hs⟩ := @process_point_total kernel point { st with queue := rest } H W
        hg.shape hH hk hin
      have hg' : GoodState H W { { st with queue := rest } with queue := point :: rest } := by
        have : ({ { st with queue := rest } with queue := point :: rest } : GrowState) = st := by
          cases st; simp only at hq; simp [hq]
        rw [this]; exact hg
      have hgs := process_point_good hg' hs
      obtain ⟨_, new, hqs, _, _, _, hunl⟩ :=
        @process_point_spec _ _ { st with queue := rest } _ hpos hs
      simp only at hqs hunl
      obtain ⟨s', hs'⟩ := ih hgs (by
        rw [hqs, List.length_append]
        rw [hq, List.length_cons] at hfuel
        omega)
      exact ⟨s', by simp [hs, hs']⟩

/-- With at least two rows a growth round completes. -/
theorem grow_round_total {kernels : List Mat} {kernel_id : Nat} {st : GrowState} {H W : Nat}
    (hg : GoodState H W st) (hH : 2 ≤ H) (hks : ∀ k ∈ kernels, HasShape k H W)
    (hid : kernel_id < kernels.length) : ∃ st', grow_round kernels kernel_id st = .ok st' := by
  obtain ⟨s, hs⟩ := @whileQueue_total kernels[kernel_id] _ st H W hg hH
    (hks _ (List.getElem_mem hid)) (le_refl _)
  exact ⟨{ s with queue := s.next_queue, next_queue := s.queue },
    by simp only [grow_round, idx_of_lt hid, Outcome.bind_eq, Outcome.bind_ok, hs,
      Outcome.pure_eq]⟩

/-- With at least two rows all growth rounds complete. -/
theorem grow_rounds_total {kernels : List Mat} {n : Nat} {st : GrowState} {H W : Nat}
    (hg : GoodState H W st) (hH : 2 ≤ H) (hks : ∀ k ∈ kernels, HasShape k H W)
    (hn : n ≤ kernels.length) : ∃ st', grow_rounds kernels n st = .ok st' := by
  induction n generalizing st with
  | zero => exact ⟨st, rfl⟩
  | succ k ih =>
    obtain ⟨s, hs⟩ := @grow_round_total kernels k st H W hg hH hks (by omega)
    obtain ⟨s', hs'⟩ := ih (grow_round_spec hg hs).1 (by omega)
    exact ⟨s', by simp only [grow_rounds, hs, Outcome.bind_ok, hs']⟩

/-- On a valid stack of planes with at least two rows `growing_text_line`
completes with a label grid. -/
theorem growing_text_line_total {cc : Mat → Nat × Mat} {kernels : List Mat} {H W : Nat}
    (hv : ValidStack cc kernels H W) (hH : 2 ≤ H) :
    ∃ g, growing_text_line cc kernels = .ok g := by
  obtain ⟨s, hs⟩ := grow_rounds_total (n := kernels.length - 1) (initial_state_good hv) hH
    hv.shape (by omega)
  exact ⟨s.text_line, by
    simp only [growing_text_line, initial_state_spec hv, Outcome.bind_eq, Outcome.bind_ok, hs,
      Outcome.pure_eq]⟩

/-! ## A drained queue leaves no eligible neighbour -/

theorem Closed.grown {ks : List Mat} {kernel g g' : Mat} {H W : Nat} {p : Point}
    (h : Closed kernel H W g p) (hg : Grown ks g g') : Closed kernel H W g' p := by
  intro q hadj hx hy hk
  have := h q hadj hx hy hk
  rw [hg.keeps this]; exact this

theorem visit_keeps_pos {kernel : Mat} {x y : Nat} {label : Int} {d : Nat}
    {st st' : GrowState × Bool} (hlab : 0 < label)
    (h : visit kernel x y label d st = .ok st') {a b : Nat}
    (hpos : 0 < cell st.1.text_line a b) : 0 < cell st'.1.text_line a b := by
  rcases visit_cases h with rfl | ⟨tx, ty, k, t, tl, _, _, _, _, _, hset, rfl⟩
  · exact hpos
  · simp only
    rw [matSet_cell hset]
    split
    · exact hlab
    · exact hpos

/-- After the visit in direction `d` the neighbour in that direction, when it is
inside the grid and foreground in the plane, holds a positive label. -/
theorem visit_closed {kernel : Mat} {x y : Nat} {label : Int} {d : Nat}
    {st st' : GrowState × Bool} {H W : Nat} (hs : HasShape st.1.text_line H W)
    (hlab : 0 < label) (h : visit kernel x y label d st = .ok st') (tx ty : Nat)
    (htx : (tx : Int) = (x : Int) + dx.getD d 0) (hty : (ty : Int) = (y : Int) + dy.getD d 0)
    (hx : tx < H) (hy : ty < W) (hk : cell kernel tx ty ≠ 0) :
    0 < cell st'.1.text_line tx ty := by
  unfold visit at h
  simp only [Outcome.bind_eq, Outcome.pure_eq, Outcome.bind_eq_ok] at h
  obtain ⟨ddx, hdx, ddy, hdy, h⟩ := h
  have e1 : dx.getD d 0 = ddx := by
    rw [idx_eq_ok] at hdx; simp [List.getD_eq_getElem?_getD, hdx]
  have e2 : dy.getD d 0 = ddy := by
    rw [idx_eq_ok] at hdy; simp [List.getD_eq_getElem?_getD, hdy]
  rw [e1] at htx
  rw [e2] at hty
  have hlen : st.1.text_line.length = H := hs.1
  have tx_eq : ((x : Int) + ddx).toNat = tx := by omega
  have ty_eq : ((y : Int) + ddy).toNat = ty := by omega
  split at h
  · rename_i hc; omega
  split at h
  · rename_i hc; omega
  simp only [Outcome.bind_eq_ok] at h
  obtain ⟨row1, hrow1, h⟩ := h
  have hr1 : row1.length = W := by
    rw [idx_eq_ok] at hrow1
    obtain ⟨hi, rfl⟩ := List.getElem?_eq_some.1 hrow1
    exact hs.row_length hi
  split at h
  · rename_i hc; omega
  simp only [Outcome.bind_eq_ok] at h
  obtain ⟨k, hk', h⟩ := h
  rw [tx_eq, ty_eq] at hk'
  split at h
  · rename_i hc; rw [cell_of_matAt hk'] at hk; exact absurd hc hk
  simp only [Outcome.bind_eq_ok] at h
  obtain ⟨t, ht, h⟩ := h
  rw [tx_eq, ty_eq] at ht
  split at h
  · rename_i hc
    have := (Outcome.ok.inj h).symm; subst this
    rw [cell_of_matAt ht]; exact hc
  simp only [Outcome.bind_eq_ok] at h
  obtain ⟨tl, htl, h⟩ := h
  rw [tx_eq, ty_eq] at htl
  have := (Outcome.ok.inj h).symm; subst this
  simp only
  rw [matSet_cell htl]; simp [hlab]

theorem adj4_direction {p q : Point} (h : Adj4 p q) :
    ∃ d, d < 4 ∧ (q.x : Int) = (p.x : Int) + dx.getD d 0 ∧
      (q.y : Int) = (p.y : Int) + dy.getD d 0 := by
  rcases h with ⟨hx, hy | hy⟩ | ⟨hy, hx | hx⟩
  · exact ⟨3, by omega, by simp [dx]; omega, by simp [dy]; omega⟩
  · exact ⟨2, by omega, by simp [dx]; omega, by simp [dy]; omega⟩
  · exact ⟨1, by omega, by simp [dx]; omega, by simp [dy]; omega⟩
  · exact ⟨0, by omega, by simp [dx]; omega, by simp [dy]; omega⟩

/-- After an iteration of the `while` loop the dequeued point has no eligible
neighbour left. -/
theorem process_point_closed {kernel : Mat} {point : Point} {st st' : GrowState} {H W : Nat}
    (hs : HasShape st.text_line H W) (hpos : 0 < cell st.text_line point.x point.y)
    (h : process_point kernel point st = .ok st') : Closed kernel H W st'.text_line point := by
  unfold process_point at h
  simp only [Outcome.bind_eq, Outcome.pure_eq, Outcome.bind_eq_ok] at h
  obtain ⟨label, hlabel, r, hrun, h⟩ := h
  have hl : cell st.text_line point.x point.y = label := cell_of_matAt hlabel
  rw [hl] at hpos
  have hK := forUpTo_inv
    (fun (d : Nat) (t : GrowState × Bool) => HasShape t.1.text_line H W ∧
      ∀ d', d' < d → ∀ tx ty : Nat, (tx : Int) = (point.x : Int) + dx.getD d' 0 →
        (ty : Int) = (point.y : Int) + dy.getD d' 0 → tx < H → ty < W →
        cell kernel tx ty ≠ 0 → 0 < cell t.1.text_line tx ty)
    4 (s := (st, true)) (r := r) (f := visit kernel point.x point.y label)
    ⟨hs, by intro d' hd'; omega⟩
    (by
      rintro d _ t t' ⟨hsh, hcl⟩ hv
      refine ⟨visit_shape hsh hv, ?_⟩
      intro d' hd' tx ty h1 h2 h3 h4 h5
      by_cases hdd : d' < d
      · exact visit_keeps_pos hpos hv (hcl d' hdd tx ty h1 h2 h3 h4 h5)
      · have : d' = d := by omega
        subst this
        exact visit_closed hsh hpos hv tx ty h1 h2 h3 h4 h5)
    hrun
  have htl : st'.text_line = r.1.text_line := by
    split at h <;> · have := (Outcome.ok.inj h).symm; subst this; rfl
  intro q hadj hx hy hk
  obtain ⟨d, hd, h1, h2⟩ := adj4_direction hadj
  rw [htl]
  exact hK.2 d hd q.x q.y h1 h2 hx hy hk

/-- When every labelled cell is queued or has no eligible neighbour, the
`while` loop ends with no labelled cell having an eligible neighbour. -/
theorem whileQueue_closed {kernel : Mat} {fuel : Nat} {st st' : GrowState} {H W : Nat}
    (hg : GoodState H W st)
    (hinv : ∀ p : Point, 0 < cell st.text_line p.x p.y →
      p ∈ st.queue ∨ Closed kernel H W st.text_line p)
    (h : whileQueue kernel fuel st = .ok st') :
    ∀ p : Point, 0 < cell st'.text_line p.x p.y → Closed kernel H W st'.text_line p := by
  induction fuel generalizing st with
  | zero =>
    unfold whileQueue at h
    split at h
    · rename_i hq
      have := (Outcome.ok.inj h).symm; subst this
      intro p hp
      rcases hinv p hp with hm | hc
      · rw [hq] at hm; simp at hm
      · exact hc
    · simp at h
  | succ f ih =>
    unfold whileQueue at h
    split at h
    · rename_i hq
      have := (Outcome.ok.inj h).symm; subst this
      intro p hp
      rcases hinv p hp with hm | hc
      · rw [hq] at hm; simp at hm
      · exact hc
    · rename_i point rest hq
      simp only [Outcome.bind_eq_ok] at h
      obtain ⟨s, hs, hrest⟩ := h
      have hg' : GoodState H W { { st with queue := rest } with queue := point :: rest } := by
        have : ({ { st with queue := rest } with queue := point :: rest } : GrowState) = st := by
          cases st; simp only at hq; simp [hq]
        rw [this]; exact hg
      have hgs := process_point_good hg' hs
      have hpos : 0 < cell st.text_line point.x point.y := hg.queued point (by simp [hq])
      obtain ⟨hch, new, hqs, _, _, hall, _⟩ :=
        @process_point_spec _ _ { st with queue := rest } _ hpos hs
      have hcl := @process_point_closed _ _ { st with queue := rest } _ H W hg.shape hpos hs
      simp only at hch hqs hall
      apply ih hgs _ hrest
      intro p hp
      by_cases hold : 0 < cell st.text_line p.x p.y
      · rcases hinv p hold with hm | hc
        · rw [hq, List.mem_cons] at hm
          rcases hm with rfl | hm
          · right; exact hcl
          · left; rw [hqs]; exact List.mem_append_left _ hm
        · right; exact hc.grown hch
      · left
        rw [hqs]
        exact List.mem_append_right _ (hall p.x p.y (by omega) hp)

/-- A set of cells of the `H x W` grid that holds one cell and is closed under
the 4-neighbourhood inside the grid holds every cell of the grid. -/
theorem grid_connected (S : Nat → Nat → Prop) (H W x0 y0 : Nat) (hx0 : x0 < H) (hy0 : y0 < W)
    (h0 : S x0 y0)
    (hstep : ∀ p q : Point, p.x < H → p.y < W → q.x < H → q.y < W → Adj4 p q →
      S p.x p.y → S q.x q.y) :
    ∀ x y, x < H → y < W → S x y := by
  have hrow : ∀ x, x < H → S x y0 := by
    have hdown : ∀ k, k ≤ x0 → S (x0 - k) y0 := by
      intro k
      induction k with
      | zero => intro _; exact h0
      | succ k ih =>
        intro hk
        exact hstep ⟨x0 - k, y0⟩ ⟨x0 - (k + 1), y0⟩ (by simp only; omega) hy0
          (by simp only; omega) hy0 (Or.inr ⟨rfl, Or.inr (by simp only; omega)⟩) (ih (by omega))
    have hzero : S 0 y0 := by have := hdown x0 (le_refl _); simpa using this
    intro x
    induction x with
    | zero => intro _; exact hzero
    | succ x ih =>
      intro hx
      exact hstep ⟨x, y0⟩ ⟨x + 1, y0⟩ (by simp only; omega) hy0 hx hy0
        (Or.inr ⟨rfl, Or.inl rfl⟩) (ih (by omega))
  intro x y hx hy
  have hdown : ∀ k, k ≤ y0 → S x (y0 - k) := by
    intro k
    induction k with
    | zero => intro _; exact hrow x hx
    | succ k ih =>
      intro hk
      exact hstep ⟨x, y0 - k⟩ ⟨x, y0 - (k + 1)⟩ hx (by simp only; omega) hx
        (by simp only; omega) (Or.inl ⟨rfl, Or.inr (by simp only; omega)⟩) (ih (by omega))
  have hzero : S x 0 := by have := hdown y0 (le_refl _); simpa using this
  induction y with
  | zero => exact hzero
  | succ y ih =>
    exact hstep ⟨x, y⟩ ⟨x, y + 1⟩ hx (by simp only; omega) hx hy
      (Or.inl ⟨rfl, Or.inl rfl⟩) (ih (by omega))

/-! ## Further facts on the initial grid -/

theorem componentArea_le (lab : Mat) (l : Int) :
    componentArea lab l ≤ (lab.map List.length).sum := by
  unfold componentArea
  induction lab with
  | nil => simp
  | cons r rs ih =>
    simp only [List.map_cons, List.sum_cons]
    have := List.count_le_length l r
    omega

theorem initialQueue_eq {lab : Mat} {H W : Nat} (hs : HasShape lab H W) :
    initialQueue lab =
      (rowMajor H W).filter (fun p => decide (cell (initialGrid lab) p.x p.y ≠ 0)) := by
  have hfun : (fun p : Point => decide (seedLabel lab (cell lab p.x p.y) ≠ 0)) =
      (fun p : Point => decide (cell (initialGrid lab) p.x p.y ≠ 0)) := by
    funext p; rw [cell_initialGrid]
  unfold initialQueue
  rw [hfun, hs.rows]
  by_cases hH : H = 0
  · subst hH; simp [rowMajor]
  · rw [hs.cols (by omega)]

/-- When no seed cell survives, the initial grid is all zero and the queue empty. -/
theorem initial_all_zero {lab : Mat} {H W : Nat} (hs : HasShape lab H W)
    (hsmall : ∀ a b, seedLabel lab (cell lab a b) = 0) :
    initialGrid lab = Mat.zeros H W ∧ initialQueue lab = [] := by
  constructor
  · apply mat_ext (hasShape_initialGrid hs) (hasShape_zeros H W)
    intro x y _ _
    rw [cell_initialGrid, cell_zeros]; exact hsmall x y
  · unfold initialQueue
    rw [List.filter_eq_nil_iff]
    intro p _
    simp [hsmall p.x p.y]

/-- Every positive cell of the initial grid is in the initial queue. -/
theorem mem_initialQueue_of_pos {lab : Mat} {H W : Nat} (hs : HasShape lab H W) {p : Point}
    (hp : 0 < cell (initialGrid lab) p.x p.y) : p ∈ initialQueue lab := by
  rw [initialQueue_eq hs, List.mem_filter]
  have hne : cell (initialGrid lab) p.x p.y ≠ 0 := by omega
  exact ⟨mem_rowMajor.2 (fg_in_bounds (hasShape_initialGrid hs) hne), by simpa using hne⟩

theorem visit_monotone {kernel : Mat} {x y : Nat} {label : Int} {d : Nat}
    {st st' : GrowState × Bool} (hn : ∀ a b, 0 ≤ cell st.1.text_line a b) (hlab : 0 < label)
    (h : visit kernel x y label d st = .ok st') :
    Monotone st.1.text_line st'.1.text_line := by
  rcases visit_cases h with rfl | ⟨tx, ty, k, t, tl, _, _, _, ht, ht0, hset, rfl⟩
  · exact Monotone.self _
  · intro a b
    simp only
    rw [matSet_cell hset]
    have h0 := hn tx ty
    rw [cell_of_matAt ht] at h0
    by_cases hab : a = tx ∧ b = ty
    · rw [if_pos hab, hab.1, hab.2, cell_of_matAt ht]
      exact ⟨fun hne => by omega, fun _ => ⟨by omega, hlab⟩⟩
    · rw [if_neg hab]
      exact ⟨fun _ => rfl, fun hne => absurd rfl hne⟩

theorem mem_cell_of_mem {g : Mat} {row : List Int} {v : Int} (hrow : row ∈ g) (hv : v ∈ row) :
    ∃ x y, cell g x y = v := by
  obtain ⟨x, hx, rfl⟩ := List.getElem_of_mem hrow
  obtain ⟨y, hy, rfl⟩ := List.getElem_of_mem hv
  refine ⟨x, y, ?_⟩
  simp [cell, List.getD_eq_getElem?_getD, List.getElem?_eq_getElem hx,
    List.getElem?_eq_getElem hy]

/-! ## Auxiliary facts for the claims -/

theorem hasShape_replicate (H W : Nat) (v : Int) :
    HasShape (List.replicate H (List.replicate W v)) H W := by
  constructor
  · simp
  · intro row hrow
    rw [List.mem_replicate] at hrow
    rw [hrow.2]; simp

theorem cell_replicate {H W x y : Nat} (v : Int) (hx : x < H) (hy : y < W) :
    cell (List.replicate H (List.replicate W v)) x y = v := by
  simp [cell, List.getD_eq_getElem?_getD, List.getElem?_replicate, hx, hy]

/-- In the first round every labelled cell is queued, so when the round is over
no labelled cell has an eligible neighbour. -/
theorem first_round_closed {cc : Mat → Nat × Mat} {kernels : List Mat} {H W : Nat}
    (hv : ValidStack cc kernels H W) {kernel : Mat} {fuel : Nat} {s : GrowState}
    (h : whileQueue kernel fuel
      { text_line := initialGrid (labelsOf cc kernels),
        queue := initialQueue (labelsOf cc kernels), next_queue := [] } = .ok s) :
    ∀ p : Point, 0 < cell s.text_line p.x p.y → Closed kernel H W s.text_line p := by
  have hsh : HasShape (labelsOf cc kernels) H W :=
    hv.labelled.hasShape (hv.shape _ (seedOf_mem hv.nonempty))
  exact whileQueue_closed (initial_state_good hv)
    (fun p hp => Or.inl (mem_initialQueue_of_pos hsh hp)) h

theorem componentArea_pos {lab : Mat} {l : Int} (h : 0 < componentArea lab l) :
    ∃ x y, cell lab x y = l := by
  unfold componentArea at h
  have : ∃ row ∈ lab, 0 < row.count l := by
    by_contra hcon
    push_neg at hcon
    have : (lab.map (List.count l)).sum = 0 := by
      apply List.sum_eq_zero
      intro n hn
      rw [List.mem_map] at hn
      obtain ⟨row, hrow, rfl⟩ := hn
      have := hcon row hrow
      omega
    omega
  obtain ⟨row, hrow, hc⟩ := this
  exact mem_cell_of_mem hrow (List.count_pos_iff.1 hc)

theorem Connected4.invariant {fg : Point → Prop} {a b : Point} (S : Point → Prop)
    (h : Connected4 fg a b) (ha : S a)
    (hstep : ∀ p q, fg p → fg q → Adj4 p q → S p → S q) : S b := by
  induction h with
  | refl => exact ha
  | tail _ hs ih => exact hstep _ _ hs.1 hs.2.1 hs.2.2 ih

/-! ## The concrete stacks are valid -/

theorem validStackA : ValidStack (ccTable 2 seedA) stackA 3 5 :=
  ⟨by decide, by decide, CCSpec.of_check (by decide)⟩

theorem validStackDot : ValidStack (ccTable 2 seedDot) stackDot 3 3 :=
  ⟨by decide, by decide, CCSpec.of_check (by decide)⟩

theorem validStackRow : ValidStack (ccTable 2 (onesPlane 1 10)) stackRow 1 10 :=
  ⟨by decide, by decide, CCSpec.of_check (by decide)⟩

theorem validSingleA : ValidStack (ccTable 2 seedA) [seedA] 3 5 :=
  ⟨by decide, by decide, CCSpec.of_check (by decide)⟩

theorem validStackTwo : ValidStack (ccTable 3 labelsTwo) stackTwo 2 13 :=
  ⟨by decide, by decide, CCSpec.of_check (by decide)⟩

set_option maxRecDepth 100000 in
theorem ccSpecBlock : CCSpec seedBlock (2, seedBlock) :=
  CCSpec.of_check (by decide)

set_option maxRecDepth 100000 in
theorem validStackBlock : ValidStack (ccTable 2 seedBlock) stackBlock 10 10 :=
  ⟨by decide, by decide, ccSpecBlock⟩

/-- In `stackTwo` no 4-path through the union of the foregrounds crosses column 6. -/
theorem stackTwo_separated (a b : Point) (ha : cell labelsTwo a.x a.y = 1)
    (hb : cell labelsTwo b.x b.y = 2) : ¬ Connected4 (FgAny stackTwo) a b := by
  intro hc
  have hbnd : ∀ p : Point, cell labelsTwo p.x p.y ≠ 0 → p.x < 2 ∧ p.y < 13 :=
    fun p hp => fg_in_bounds (by decide) hp
  have hay : a.y ≤ 5 := by
    obtain ⟨hx, hy⟩ := hbnd a (by rw [ha]; decide)
    obtain ⟨ax, ay⟩ := a
    simp only at hx hy ha ⊢
    interval_cases ax <;> interval_cases ay <;> first | omega | exact absurd ha (by decide)
  have hby : ¬ b.y ≤ 5 := by
    obtain ⟨hx, hy⟩ := hbnd b (by rw [hb]; decide)
    obtain ⟨bx, b_y⟩ := b
    simp only at hx hy hb ⊢
    interval_cases bx <;> interval_cases b_y <;> first | omega | exact absurd hb (by decide)
  apply hby
  refine hc.invariant (fun p => p.y ≤ 5) hay ?_
  intro p q _ hq hadj hp
  by_contra hcon
  have hq6 : q.y = 6 := by unfold Adj4 at hadj; omega
  obtain ⟨k, hk, hk0⟩ := hq
  have hsh : HasShape k 2 13 := validStackTwo.shape k hk
  obtain ⟨hx, _⟩ := fg_in_bounds hsh hk0
  obtain ⟨qx, qy⟩ := q
  simp only at hq6 hx
  subst hq6
  unfold Fg at hk0
  simp only at hk0
  simp only [stackTwo, List.mem_cons, List.mem_singleton, List.mem_nil_iff, or_false] at hk
  rcases hk with rfl | rfl <;> interval_cases qx <;> exact hk0 (by decide)

/-- The seed plane `seedBlock` is one component. -/
theorem seedBlock_connected (q : Point) (hq : Fg seedBlock q) :
    Connected4 (Fg seedBlock) ⟨3, 3⟩ q := by
  refine (ccSpecBlock.component ⟨3, 3⟩ q (by decide) hq).1 ?_
  have h1 := fg_in_bounds (H := 10) (W := 10) (by decide) hq
  obtain ⟨qx, qy⟩ := q
  obtain ⟨hx, hy⟩ := h1
  simp only at hx hy
  unfold Fg at hq
  simp only at hq ⊢
  interval_cases qx <;> interval_cases qy <;> first | rfl | exact absurd rfl hq

/-! ## Fuel is never the reason for a fault -/

theorem Outcome.bind_ne_fuel {α β : Type} {m : Outcome α} {f : α → Outcome β}
    (hm : m ≠ .outOfFuel) (hf : ∀ a, f a ≠ .outOfFuel) : m.bind f ≠ .outOfFuel := by
  cases m with
  | ok a => exact hf a
  | outOfRange => simp [Outcome.bind]
  | outOfFuel => exact absurd rfl hm

theorem idx_ne_fuel {α : Type} (l : List α) (i : Nat) : idx l i ≠ .outOfFuel := by
  unfold idx; split <;> simp

theorem matAt_ne_fuel (m : Mat) (x y : Nat) : matAt m x y ≠ .outOfFuel :=
  Outcome.bind_ne_fuel (idx_ne_fuel _ _) (fun _ => idx_ne_fuel _ _)

theorem matSet_ne_fuel (m : Mat) (x y : Nat) (v : Int) : matSet m x y v ≠ .outOfFuel := by
  unfold matSet; split
  · simp
  · split <;> simp

theorem forUpTo_ne_fuel {σ : Type} {f : Nat → σ → Outcome σ} (n : Nat) (s : σ)
    (hf : ∀ i t, f i t ≠ .outOfFuel) : forUpTo n f s ≠ .outOfFuel := by
  induction n with
  | zero => simp [forUpTo]
  | succ k ih => exact Outcome.bind_ne_fuel ih (hf k)

theorem visit_ne_fuel (kernel : Mat) (x y : Nat) (label : Int) (d : Nat)
    (st : GrowState × Bool) : visit kernel x y label d st ≠ .outOfFuel := by
  unfold visit
  simp only [Outcome.bind_eq, Outcome.pure_eq]
  refine Outcome.bind_ne_fuel (idx_ne_fuel _ _) (fun ddx => ?_)
  refine Outcome.bind_ne_fuel (idx_ne_fuel _ _) (fun ddy => ?_)
  split
  · simp
  split
  · simp
  refine Outcome.bind_ne_fuel (idx_ne_fuel _ _) (fun row1 => ?_)
  split
  · simp
  refine Outcome.bind_ne_fuel (matAt_ne_fuel _ _ _) (fun k => ?_)
  split
  · simp
  refine Outcome.bind_ne_fuel (matAt_ne_fuel _ _ _) (fun t => ?_)
  split
  · simp
  refine Outcome.bind_ne_fuel (matSet_ne_fuel _ _ _ _) (fun tl => ?_)
  simp

theorem process_point_ne_fuel (kernel : Mat) (point : Point) (st : GrowState) :
    process_point kernel point st ≠ .outOfFuel := by
  unfold process_point
  simp only [Outcome.bind_eq, Outcome.pure_eq]
  refine Outcome.bind_ne_fuel (matAt_ne_fuel _ _ _) (fun label => ?_)
  refine Outcome.bind_ne_fuel (forUpTo_ne_fuel _ _ (fun d t => visit_ne_fuel _ _ _ _ _ _))
    (fun r => ?_)
  split <;> simp

/-- From a state with the invariant the `while` loop never runs out of the
fuel that `grow_round` gives it. -/
theorem whileQueue_ne_fuel {kernel : Mat} {fuel : Nat} {st : GrowState} {H W : Nat}
    (hg : GoodState H W st) (hfuel : st.queue.length + unlabelled st.text_line ≤ fuel) :
    whileQueue kernel fuel st ≠ .outOfFuel := by
  induction fuel generalizing st with
  | zero =>
    have : st.queue = [] := List.length_eq_zero.1 (by omega)
    unfold whileQueue; rw [this]; simp
  | succ f ih =>
    unfold whileQueue
    split
    · simp
    · rename_i point rest hq
      have hpos : 0 < cell st.text_line point.x point.y := hg.queued point (by simp [hq])
      have hg' : GoodState H W { { st with queue := rest } with queue := point :: rest } := by
        have : ({ { st with queue := rest } with queue := point :: rest } : GrowState) = st := by
          cases st; simp only at hq; simp [hq]
        rw [this]; exact hg
      cases hs : process_point kernel point { st with queue := rest } with
      | ok s =>
        have hgs := process_point_good hg' hs
        obtain ⟨_, new, hqs, _, _, _, hunl⟩ :=
          @process_point_spec _ _ { st with queue := rest } _ hpos hs
        simp only at hqs hunl
        simp only [Outcome.bind_ok]
        apply ih hgs
        rw [hqs, List.length_append]
        rw [hq, List.length_cons] at hfuel
        omega
      | outOfRange => simp
      | outOfFuel => exact absurd hs (process_point_ne_fuel _ _ _)

theorem grow_rounds_ne_fuel {kernels : List Mat} {n : Nat} {st : GrowState} {H W : Nat}
    (hg : GoodState H W st) : grow_rounds kernels n st ≠ .outOfFuel := by
  induction n generalizing st with
  | zero => simp [grow_rounds]
  | succ k ih =>
    unfold grow_rounds
    cases hs : grow_round kernels k st with
    | ok s => simp only [Outcome.bind_ok]; exact ih (grow_round_spec hg hs).1
    | outOfRange => simp
    | outOfFuel =>
      exfalso
      unfold grow_round at hs
      simp only [Outcome.bind_eq, Outcome.pure_eq] at hs
      revert hs
      refine Outcome.bind_ne_fuel (idx_ne_fuel _ _) (fun kernel => ?_)
      refine Outcome.bind_ne_fuel (whileQueue_ne_fuel hg (le_refl _)) (fun s => ?_)
      simp

/-- On a valid stack `growing_text_line` either returns a grid or reads outside
a container: the fuel of the model never runs out. -/
theorem growing_text_line_ne_fuel {cc : Mat → Nat × Mat} {kernels : List Mat} {H W : Nat}
    (hv : ValidStack cc kernels H W) : growing_text_line cc kernels ≠ .outOfFuel := by
  unfold growing_text_line
  simp only [initial_state_spec hv, Outcome.bind_eq, Outcome.bind_ok, Outcome.pure_eq]
  refine Outcome.bind_ne_fuel (grow_rounds_ne_fuel (initial_state_good hv)) (fun s => ?_)
  simp

/-! ## Grids of a single row -/

theorem idx_one_of_single {st : GrowState} (hlen : st.text_line.length = 1) :
    idx st.text_line 1 = .outOfRange := by
  unfold idx
  rw [List.getElem?_eq_none (by omega)]

/-- On a grid of one row, the four visits around a point of that row read
`text_line[1]`, which does not exist. -/
theorem visits_single_row (kernel : Mat) (y : Nat) (label : Int) (st : GrowState)
    (hlen : st.text_line.length = 1) :
    forUpTo 4 (visit kernel 0 y label) (st, true) = .outOfRange := by
  have h1 := idx_one_of_single hlen
  have v0 : visit kernel 0 y label 0 (st, true) = .ok (st, true) := by
    simp [visit, idx, dx, dy]
  have v1 : visit kernel 0 y label 1 (st, true) = .ok (st, true) := by
    simp [visit, idx, dx, dy, hlen]
  have v3 : visit kernel 0 y label 3 (st, true) = .outOfRange := by
    have hy : ¬ ((y : Int) + 1 < 0) := by omega
    simp [visit, idx, dx, dy, hlen, hy]
    rw [List.getElem?_eq_none (by omega)]
    simp
  have v2 : visit kernel 0 y label 2 (st, true) = .ok (st, true) ∨
      visit kernel 0 y label 2 (st, true) = .outOfRange := by
    by_cases hy : (y : Int) + -1 < 0
    · left; simp [visit, idx, dx, dy, hlen, hy]
    · right
      simp [visit, idx, dx, dy, hlen, hy]
      rw [List.getElem?_eq_none (by omega)]
      simp
  simp only [forUpTo, Outcome.bind_ok, v0, v1]
  rcases v2 with h | h
  · rw [h, Outcome.bind_ok, v3]
  · rw [h]; rfl

theorem process_point_single_row (kernel : Mat) (point : Point) (st : GrowState)
    (hlen : st.text_line.length = 1) (hx : point.x = 0) :
    process_point kernel point st = .outOfRange := by
  unfold process_point
  simp only [Outcome.bind_eq, Outcome.pure_eq]
  cases hl : matAt st.text_line point.x point.y with
  | ok label => simp only [Outcome.bind_ok, hx, visits_single_row kernel _ label st hlen,
      Outcome.bind_outOfRange]
  | outOfRange => rfl
  | outOfFuel => exact absurd hl (matAt_ne_fuel _ _ _)

theorem grow_round_single_row {kernels : List Mat} {kernel_id : Nat} {st : GrowState} {W : Nat}
    (hg : GoodState 1 W st) (hq : st.queue ≠ []) :
    grow_round kernels kernel_id st = .outOfRange := by
  unfold grow_round
  simp only [Outcome.bind_eq, Outcome.pure_eq]
  cases hk : idx kernels kernel_id with
  | outOfRange => rfl
  | outOfFuel => exact absurd hk (idx_ne_fuel _ _)
  | ok kernel =>
    simp only [Outcome.bind_ok]
    obtain ⟨point, rest, hqr⟩ := List.exists_cons_of_ne_nil hq
    have hpos : 0 < cell st.text_line point.x point.y := hg.queued point (by simp [hqr])
    have hx := (fg_in_bounds hg.shape (by omega : cell st.text_line point.x point.y ≠ 0)).1
    have hfuel : st.queue.length + unlabelled st.text_line =
        (rest.length + unlabelled st.text_line) + 1 := by
      rw [hqr, List.length_cons]; omega
    rw [hfuel]
    unfold whileQueue
    simp only [hqr]
    rw [process_point_single_row kernel point
      { text_line := st.text_line, queue := rest, next_queue := st.next_queue }
      hg.shape.1 (by omega)]
    rfl

/-- On a valid stack of at least two planes of one row, with a seed cell that
survives the area filter, `growing_text_line` reads `text_line[1]` outside the
grid in its first round. -/
theorem growing_text_line_single_row {cc : Mat → Nat × Mat} {kernels : List Mat} {W : Nat}
    (hv : ValidStack cc kernels 1 W) (hP : 2 ≤ kernels.length)
    (hq : initialQueue (labelsOf cc kernels) ≠ []) :
    growing_text_line cc kernels = .outOfRange := by
  unfold growing_text_line
  simp only [initial_state_spec hv, Outcome.bind_eq, Outcome.bind_ok, Outcome.pure_eq]
  obtain ⟨n, hn⟩ : ∃ n, kernels.length - 1 = n + 1 := ⟨kernels.length - 2, by omega⟩
  rw [hn]
  simp only [grow_rounds, grow_round_single_row (initial_state_good hv) hq,
    Outcome.bind_outOfRange]

/-! ## `get_kernels` without validation -/

theorem forUpTo_succ_ok {σ : Type} {f : Nat → σ → Outcome σ} {n : Nat} {s r : σ}
    (h : forUpTo (n + 1) f s = .ok r) : ∃ t, forUpTo n f s = .ok t ∧ f n t = .ok r := by
  simpa only [forUpTo, Outcome.bind_eq_ok] using h

theorem get_kernels_cell_shape {data : List Int} {d1 d2 i x y : Nat} {k r : Mat} {H W : Nat}
    (hk : HasShape k H W) (h : get_kernels_cell data d1 d2 i x y k = .ok r) :
    HasShape r H W := by
  unfold get_kernels_cell at h
  simp only [Outcome.bind_eq, Outcome.bind_eq_ok] at h
  obtain ⟨v, _, hset⟩ := h
  exact matSet_shape hk hset

theorem get_kernels_row_shape {data : List Int} {d1 d2 i x : Nat} {k r : Mat} {H W : Nat}
    (hk : HasShape k H W) (h : get_kernels_row data d1 d2 i x k = .ok r) :
    HasShape r H W :=
  forUpTo_inv (fun _ t => HasShape t H W) k.cols hk
    (fun _ _ _ _ ht hb => get_kernels_cell_shape ht hb) h

/-- When `get_kernels` completes on a shape without a zero extent, it has read
the last value of the `P * H * W` it addresses. -/
theorem get_kernels_reads_last {data : List Int} {P H W : Nat} {ks : List Mat}
    (h : get_kernels data [P + 1, H + 1, W + 1] = .ok ks) :
    P * (H + 1) * (W + 1) + H * (W + 1) + W < data.length := by
  unfold get_kernels at h
  simp only [idx, List.getElem?_cons_zero, Outcome.bind_eq, Outcome.bind_ok] at h
  obtain ⟨t, _, hplane⟩ := forUpTo_succ_ok h
  unfold get_kernels_plane at hplane
  simp only [idx, List.getElem?_cons_succ, List.getElem?_cons_zero, Outcome.bind_eq,
    Outcome.bind_ok, Outcome.pure_eq, Outcome.bind_eq_ok] at hplane
  obtain ⟨k, hk, _⟩ := hplane
  have hz := hasShape_zeros (H + 1) (W + 1)
  rw [hz.rows] at hk
  obtain ⟨k1, hk1, hrow⟩ := forUpTo_succ_ok hk
  have hs1 : HasShape k1 (H + 1) (W + 1) :=
    forUpTo_inv (fun _ t => HasShape t (H + 1) (W + 1)) H hz
      (fun _ _ _ _ ht hb => get_kernels_row_shape ht hb) hk1
  unfold get_kernels_row at hrow
  rw [hs1.cols (by omega)] at hrow
  obtain ⟨k2, _, hcell⟩ := forUpTo_succ_ok hrow
  unfold get_kernels_cell at hcell
  simp only [Outcome.bind_eq, Outcome.bind_eq_ok] at hcell
  obtain ⟨v, hv, _⟩ := hcell
  rw [idx_eq_ok] at hv
  exact (List.getElem?_eq_some.1 hv).1

/-- `get_kernels` completes exactly when the buffer holds at least `P * H * W` values. -/
theorem get_kernels_ok_iff (data : List Int) (P H W : Nat) :
    (∃ ks, get_kernels data [P, H, W] = .ok ks) ↔ P * H * W ≤ data.length := by
  constructor
  · rintro ⟨ks, h⟩
    rcases Nat.eq_zero_or_pos P with hP | hP
    · subst hP; simp
    rcases Nat.eq_zero_or_pos H with hH | hH
    · subst hH; simp
    rcases Nat.eq_zero_or_pos W with hW | hW
    · subst hW; simp
    obtain ⟨p, rfl⟩ : ∃ p, P = p + 1 := ⟨P - 1, by omega⟩
    obtain ⟨a, rfl⟩ : ∃ a, H = a + 1 := ⟨H - 1, by omega⟩
    obtain ⟨b, rfl⟩ : ∃ b, W = b + 1 := ⟨W - 1, by omega⟩
    have := get_kernels_reads_last h
    have e : (p + 1) * (a + 1) * (b + 1) = p * (a + 1) * (b + 1) + a * (b + 1) + b + 1 := by
      ring
    omega
  · intro h
    obtain ⟨ks, hks, _⟩ := get_kernels_spec_le data P H W h
    exact ⟨ks, hks⟩

/-! ## The iterations of a round -/

theorem dequeues_nil {kernel : Mat} {fuel : Nat} {st : GrowState} (hq : st.queue = []) :
    dequeues kernel fuel st = [] := by
  cases fuel <;> simp [dequeues, hq]

theorem dequeues_cons {kernel : Mat} {f : Nat} {st s : GrowState} {point : Point}
    {rest : List Point} (hq : st.queue = point :: rest)
    (hs : process_point kernel point { st with queue := rest } = .ok s) :
    dequeues kernel (f + 1) st =
      ⟨point, { st with queue := rest }, s⟩ :: dequeues kernel f s := by
  rw [dequeues]
  simp only [hq, hs]

/-- A completed `while` loop is a `Drain` along the recorded iterations. -/
theorem whileQueue_drain {kernel : Mat} {fuel : Nat} {st r : GrowState}
    (h : whileQueue kernel fuel st = .ok r) : Drain kernel st (dequeues kernel fuel st) r := by
  induction fuel generalizing st with
  | zero =>
    unfold whileQueue at h
    split at h
    · rename_i hq
      have := (Outcome.ok.inj h).symm; subst this
      rw [dequeues_nil hq]
      exact Drain.done _ hq
    · simp at h
  | succ f ih =>
    unfold whileQueue at h
    split at h
    · rename_i hq
      have := (Outcome.ok.inj h).symm; subst this
      rw [dequeues_nil hq]
      exact Drain.done _ hq
    · rename_i point rest hq
      simp only [Outcome.bind_eq_ok] at h
      obtain ⟨s, hs, hrest⟩ := h
      rw [dequeues_cons hq hs]
      exact Drain.step st point rest s r _ hq hs (ih hrest)

theorem grown_eq_of_unlabelled {ks : List Mat} {g g' : Mat} (h : Grown ks g g')
    (hu : unlabelled g' = unlabelled g) : g' = g := by
  rcases Relation.ReflTransGen.cases_head h with heq | ⟨g1, ⟨k, _, hc⟩, hrest⟩
  · exact heq.symm
  · have h1 := hc.unlabelled
    have h2 : unlabelled g' ≤ unlabelled g1 := Grown.unlabelled_le hrest
    omega

theorem restore_queue {st : GrowState} {point : Point} {rest : List Point}
    (hq : st.queue = point :: rest) :
    ({ { st with queue := rest } with queue := point :: rest } : GrowState) = st := by
  cases st; simp only at hq; simp [hq]

/-- The flag `is_edge` of an iteration: the point goes to `next_queue`, and the
grid and the queue stay as they are, exactly when the point has no eligible
neighbour at the time it is dequeued; otherwise its claims go to the back of
the current queue and `next_queue` stays as it is. -/
theorem process_point_edge {kernel : Mat} {point : Point} {st r : GrowState} {H W : Nat}
    (hg : GoodState H W { st with queue := point :: st.queue })
    (h : process_point kernel point st = .ok r) :
    (Closed kernel H W st.text_line point →
      r.next_queue = st.next_queue ++ [point] ∧ r.queue = st.queue ∧
        r.text_line = st.text_line) ∧
    (¬ Closed kernel H W st.text_line point →
      r.next_queue = st.next_queue ∧ ∃ new, new ≠ [] ∧ r.queue = st.queue ++ new) := by
  have hpos : 0 < cell st.text_line point.x point.y := hg.queued point (List.mem_append_left _ (List.mem_cons_self _ _))
  obtain ⟨hch, new, hq, hnq, hnew, hall, hunl⟩ := process_point_spec hpos h
  have hgr := process_point_good hg h
  have hcl := @process_point_closed kernel point st r H W hg.shape hpos h
  have hiff : new = [] ↔ Closed kernel H W st.text_line point := by
    constructor
    · intro hnil q hadj hx hy hk
      have h1 := hcl q hadj hx hy hk
      by_contra hcon
      have := hall q.x q.y (by omega) h1
      rw [hnil] at this
      simp at this
    · intro hclosed
      by_contra hne
      obtain ⟨q, rest, hqr⟩ := List.exists_cons_of_ne_nil hne
      obtain ⟨hadj, hk, hle, hval⟩ := hnew q (by rw [hqr]; simp)
      have hqpos : 0 < cell r.text_line q.x q.y := by rw [hval]; exact hpos
      obtain ⟨hx, hy⟩ := fg_in_bounds hgr.shape (by omega : cell r.text_line q.x q.y ≠ 0)
      have := hclosed q hadj hx hy hk
      omega
  constructor
  · intro hclosed
    have hnil := hiff.2 hclosed
    rw [hnil] at hq hnq hunl
    refine ⟨by simpa using hnq, by simpa using hq, ?_⟩
    exact grown_eq_of_unlabelled hch (by simpa using hunl)
  · intro hopen
    have hne : new ≠ [] := fun hc => hopen (hiff.1 hc)
    exact ⟨by simpa [hne] using hnq, new, hne, hq⟩

/-- Facts on every iteration of a drain that starts in a state with the invariant. -/
theorem Drain.entries {kernel : Mat} {st r : GrowState} {T : List Dequeue} {H W : Nat}
    (h : Drain kernel st T r) (hg : GoodState H W st) :
    GoodState H W r ∧ r.queue = [] ∧ Grown [kernel] st.text_line r.text_line ∧
    ∀ e ∈ T, process_point kernel e.point e.before = .ok e.after ∧
      GoodState H W { e.before with queue := e.point :: e.before.queue } ∧
      GoodState H W e.after ∧
      Grown [kernel] st.text_line e.before.text_line ∧
      Grown [kernel] e.after.text_line r.text_line := by
  induction h with
  | done st hq => exact ⟨hg, hq, Grown.refl _ _, by simp⟩
  | step st point rest s r T hq hs _ ih =>
    have hg1 : GoodState H W { { st with queue := rest } with queue := point :: rest } := by
      rw [restore_queue hq]; exact hg
    have hgs := process_point_good hg1 hs
    have hpos : 0 < cell st.text_line point.x point.y := hg.queued point (by simp [hq])
    obtain ⟨hch, _⟩ := @process_point_spec _ _ { st with queue := rest } _ hpos hs
    obtain ⟨h1, h2, h3, h4⟩ := ih hgs
    refine ⟨h1, h2, Grown.trans hch h3, ?_⟩
    intro e he
    rcases List.mem_cons.1 he with rfl | he
    · exact ⟨hs, hg1, hgs, Grown.refl _ _, h3⟩
    · obtain ⟨a, b, c, d, e'⟩ := h4 e he
      exact ⟨a, b, c, Grown.trans hch d, e'⟩

/-- The first iteration of a drain, spelled out. -/
theorem drain_head_facts {kernel : Mat} {st s : GrowState} {point : Point}
    {rest : List Point} {H W : Nat} (hg : GoodState H W st) (hq : st.queue = point :: rest)
    (hs : process_point kernel point { st with queue := rest } = .ok s) :
    GoodState H W s ∧ 0 < cell st.text_line point.x point.y ∧
    Grown [kernel] st.text_line s.text_line ∧
    Closed kernel H W s.text_line point ∧
    ∃ new, s.queue = rest ++ new ∧
      s.next_queue = st.next_queue ++ (if new = [] then [point] else []) ∧
      (∀ q ∈ new, Adj4 point q ∧ cell kernel q.x q.y ≠ 0 ∧ cell st.text_line q.x q.y ≤ 0 ∧
        cell s.text_line q.x q.y = cell st.text_line point.x point.y) ∧
      (∀ a b, cell st.text_line a b ≤ 0 → 0 < cell s.text_line a b → Point.mk a b ∈ new) ∧
      unlabelled s.text_line + new.length = unlabelled st.text_line := by
  have hg1 : GoodState H W { { st with queue := rest } with queue := point :: rest } := by
    rw [restore_queue hq]; exact hg
  have hpos : 0 < cell st.text_line point.x point.y := hg.queued point (by simp [hq])
  obtain ⟨hch, hrest⟩ := @process_point_spec _ _ { st with queue := rest } _ hpos hs
  exact ⟨process_point_good hg1 hs, hpos, hch,
    @process_point_closed kernel point { st with queue := rest } s H W hg.shape hpos hs, hrest⟩

/-- The queue handed on by a drain: the points that had no eligible neighbour
when they were dequeued, in the order of the iterations. -/
theorem Drain.next_queue_eq {kernel : Mat} {st r : GrowState} {T : List Dequeue} {H W : Nat}
    (h : Drain kernel st T r) (hg : GoodState H W st) :
    r.next_queue = st.next_queue ++
      (T.filter (fun e => decide (Closed kernel H W e.before.text_line e.point))).map
        Dequeue.point := by
  induction h with
  | done st hq => simp
  | step st point rest s r T hq hs _ ih =>
    have hg1 : GoodState H W { { st with queue := rest } with queue := point :: rest } := by
      rw [restore_queue hq]; exact hg
    have hgs := process_point_good hg1 hs
    obtain ⟨hc, ho⟩ := process_point_edge hg1 hs
    rw [ih hgs]
    by_cases hcl : Closed kernel H W st.text_line point
    · have h1 := (hc hcl).1
      simp only at h1
      simp [List.filter_cons, hcl, h1]
    · have h1 := (ho hcl).1
      simp only at h1
      simp [List.filter_cons, hcl, h1]

/-- The points dequeued by a drain start with the queue it began with. -/
theorem Drain.points_start {kernel : Mat} {st r : GrowState} {T : List Dequeue} {H W : Nat}
    (h : Drain kernel st T r) (hg : GoodState H W st) :
    ∃ X, T.map Dequeue.point = st.queue ++ X := by
  induction h with
  | done st hq => exact ⟨[], by simp [hq]⟩
  | step st point rest s r T hq hs _ ih =>
    obtain ⟨hgs, _, _, _, new, hnew, _⟩ := drain_head_facts hg hq hs
    obtain ⟨X, hX⟩ := ih hgs
    exact ⟨new ++ X, by simp [hX, hq, hnew]⟩

/-- Every point of the starting queue is dequeued. -/
theorem Drain.all_dequeued {kernel : Mat} {st r : GrowState} {T : List Dequeue} {H W : Nat}
    (h : Drain kernel st T r) (hg : GoodState H W st) :
    ∀ p ∈ st.queue, p ∈ T.map Dequeue.point := by
  obtain ⟨X, hX⟩ := h.points_start hg
  intro p hp
  rw [hX]; exact List.mem_append_left _ hp

/-- Every dequeued point was in the starting queue or was claimed during the drain. -/
theorem Drain.origin {kernel : Mat} {st r : GrowState} {T : List Dequeue} {H W : Nat}
    (h : Drain kernel st T r) (hg : GoodState H W st) :
    ∀ e ∈ T, e.point ∈ st.queue ∨
      (cell st.text_line e.point.x e.point.y ≤ 0 ∧ 0 < cell r.text_line e.point.x e.point.y) := by
  induction h with
  | done st hq => simp
  | step st point rest s r T hq hs hd ih =>
    obtain ⟨hgs, _, hch, _, new, hnew, _, hcl, _⟩ := drain_head_facts hg hq hs
    obtain ⟨hgr, _, hsr, _⟩ := hd.entries hgs
    intro e he
    rcases List.mem_cons.1 he with rfl | he
    · left; simp [hq]
    · rcases ih hgs e he with hm | ⟨h1, h2⟩
      · rw [hnew] at hm
        rcases List.mem_append.1 hm with hm | hm
        · left; rw [hq]; exact List.mem_cons_of_mem _ hm
        · right
          obtain ⟨_, _, h3, h4⟩ := hcl e.point hm
          have hpos : 0 < cell s.text_line e.point.x e.point.y := by
            rw [h4]; exact hg.queued point (by simp [hq])
          exact ⟨h3, by rw [hsr.keeps hpos]; exact hpos⟩
      · right
        refine ⟨?_, h2⟩
        by_contra hcon
        have := hch.keeps (a := e.point.x) (b := e.point.y) (by omega)
        omega

/-- Every cell that becomes labelled during a drain is claimed in one of its
iterations, by the dequeued point of that iteration, and is dequeued itself
later in the same drain. -/
theorem Drain.claimed {kernel : Mat} {st r : GrowState} {T : List Dequeue} {H W : Nat}
    (h : Drain kernel st T r) (hg : GoodState H W st) (z : Point)
    (hz0 : cell st.text_line z.x z.y ≤ 0) (hz1 : 0 < cell r.text_line z.x z.y) :
    (∃ e ∈ T, Adj4 e.point z ∧ cell e.before.text_line z.x z.y ≤ 0 ∧
      0 < cell e.after.text_line z.x z.y) ∧ z ∈ T.map Dequeue.point := by
  induction h with
  | done st hq => omega
  | step st point rest s r T hq hs hd ih =>
    obtain ⟨hgs, _, hch, _, new, hnew, _, hcl, hall, _⟩ := drain_head_facts hg hq hs
    by_cases hzs : 0 < cell s.text_line z.x z.y
    · have hmem := hall z.x z.y hz0 hzs
      obtain ⟨hadj, _, _, _⟩ := hcl z hmem
      refine ⟨⟨_, List.mem_cons_self _ _, hadj, hz0, hzs⟩, ?_⟩
      rw [List.map_cons]
      apply List.mem_cons_of_mem
      exact hd.all_dequeued hgs z (by rw [hnew]; exact List.mem_append_right _ hmem)
    · obtain ⟨⟨e, he, h1⟩, h2⟩ := ih hgs (by omega) hz1
      exact ⟨⟨e, List.mem_cons_of_mem _ he, h1⟩, by
        rw [List.map_cons]; exact List.mem_cons_of_mem _ h2⟩

/-- A cell claimed in an iteration is a neighbour of the dequeued point and
holds, at the end of the drain, the label that point had when it was dequeued. -/
theorem Drain.label_of_claim {kernel : Mat} {st r : GrowState} {T : List Dequeue} {H W : Nat}
    (h : Drain kernel st T r) (hg : GoodState H W st) :
    ∀ e ∈ T, ∀ z : Point, cell e.before.text_line z.x z.y ≤ 0 →
      0 < cell e.after.text_line z.x z.y →
      Adj4 e.point z ∧ cell kernel z.x z.y ≠ 0 ∧
        cell r.text_line z.x z.y = cell e.before.text_line e.point.x e.point.y := by
  intro e he z hz0 hz1
  obtain ⟨_, _, _, hent⟩ := h.entries hg
  obtain ⟨hp, hgb, _, _, hgr⟩ := hent e he
  have hpos : 0 < cell e.before.text_line e.point.x e.point.y :=
    hgb.queued e.point (List.mem_append_left _ (List.mem_cons_self _ _))
  obtain ⟨_, new, _, _, hnew, hall, _⟩ := process_point_spec hpos hp
  obtain ⟨hadj, hk, _, hval⟩ := hnew z (hall z.x z.y hz0 hz1)
  exact ⟨hadj, hk, by rw [hgr.keeps hz1, hval]⟩

/-- At the end of a drain no dequeued point has an eligible neighbour. -/
theorem Drain.closed_at_end {kernel : Mat} {st r : GrowState} {T : List Dequeue} {H W : Nat}
    (h : Drain kernel st T r) (hg : GoodState H W st) :
    ∀ e ∈ T, Closed kernel H W r.text_line e.point := by
  intro e he
  obtain ⟨_, _, _, hent⟩ := h.entries hg
  obtain ⟨hp, hgb, _, _, hgr⟩ := hent e he
  have hpos : 0 < cell e.before.text_line e.point.x e.point.y :=
    hgb.queued e.point (List.mem_append_left _ (List.mem_cons_self _ _))
  exact (@process_point_closed kernel e.point e.before e.after H W hgb.shape hpos hp).grown hgr

/-- A point dequeued earlier is not a neighbour of a cell claimed later. -/
theorem Drain.earliest {kernel : Mat} {st r : GrowState} {T : List Dequeue} {H W : Nat}
    (h : Drain kernel st T r) (hg : GoodState H W st) :
    T.Pairwise (fun e e' => ∀ z : Point, cell e'.before.text_line z.x z.y ≤ 0 →
      0 < cell e'.after.text_line z.x z.y → ¬ Adj4 e.point z) := by
  induction h with
  | done st hq => exact List.Pairwise.nil
  | step st point rest s r T hq hs hd ih =>
    obtain ⟨hgs, _, _, hclosed, _⟩ := drain_head_facts hg hq hs
    refine List.Pairwise.cons ?_ (ih hgs)
    intro e he z hz0 hz1 hadj
    obtain ⟨_, _, _, hent⟩ := hd.entries hgs
    obtain ⟨_, _, hga, hgb, _⟩ := hent e he
    obtain ⟨_, hk, _⟩ := hd.label_of_claim hgs e he z hz0 hz1
    obtain ⟨hx, hy⟩ := fg_in_bounds hga.shape (by omega : cell e.after.text_line z.x z.y ≠ 0)
    have hpos := hclosed z hadj hx hy hk
    have := hgb.keeps hpos
    omega

/-- A completed round is a drain followed by the swap of the two queues. -/
theorem grow_round_drain {kernels : List Mat} {kernel_id : Nat} {st r : GrowState}
    (h : grow_round kernels kernel_id st = .ok r) :
    ∃ kernel s, idx kernels kernel_id = .ok kernel ∧
      Drain kernel st (dequeues kernel (st.queue.length + unlabelled st.text_line) st) s ∧
      r = { text_line := s.text_line, queue := s.next_queue, next_queue := s.queue } := by
  unfold grow_round at h
  simp only [Outcome.bind_eq, Outcome.pure_eq, Outcome.bind_eq_ok] at h
  obtain ⟨kernel, hk, s, hs, h⟩ := h
  exact ⟨kernel, s, hk, whileQueue_drain hs, (Outcome.ok.inj h).symm⟩

/-! ## Counting the dequeues of a round -/

/-- The recorded iterations are at most the queued points plus the cells that
are not labelled. -/
theorem dequeues_length_le {kernel : Mat} {fuel : Nat} {st : GrowState} {H W : Nat}
    (hg : GoodState H W st) :
    (dequeues kernel fuel st).length ≤ st.queue.length + unlabelled st.text_line := by
  induction fuel generalizing st with
  | zero =>
    unfold dequeues
    split <;> simp
  | succ f ih =>
    cases hq : st.queue with
    | nil => rw [dequeues_nil hq]; simp
    | cons point rest =>
      cases hs : process_point kernel point { st with queue := rest } with
      | ok s =>
        rw [dequeues_cons hq hs]
        obtain ⟨hgs, _, _, _, new, hnew, _, _, _, hunl⟩ := drain_head_facts hg hq hs
        have := ih hgs
        rw [hnew, List.length_append] at this
        simp only [List.length_cons]
        omega
      | outOfRange =>
        rw [dequeues]; simp only [hq, hs]; simp
      | outOfFuel =>
        rw [dequeues]; simp only [hq, hs]; simp

/-- The cells claimed in one iteration are pairwise distinct. -/
theorem process_point_new_nodup {kernel : Mat} {point : Point} {st r : GrowState}
    (hpos : 0 < cell st.text_line point.x point.y)
    (h : process_point kernel point st = .ok r) :
    ∃ new, r.queue = st.queue ++ new ∧ new.Nodup := by
  unfold process_point at h
  simp only [Outcome.bind_eq, Outcome.pure_eq, Outcome.bind_eq_ok] at h
  obtain ⟨label, hlabel, t, hrun, h⟩ := h
  have hl : cell st.text_line point.x point.y = label := cell_of_matAt hlabel
  rw [hl] at hpos
  have hJ := forUpTo_inv
    (fun (_ : Nat) (u : GrowState × Bool) =>
      ∃ new, u.1.queue = st.queue ++ new ∧ new.Nodup ∧
        ∀ q ∈ new, 0 < cell u.1.text_line q.x q.y)
    4 (s := (st, true)) (r := t) (f := visit kernel point.x point.y label)
    ⟨[], by simp, List.nodup_nil, by simp⟩
    (by
      rintro d _ ⟨s, flag⟩ u ⟨new, hq, hnd, hall⟩ hv
      simp only at hq hall
      rcases visit_cases hv with rfl | ⟨tx, ty, k, v, tl, _, _, _, ht, ht0, hset, rfl⟩
      · exact ⟨new, hq, hnd, hall⟩
      · simp only at ht hset
        refine ⟨new ++ [⟨tx, ty⟩], by simp [hq], ?_, ?_⟩
        · rw [List.nodup_append]
          refine ⟨hnd, List.nodup_singleton _, ?_⟩
          intro a ha hb
          rw [List.mem_singleton] at hb
          subst hb
          have h1 := hall _ ha
          have h2 := cell_of_matAt ht
          simp only at h1
          omega
        · intro q hq'
          simp only
          rw [matSet_cell hset]
          split
          · exact hpos
          · rcases List.mem_append.1 hq' with hm | hm
            · exact hall q hm
            · rw [List.mem_singleton] at hm
              subst hm
              rename_i hne
              exact absurd ⟨rfl, rfl⟩ hne)
    hrun
  obtain ⟨new, hq, hnd, _⟩ := hJ
  refine ⟨new, ?_, hnd⟩
  split at h <;> · have := (Outcome.ok.inj h).symm; subst this; exact hq

/-- No coordinate is in the two queues twice: an iteration keeps that. -/
theorem process_point_nodup {kernel : Mat} {point : Point} {st r : GrowState} {H W : Nat}
    (hg : GoodState H W { st with queue := point :: st.queue })
    (hnd : (point :: st.queue ++ st.next_queue).Nodup)
    (h : process_point kernel point st = .ok r) : (r.queue ++ r.next_queue).Nodup := by
  have hpos : 0 < cell st.text_line point.x point.y :=
    hg.queued point (List.mem_append_left _ (List.mem_cons_self _ _))
  obtain ⟨_, new, hq, hnq, hnew, _, _⟩ := process_point_spec hpos h
  obtain ⟨new', hq', hnd'⟩ := process_point_new_nodup hpos h
  have : new' = new := by
    rw [hq] at hq'
    exact (List.append_cancel_left hq').symm
  subst this
  have hold : ∀ p, p ∈ st.queue ∨ p ∈ st.next_queue ∨ p = point → p ∉ new' := by
    intro p hp hm
    have h1 := (hnew p hm).2.2.1
    have h2 : 0 < cell st.text_line p.x p.y := by
      rcases hp with hp | hp | hp
      · exact hg.queued p (List.mem_append_left _ (List.mem_cons_of_mem _ hp))
      · exact hg.queued p (List.mem_append_right _ hp)
      · rw [hp]; exact hpos
    omega
  rw [List.cons_append, List.nodup_cons, List.nodup_append] at hnd
  obtain ⟨hpt, hqn, hnn, hdis⟩ := hnd
  rw [hq, hnq]
  by_cases hnil : new' = []
  · subst hnil
    simp only [List.append_nil, if_true]
    rw [← List.append_assoc, List.nodup_append]
    refine ⟨List.nodup_append.2 ⟨hqn, hnn, hdis⟩, List.nodup_singleton _, ?_⟩
    intro a ha hb
    rw [List.mem_singleton] at hb
    subst hb
    exact hpt ha
  · simp only [hnil, if_false, List.append_nil]
    rw [List.append_assoc, List.nodup_append]
    refine ⟨hqn, List.nodup_append.2 ⟨hnd', hnn, ?_⟩, ?_⟩
    · intro a ha hb
      exact hold a (Or.inr (Or.inl hb)) ha
    · intro a ha hb
      rcases List.mem_append.1 hb with hb | hb
      · exact hold a (Or.inl ha) hb
      · exact hdis ha hb

theorem Drain.nodup {kernel : Mat} {st r : GrowState} {T : List Dequeue} {H W : Nat}
    (h : Drain kernel st T r) (hg : GoodState H W st)
    (hnd : (st.queue ++ st.next_queue).Nodup) :
    (r.queue ++ r.next_queue).Nodup ∧
    ∀ e ∈ T, (e.point :: e.before.queue ++ e.before.next_queue).Nodup ∧
      (e.after.queue ++ e.after.next_queue).Nodup := by
  induction h with
  | done st hq => exact ⟨hnd, by simp⟩
  | step st point rest s r T hq hs _ ih =>
    have hg1 : GoodState H W { { st with queue := rest } with queue := point :: rest } := by
      rw [restore_queue hq]; exact hg
    have hgs := process_point_good hg1 hs
    have hnd1 : (point :: ({ st with queue := rest } : GrowState).queue ++
        ({ st with queue := rest } : GrowState).next_queue).Nodup := by
      rw [hq] at hnd; exact hnd
    have hnds := process_point_nodup hg1 hnd1 hs
    obtain ⟨h1, h2⟩ := ih hgs hnds
    refine ⟨h1, ?_⟩
    intro e he
    rcases List.mem_cons.1 he with rfl | he
    · exact ⟨hnd1, hnds⟩
    · exact h2 e he

theorem length_rowMajor (H W : Nat) : (rowMajor H W).length = H * W := by
  induction H with
  | zero => simp [rowMajor]
  | succ n ih =>
    rw [rowMajor_succ, List.length_append, ih]
    simp
    ring

theorem row_eq_map_range (row : List Int) :
    row = (List.range row.length).map (fun y => row.getD y 0) := by
  apply List.ext_getElem (by simp)
  intro i h1 h2
  simp [List.getD_eq_getElem?_getD, List.getElem?_eq_getElem h1]

theorem row_filter_length (row : List Int) (f : Int → Bool) :
    (row.filter f).length =
      ((List.range row.length).filter (fun y => f (row.getD y 0))).length := by
  conv_lhs => rw [row_eq_map_range row]
  rw [List.filter_map, List.length_map]
  rfl

/-- The cells that are not labelled, counted over the coordinates of the grid. -/
theorem unlabelled_eq_filter {tl : Mat} {H W : Nat} (hs : HasShape tl H W) :
    unlabelled tl =
      ((rowMajor H W).filter (fun p => decide (cell tl p.x p.y ≤ 0))).length := by
  have key : ∀ n, n ≤ H → unlabelled (tl.take n) =
      ((rowMajor n W).filter (fun p => decide (cell tl p.x p.y ≤ 0))).length := by
    intro n
    induction n with
    | zero => intro _; simp [unlabelled, rowMajor]
    | succ n ih =>
      intro hn
      have hlt : n < tl.length := by rw [hs.1]; omega
      have hrow : (tl[n]).length = W := hs.row_length hlt
      have h1 := ih (by omega)
      unfold unlabelled at h1 ⊢
      rw [take_succ_of_lt tl n hlt, List.map_append, List.sum_append, h1, rowMajor_succ,
        List.filter_append, List.length_append]
      congr 1
      simp only [List.map_cons, List.map_nil, List.sum_cons, List.sum_nil, Nat.add_zero]
      rw [row_filter_length, hrow, List.filter_map, List.length_map]
      congr 1
      apply List.filter_congr
      intro y hy
      rw [List.mem_range] at hy
      simp [cell, List.getD_eq_getElem?_getD, List.getElem?_eq_getElem hlt]
  have := key H (le_refl _)
  rw [← hs.1, List.take_length] at this
  rw [this, hs.1]

/-- Distinct queued points and cells that are not labelled together are at
most the cells of the grid. -/
theorem queue_length_le {st : GrowState} {H W : Nat} (hg : GoodState H W st)
    (hnd : st.queue.Nodup) : st.queue.length + unlabelled st.text_line ≤ H * W := by
  have hsub : st.queue ⊆
      (rowMajor H W).filter (fun p => !decide (cell st.text_line p.x p.y ≤ 0)) := by
    intro p hp
    have hpos := hg.queued p (List.mem_append_left _ hp)
    rw [List.mem_filter]
    refine ⟨mem_rowMajor.2 (fg_in_bounds hg.shape (by omega)), ?_⟩
    simp only [Bool.not_eq_true', decide_eq_false_iff_not]
    omega
  have h1 := (List.subperm_of_subset hnd hsub).length_le
  have h2 := List.length_eq_length_filter_add (l := rowMajor H W)
    (fun p => decide (cell st.text_line p.x p.y ≤ 0))
  rw [length_rowMajor] at h2
  rw [unlabelled_eq_filter hg.shape]
  omega

theorem validStackTall : ValidStack (ccTable 2 seedTall) stackTall 4 5 :=
  ⟨by decide, by decide, CCSpec.of_check (by decide)⟩

theorem validStackDuel : ValidStack (ccTable 3 labelsDuel) stackDuel 2 11 :=
  ⟨by decide, by decide, CCSpec.of_check (by decide)⟩

theorem validStackSmall : ValidStack (ccTable 3 labelsSmall) stackSmall 4 5 :=
  ⟨by decide, by decide, CCSpec.of_check (by decide)⟩

theorem startState_good {cc : Mat → Nat × Mat} {kernels : List Mat} {H W : Nat}
    (hv : ValidStack cc kernels H W) : GoodState H W (startState cc kernels) :=
  initial_state_good hv

theorem initialQueue_nodup (lab : Mat) : (initialQueue lab).Nodup := by
  unfold initialQueue
  apply List.Nodup.filter
  unfold rowMajor
  rw [List.nodup_flatMap]
  refine ⟨fun x _ => ?_, ?_⟩
  · exact List.Nodup.map (fun a b h => by injection h) (List.nodup_range _)
  · apply List.Pairwise.imp_of_mem _ (List.nodup_range _)
    intro a b _ _ hab
    simp only [Function.onFun, List.disjoint_left, List.mem_map, List.mem_range]
    rintro p ⟨y, _, rfl⟩ ⟨y', _, h⟩
    injection h with h1 _
    exact hab h1.symm

theorem validStackLine : ValidStack (ccTable 2 seedLine) stackLine 3 11 :=
  ⟨by decide, by decide, CCSpec.of_check (by decide)⟩

theorem Outcome.bind_assoc {α β γ : Type} (m : Outcome α) (f : α → Outcome β)
    (g : β → Outcome γ) : (m.bind f).bind g = m.bind (fun a => (f a).bind g) := by
  cases m <;> rfl

theorem Outcome.bind_ok_right {α : Type} (m : Outcome α) : m.bind Outcome.ok = m := by
  cases m <;> rfl

/-- The loop of `grow_rounds` is the early rounds followed by round `0`. -/
theorem grow_rounds_last (kernels : List Mat) (n : Nat) (st : GrowState) :
    grow_rounds kernels (n + 1) st = (early_rounds kernels n st).bind (grow_round kernels 0) := by
  induction n generalizing st with
  | zero =>
    simp only [grow_rounds, early_rounds, Outcome.bind_ok]
    exact Outcome.bind_ok_right _
  | succ k ih =>
    rw [grow_rounds, early_rounds, Outcome.bind_assoc]
    congr 1
    funext s
    exact ih s

theorem early_rounds_spec {kernels : List Mat} {n : Nat} {st r : GrowState} {H W : Nat}
    (hg : GoodState H W st) (h : early_rounds kernels n st = .ok r) :
    GoodState H W r ∧ Grown kernels st.text_line r.text_line := by
  induction n generalizing st with
  | zero =>
    simp only [early_rounds] at h
    have := (Outcome.ok.inj h).symm; subst this
    exact ⟨hg, Grown.refl _ _⟩
  | succ k ih =>
    simp only [early_rounds, Outcome.bind_eq_ok] at h
    obtain ⟨s, hs, hrest⟩ := h
    obtain ⟨h1, h2⟩ := grow_round_spec hg hs
    obtain ⟨h3, h4⟩ := ih h1 hrest
    exact ⟨h3, h2.trans h4⟩

/-! ## Regions stay joined to their seed -/

theorem Connected4.imp {fg fg' : Point → Prop} {a b : Point} (himp : ∀ p, fg p → fg' p)
    (h : Connected4 fg a b) : Connected4 fg' a b :=
  Relation.ReflTransGen.mono (fun _ _ ⟨h1, h2, h3⟩ => ⟨himp _ h1, himp _ h2, h3⟩) h

/-- A path is carried over to another predicate when a property `S` that holds
at its start spreads along its steps and turns `fg` into `fg1`. -/
theorem Connected4.transfer {fg fg1 : Point → Prop} {a b : Point} (S : Point → Prop)
    (h : Connected4 fg a b) (ha : S a)
    (hstep : ∀ p q, fg p → fg q → Adj4 p q → S p → S q)
    (himp : ∀ p, fg p → S p → fg1 p) : Connected4 fg1 a b ∧ S b := by
  induction h with
  | refl => exact ⟨Relation.ReflTransGen.refl, ha⟩
  | tail _ hs ih =>
    have hS := hstep _ _ hs.1 hs.2.1 hs.2.2 ih.2
    exact ⟨Relation.ReflTransGen.tail ih.1 ⟨himp _ hs.1 ih.2, himp _ hs.2.1 hS, hs.2.2⟩, hS⟩

/-- Every labelled cell of a grown grid is joined to a cell of the start grid
with its label by a path of cells with that label. -/
theorem Grown.anchor {kernels : List Mat} {g0 g : Mat} (h : Grown kernels g0 g)
    (hn : ∀ a b, 0 ≤ cell g0 a b) :
    ∀ z : Point, cell g z.x z.y ≠ 0 → ∃ s : Point, cell g0 s.x s.y = cell g z.x z.y ∧
      Connected4 (fun p => cell g p.x p.y = cell g z.x z.y) z s := by
  have := h.induct (fun m => (∀ a b, 0 ≤ cell m a b) ∧
      ∀ z : Point, cell m z.x z.y ≠ 0 → ∃ s : Point, cell g0 s.x s.y = cell m z.x z.y ∧
        Connected4 (fun p => cell m p.x p.y = cell m z.x z.y) z s)
    ⟨hn, fun z _ => ⟨z, rfl, Relation.ReflTransGen.refl⟩⟩ ?_
  · exact this.2
  intro k m m' _ ih hc
  refine ⟨hc.nonneg_kept ih.1, fun z hz => ?_⟩
  have lift : ∀ (L : Int) (a b : Point), 0 < L →
      Connected4 (fun p => cell m p.x p.y = L) a b →
      Connected4 (fun p => cell m' p.x p.y = L) a b := by
    intro L a b hL hab
    refine hab.imp (fun p hp => ?_)
    simp only at hp ⊢
    rw [hc.keeps_pos (by omega), hp]
  rcases hc.cases z.x z.y with heq | ⟨_, hpos, _, p, hadj, hp, hval⟩
  · rw [heq] at hz ⊢
    obtain ⟨s, hs, hcs⟩ := ih.2 z hz
    have := ih.1 z.x z.y
    exact ⟨s, hs, lift _ _ _ (by omega) hcs⟩
  · obtain ⟨s, hs, hcs⟩ := ih.2 p (by omega)
    rw [hval]
    refine ⟨s, hs, Connected4.append (Connected4.step ?_ ?_ (adj4_symm hadj))
      (lift _ _ _ hp hcs)⟩
    · exact hval
    · exact hc.keeps_pos hp

/-- Every grid grown from the initial grid of a valid stack is anchored in the
label image of the seed plane. -/
theorem anchored_of_grown {cc : Mat → Nat × Mat} {kernels : List Mat} {H W : Nat}
    (hv : ValidStack cc kernels H W) {g : Mat}
    (h : Grown kernels (initialGrid (labelsOf cc kernels)) g) :
    Anchored (labelsOf cc kernels) g := by
  have hn0 : ∀ a b, 0 ≤ cell (initialGrid (labelsOf cc kernels)) a b :=
    (startState_good hv).nonneg
  have hln : ∀ a b, 0 ≤ cell (labelsOf cc kernels) a b := fun a b =>
    (hv.labelled.cell_range a b).1
  have hanchor := h.anchor hn0
  -- a label of `g` is a label of a seed component of at least ten cells
  have hseed : ∀ z : Point, cell g z.x z.y ≠ 0 →
      ∀ p : Point, cell (labelsOf cc kernels) p.x p.y = cell g z.x z.y →
        cell g p.x p.y = cell g z.x z.y := by
    intro z hz p hp
    obtain ⟨s, hs, _⟩ := hanchor z hz
    obtain ⟨h1, _, h3⟩ := initialGrid_ne_zero (by rw [hs]; exact hz :
      cell (initialGrid (labelsOf cc kernels)) s.x s.y ≠ 0)
    have hL : cell (labelsOf cc kernels) s.x s.y = cell g z.x z.y := by rw [← h1, hs]
    have hp0 : cell (initialGrid (labelsOf cc kernels)) p.x p.y = cell g z.x z.y := by
      rw [cell_initialGrid, hp]
      rcases seedLabel_cases (labelsOf cc kernels) (cell g z.x z.y) with ⟨_, h5 | h5⟩ | ⟨h4, _⟩
      · rw [hL] at h3; omega
      · exact absurd h5 hz
      · exact h4
    have := hln p.x p.y
    rw [h.keeps (by rw [hp0]; omega), hp0]
  intro z hz
  obtain ⟨s, hs, hcs⟩ := hanchor z hz
  obtain ⟨h1, h2, _⟩ := initialGrid_ne_zero (by rw [hs]; exact hz :
    cell (initialGrid (labelsOf cc kernels)) s.x s.y ≠ 0)
  have hL : cell (labelsOf cc kernels) s.x s.y = cell g z.x z.y := by rw [← h1, hs]
  refine ⟨⟨s, hL, hcs⟩, hseed z hz, fun q hq => ?_⟩
  obtain ⟨t, ht, hct⟩ := hanchor q (by rw [hq]; exact hz)
  rw [hq] at ht hct
  obtain ⟨h1t, h2t, _⟩ := initialGrid_ne_zero (by rw [ht]; exact hz :
    cell (initialGrid (labelsOf cc kernels)) t.x t.y ≠ 0)
  have hLt : cell (labelsOf cc kernels) t.x t.y = cell g z.x z.y := by rw [← h1t, ht]
  have hfs : Fg (seedOf kernels) s := (hv.labelled.foreground s.x s.y).1 h2
  have hft : Fg (seedOf kernels) t := (hv.labelled.foreground t.x t.y).1 h2t
  have hst : Connected4 (Fg (seedOf kernels)) s t :=
    (hv.labelled.component s t hfs hft).1 (by
      show cell (labelsOf cc kernels) s.x s.y = cell (labelsOf cc kernels) t.x t.y
      rw [hL, hLt])
  have hst' := (hst.transfer (fun p => cell (labelsOf cc kernels) p.x p.y = cell g z.x z.y) hL
    (fun p q hp hq hadj hSp => by
      have := (hv.labelled.component p q hp hq).2 (Connected4.step hp hq hadj)
      have hpq : cell (labelsOf cc kernels) p.x p.y = cell (labelsOf cc kernels) q.x q.y := this
      simp only at hSp ⊢
      rw [← hpq]; exact hSp)
    (fun p _ hSp => hseed z hz p hSp)).1
  exact hcs.append (hst'.append hct.symm)

/-! ## Breadth-first growth in one round -/

theorem MinDist.unique {g0 k : Mat} {n m : Nat} {z : Point} (h1 : MinDist g0 k n z)
    (h2 : MinDist g0 k m z) : n = m :=
  Nat.le_antisymm (h1.2 m h2.1) (h2.2 n h1.1)

/-- A reachable cell has a distance. -/
theorem Reach.minDist {g0 k : Mat} {z : Point} (m : Nat) (h : Reach g0 k m z) :
    ∃ n, n ≤ m ∧ MinDist g0 k n z := by
  induction m using Nat.strong_induction_on with
  | _ m ih =>
    by_cases hex : ∃ j, j < m ∧ Reach g0 k j z
    · obtain ⟨j, hj, hr⟩ := hex
      obtain ⟨n, hn, hmin⟩ := ih j hj hr
      exact ⟨n, by omega, hmin⟩
    · refine ⟨m, le_refl _, h, fun j hj => ?_⟩
      by_contra hcon
      exact hex ⟨j, by omega, hj⟩

theorem Reach.extend {g0 k : Mat} {n : Nat} {y z : Point} (h : Reach g0 k n y) (hadj : Adj4 y z)
    (hok : Passable g0 k z) : Reach g0 k (n + 1) z := by
  obtain ⟨s, hs, hw⟩ := h
  exact ⟨s, hs, Walk.next hw hadj hok⟩

theorem reach_zero {g0 k : Mat} {z : Point} : Reach g0 k 0 z ↔ cell g0 z.x z.y ≠ 0 := by
  constructor
  · rintro ⟨s, hs, hw⟩
    cases hw
    exact hs
  · intro h
    exact ⟨z, h, Walk.here⟩

theorem minDist_zero {g0 k : Mat} {z : Point} (h : cell g0 z.x z.y ≠ 0) : MinDist g0 k 0 z :=
  ⟨reach_zero.2 h, fun _ _ => Nat.zero_le _⟩

/-- The cell before a cell at distance `d + 1` on a shortest path is at distance `d`. -/
theorem MinDist.pred {g0 k : Mat} {d : Nat} {z : Point} (h : MinDist g0 k (d + 1) z) :
    ∃ y, MinDist g0 k d y ∧ Adj4 y z ∧ Passable g0 k z := by
  obtain ⟨⟨s, hs, hw⟩, hmin⟩ := h
  cases hw with
  | next hw hadj hok =>
    refine ⟨_, ⟨⟨s, hs, hw⟩, fun m hm => ?_⟩, hadj, hok⟩
    have := hmin (m + 1) (hm.extend hadj hok)
    omega

theorem Passable.in_bounds {g0 k : Mat} {H W : Nat} {z : Point} (h : Passable g0 k z)
    (hg0 : HasShape g0 H W) (hk : HasShape k H W) : z.x < H ∧ z.y < W := by
  rcases h with h | h
  · exact fg_in_bounds hg0 h
  · exact fg_in_bounds hk h

/-- When the block at distance `d` is used up, every cell at distance `d + 1`
is labelled and the block at distance `d + 1` becomes the front block. -/
theorem Layered.shift {g0 k : Mat} {H W : Nat} {st : GrowState} {d : Nat} {B : List Point}
    (L : Layered g0 k H W st d [] B) (hg : GoodState H W st) (hg0 : HasShape g0 H W)
    (hk : HasShape k H W) : Layered g0 k H W st (d + 1) B [] := by
  refine ⟨by simpa using L.queue, L.levelB, fun p hp => by simp at hp, L.label, L.closed,
    fun z n hn hmin => ?_⟩
  by_cases hle : n ≤ d
  · exact L.full z n hle hmin
  · have hnd : n = d + 1 := by omega
    subst hnd
    obtain ⟨y, hy, hadj, hok⟩ := hmin.pred
    have hy0 := L.full y d (le_refl _) hy
    have hypos : 0 < cell st.text_line y.x y.y := by
      have := hg.nonneg y.x y.y
      omega
    obtain ⟨hx, hyb⟩ := hok.in_bounds hg0 hk
    have hkz : cell k z.x z.y ≠ 0 := by
      rcases hok with h | h
      · have := (minDist_zero (k := k) h).unique hmin
        omega
      · exact h
    rcases L.closed y hypos with hmem | hcl
    · rw [L.queue, List.nil_append] at hmem
      have := (L.levelB y hmem).unique hy
      omega
    · have := hcl z hadj hx hyb hkz
      omega

/-- One iteration of the `while` loop keeps the layering. -/
theorem Layered.iterate {g0 k : Mat} {H W : Nat} {st s : GrowState} {d : Nat} {point : Point}
    {A B rest : List Point} (L : Layered g0 k H W st d (point :: A) B)
    (hg : GoodState H W st) (hq : st.queue = point :: rest)
    (hs : process_point k point { st with queue := rest } = .ok s) :
    ∃ B1, Layered g0 k H W s d A B1 := by
  obtain ⟨hgs, hpos, hch, hclosed, new, hqueue, _, hnew, hall, _⟩ := drain_head_facts hg hq hs
  have hrest : rest = A ++ B := by
    have := L.queue
    rw [hq, List.cons_append] at this
    exact (List.cons.inj this).2
  have hpd : MinDist g0 k d point := L.levelA point (List.mem_cons_self _ _)
  have hnewmin : ∀ q ∈ new, MinDist g0 k (d + 1) q := by
    intro q hqn
    obtain ⟨hadj, hkq, hq0, _⟩ := hnew q hqn
    refine ⟨hpd.1.extend hadj (Or.inr hkq), fun m hm => ?_⟩
    by_contra hcon
    obtain ⟨n, hn, hmin⟩ := hm.minDist m
    have := L.full q n (by omega) hmin
    have := hg.nonneg q.x q.y
    omega
  have hnewlab : ∀ q ∈ new, ∃ s0, NearestSeed g0 k s0 q ∧
      cell s.text_line q.x q.y = cell g0 s0.x s0.y := by
    intro q hqn
    obtain ⟨hadj, hkq, _, hval⟩ := hnew q hqn
    obtain ⟨s0, ⟨hs0, n, hw, hmin⟩, hlab⟩ := L.label point (by omega)
    have hnd : n = d := hmin.unique hpd
    subst hnd
    exact ⟨s0, ⟨hs0, n + 1, Walk.next hw hadj (Or.inr hkq), hnewmin q hqn⟩, by rw [hval, hlab]⟩
  have hmemnew : ∀ z : Point, ¬ 0 < cell st.text_line z.x z.y →
      0 < cell s.text_line z.x z.y → z ∈ new := by
    intro z h0 h1
    exact hall z.x z.y (by omega) h1
  refine ⟨B ++ new, by rw [hqueue, hrest, List.append_assoc], ?_, ?_, ?_, ?_, ?_⟩
  · intro p hp
    exact L.levelA p (List.mem_cons_of_mem _ hp)
  · intro p hp
    rcases List.mem_append.1 hp with hp | hp
    · exact L.levelB p hp
    · exact hnewmin p hp
  · intro z hz
    have hzpos : 0 < cell s.text_line z.x z.y := by
      have := hgs.nonneg z.x z.y
      omega
    by_cases hst : 0 < cell st.text_line z.x z.y
    · rw [hch.keeps hst]
      exact L.label z (by omega)
    · exact hnewlab z (hmemnew z hst hzpos)
  · intro z hzpos
    by_cases hst : 0 < cell st.text_line z.x z.y
    · rcases L.closed z hst with hmem | hcl
      · rw [hq] at hmem
        rcases List.mem_cons.1 hmem with rfl | hmem
        · exact Or.inr hclosed
        · left; rw [hqueue]; exact List.mem_append_left _ hmem
      · exact Or.inr (hcl.grown hch)
    · left; rw [hqueue]; exact List.mem_append_right _ (hmemnew z hst hzpos)
  · intro z n hn hmin
    have h0 := L.full z n hn hmin
    have hst : 0 < cell st.text_line z.x z.y := by
      have := hg.nonneg z.x z.y
      omega
    rw [hch.keeps hst]
    exact h0

/-- A drain keeps the layering and ends with both blocks empty. -/
theorem Drain.layered {g0 k : Mat} {H W : Nat} {st r : GrowState} {T : List Dequeue}
    (h : Drain k st T r) (hg : GoodState H W st) (hg0 : HasShape g0 H W)
    (hk : HasShape k H W) :
    ∀ (d : Nat) (A B : List Point), Layered g0 k H W st d A B →
      ∃ d1, Layered g0 k H W r d1 [] [] := by
  induction h with
  | done st hq =>
    intro d A B L
    have hAB := L.queue
    rw [hq] at hAB
    obtain ⟨hA, hB⟩ := List.append_eq_nil.1 hAB.symm
    subst hA; subst hB
    exact ⟨d, L⟩
  | step st point rest s r T hq hs _ ih =>
    have hgs := (drain_head_facts hg hq hs).1
    intro d A B L
    cases A with
    | nil =>
      have L1 := L.shift hg hg0 hk
      have hB := L1.queue
      rw [hq, List.append_nil] at hB
      subst hB
      obtain ⟨B1, L2⟩ := L1.iterate hg hq hs
      exact ih hgs _ _ _ L2
    | cons a A1 =>
      have ha : a = point := by
        have := L.queue
        rw [hq, List.cons_append] at this
        exact (List.cons.inj this).1.symm
      subst ha
      obtain ⟨B1, L2⟩ := L.iterate hg hq hs
      exact ih hgs _ _ _ L2

/-- The state in front of the first round is layered at distance `0`. -/
theorem startState_layered {cc : Mat → Nat × Mat} {kernels : List Mat} {H W : Nat}
    (hv : ValidStack cc kernels H W) (k : Mat) :
    Layered (initialGrid (labelsOf cc kernels)) k H W (startState cc kernels) 0
      (initialQueue (labelsOf cc kernels)) [] := by
  have hg := startState_good hv
  have hsh : HasShape (labelsOf cc kernels) H W :=
    hv.labelled.hasShape (hv.shape _ (seedOf_mem hv.nonempty))
  refine ⟨by simp [startState], fun p hp => minDist_zero (mem_initialQueue hp),
    fun p hp => by simp at hp, fun z hz => ?_, fun z hz => ?_, fun z n hn hmin => ?_⟩
  · exact ⟨z, ⟨hz, 0, Walk.here, minDist_zero hz⟩, rfl⟩
  · exact Or.inl (mem_initialQueue_of_pos hsh hz)
  · have hn0 : n = 0 := by omega
    subst hn0
    exact reach_zero.1 hmin.1

/-- With both blocks empty the labelled cells are the reachable cells. -/
theorem Layered.reached {g0 k : Mat} {H W : Nat} {st : GrowState} {d : Nat}
    (L : Layered g0 k H W st d [] []) (hg : GoodState H W st) (hk : HasShape k H W)
    (z : Point) :
    cell st.text_line z.x z.y ≠ 0 ↔ ∃ n, Reach g0 k n z := by
  constructor
  · intro hz
    obtain ⟨s, ⟨hs, n, hw, _⟩, _⟩ := L.label z hz
    exact ⟨n, s, hs, hw⟩
  · rintro ⟨n, s, hs, hw⟩
    have hseed : ∀ p : Point, cell g0 p.x p.y ≠ 0 → cell st.text_line p.x p.y ≠ 0 :=
      fun p hp => L.full p 0 (Nat.zero_le _) (minDist_zero hp)
    induction hw with
    | here => exact hseed _ hs
    | @next n y c _ hadj hok ih =>
      rcases hok with h | h
      · exact hseed _ h
      · have hy := ih
        have hypos : 0 < cell st.text_line y.x y.y := by
          have := hg.nonneg y.x y.y
          omega
        obtain ⟨hx, hyb⟩ := fg_in_bounds hk h
        rcases L.closed y hypos with hmem | hcl
        · rw [L.queue] at hmem
          simp at hmem
        · have := hcl c hadj hx hyb h
          omega

/-- With two planes the grid that is returned is the grid at the end of the
drain of the initial frontier against plane 0. -/
theorem two_plane_drain {cc : Mat → Nat × Mat} {k0 seed : Mat} {H W : Nat}
    (hv : ValidStack cc [k0, seed] H W) {g : Mat}
    (hg : growing_text_line cc [k0, seed] = .ok g) :
    ∃ T s, Drain k0 (startState cc [k0, seed]) T s ∧ s.text_line = g := by
  have hst := initial_state_spec hv
  unfold growing_text_line at hg
  simp only [Outcome.bind_eq, Outcome.pure_eq, Outcome.bind_eq_ok] at hg
  obtain ⟨st0, h0, r, hr, hgr⟩ := hg
  have hst0 : st0 = startState cc [k0, seed] := by
    rw [hst] at h0; exact (Outcome.ok.inj h0).symm
  subst hst0
  have hr1 : grow_round [k0, seed] 0 (startState cc [k0, seed]) = .ok r := by
    have h1 : [k0, seed].length - 1 = 0 + 1 := rfl
    rw [h1, grow_rounds, Outcome.bind_eq_ok] at hr
    obtain ⟨r1, hr1, hr2⟩ := hr
    simp only [grow_rounds] at hr2
    rw [Outcome.ok.inj hr2] at hr1
    exact hr1
  obtain ⟨kernel, s, hk, hd, rfl⟩ := grow_round_drain hr1
  have hk0 : kernel = k0 := by
    have : idx [k0, seed] 0 = .ok k0 := rfl
    rw [this] at hk
    exact (Outcome.ok.inj hk).symm
  subst hk0
  exact ⟨_, s, hd, Outcome.ok.inj hgr⟩

/-! ## Claims C1 to C10 -/

/-- C1 (defect of the code). `get_kernels` stores each `int` of the buffer in an
8-bit cell, so only the low byte is kept: for the `1 x 1 x 1` buffer holding
`256`, a non-zero source value, the cell of the plane is `0`, background. -/
theorem get_kernels_drops_high_bits :
    get_kernels [256] [1, 1, 1] = .ok [[[0]]] ∧ (256 : Int) ≠ 0 ∧
      cell [[0]] 0 0 = 0 := by
  decide

/-- C2. On a valid stack, every non-zero cell of the grid returned by
`growing_text_line` is foreground in at least one plane; a cell that is
background in every plane is `0`. With at least two rows a grid is returned. -/
theorem labelled_cells_are_foreground (cc : Mat → Nat × Mat) (kernels : List Mat) (H W : Nat)
    (hv : ValidStack cc kernels H W) :
    (∀ g, growing_text_line cc kernels = .ok g →
      (∀ x y, cell g x y ≠ 0 → ∃ k ∈ kernels, cell k x y ≠ 0) ∧
      (∀ x y, (∀ k ∈ kernels, cell k x y = 0) → cell g x y = 0)) ∧
    (2 ≤ H → ∃ g, growing_text_line cc kernels = .ok g) := by
  refine ⟨fun g hg => ?_, growing_text_line_total hv⟩
  have hprov := (growing_text_line_grown hv hg).provenance (initialGrid_foreground hv)
  refine ⟨fun x y hne => (hprov x y hne).1, fun x y hall => ?_⟩
  by_contra hne
  obtain ⟨k, hk, hk0⟩ := (hprov x y hne).1
  exact hk0 (hall k hk)

/-- Witness of C2 on `stackA`. -/
theorem labelled_cells_are_foreground_witness :
    ValidStack (ccTable 2 seedA) stackA 3 5 ∧
      growing_text_line (ccTable 2 seedA) stackA = .ok (onesPlane 3 5) ∧
      (cell (onesPlane 3 5) 2 4 ≠ 0 → ∃ k ∈ stackA, cell k 2 4 ≠ 0) :=
  ⟨validStackA, by decide,
    ((labelled_cells_are_foreground (ccTable 2 seedA) stackA 3 5 validStackA).1
      (onesPlane 3 5) (by decide)).1 2 4⟩

/-- C3. Monotonic labelling. On a valid stack the initial state satisfies the
invariant `GoodState`; every write of a neighbour visit, every iteration of the
`while` loop and every round starting from a state with the invariant keeps it
and is monotone: a non-zero cell keeps its value, and a cell that changes was
`0` and becomes positive. Hence every seed cell that survives the area filter
holds its seed label in the grid that is returned. -/
theorem labelling_is_monotonic (cc : Mat → Nat × Mat) (kernels : List Mat) (H W : Nat)
    (hv : ValidStack cc kernels H W) :
    (∃ s0, initial_state cc kernels = .ok s0 ∧ GoodState H W s0 ∧
      ∀ g, growing_text_line cc kernels = .ok g → Monotone s0.text_line g) ∧
    (∀ kernel x y label d (st st' : GrowState × Bool),
      (∀ a b, 0 ≤ cell st.1.text_line a b) → 0 < label →
      visit kernel x y label d st = .ok st' → Monotone st.1.text_line st'.1.text_line) ∧
    (∀ kernel point rest (s s' : GrowState), GoodState H W s → s.queue = point :: rest →
      process_point kernel point { s with queue := rest } = .ok s' →
      GoodState H W s' ∧ Monotone s.text_line s'.text_line) ∧
    (∀ kernel_id (s s' : GrowState), GoodState H W s →
      grow_round kernels kernel_id s = .ok s' →
      GoodState H W s' ∧ Monotone s.text_line s'.text_line) ∧
    (2 ≤ H → ∃ g, growing_text_line cc kernels = .ok g) := by
  refine ⟨⟨_, initial_state_spec hv, initial_state_good hv, fun g hg => ?_⟩, ?_, ?_, ?_,
    growing_text_line_total hv⟩
  · exact (growing_text_line_grown hv hg).monotone (initial_state_good hv).nonneg
  · intro kernel x y label d st st' hn hlab h
    exact visit_monotone hn hlab h
  · intro kernel point rest s s' hg hq h
    have hs : ({ { s with queue := rest } with queue := point :: rest } : GrowState) = s := by
      cases s; simp only at hq; simp [hq]
    have hg' : GoodState H W { { s with queue := rest } with queue := point :: rest } := by
      rw [hs]; exact hg
    have hpos : 0 < cell s.text_line point.x point.y := hg.queued point (by simp [hq])
    exact ⟨process_point_good hg' h,
      (@process_point_spec _ _ { s with queue := rest } _ hpos h).1.monotone hg.nonneg⟩
  · intro kernel_id s s' hg h
    obtain ⟨h1, h2⟩ := grow_round_spec hg h
    exact ⟨h1, h2.monotone hg.nonneg⟩

/-- Witness of C3 on `stackA`: the ten seed cells keep label `1`. -/
theorem labelling_is_monotonic_witness :
    ValidStack (ccTable 2 seedA) stackA 3 5 ∧
      growing_text_line (ccTable 2 seedA) stackA = .ok (onesPlane 3 5) ∧
      ∃ s0, initial_state (ccTable 2 seedA) stackA = .ok s0 ∧
        Monotone s0.text_line (onesPlane 3 5) :=
  ⟨validStackA, by decide,
    (labelling_is_monotonic (ccTable 2 seedA) stackA 3 5 validStackA).1.imp
      (fun _ h => ⟨h.1, h.2.2 (onesPlane 3 5) (by decide)⟩)⟩

/-- C4. On a valid stack, every non-zero value of the grid returned by
`growing_text_line` is the label of a 4-connected component of the seed plane
that has at least 10 cells; no cell carries a label whose component has fewer
than 10 cells, whatever the other planes are. -/
theorem output_labels_are_large_seed_components (cc : Mat → Nat × Mat) (kernels : List Mat)
    (H W : Nat) (hv : ValidStack cc kernels H W) :
    (∀ g, growing_text_line cc kernels = .ok g → ∀ x y, cell g x y ≠ 0 →
      ∃ p : Point, Fg (seedOf kernels) p ∧
        cell (labelsOf cc kernels) p.x p.y = cell g x y ∧
        10 ≤ componentArea (labelsOf cc kernels) (cell g x y) ∧
        ∀ q, Fg (seedOf kernels) q →
          (cell (labelsOf cc kernels) q.x q.y = cell g x y ↔
            Connected4 (Fg (seedOf kernels)) p q)) ∧
    (∀ g, growing_text_line cc kernels = .ok g → ∀ l, l ≠ 0 →
      componentArea (labelsOf cc kernels) l < 10 → ∀ x y, cell g x y ≠ l) ∧
    (2 ≤ H → ∃ g, growing_text_line cc kernels = .ok g) := by
  have key : ∀ g, growing_text_line cc kernels = .ok g → ∀ x y, cell g x y ≠ 0 →
      ∃ p : Point, Fg (seedOf kernels) p ∧
        cell (labelsOf cc kernels) p.x p.y = cell g x y ∧
        10 ≤ componentArea (labelsOf cc kernels) (cell g x y) := by
    intro g hg x y hne
    obtain ⟨_, s, hs, _⟩ :=
      (growing_text_line_grown hv hg).provenance (initialGrid_foreground hv) x y hne
    have hs0 : cell (initialGrid (labelsOf cc kernels)) s.x s.y ≠ 0 := by rw [hs]; exact hne
    obtain ⟨h1, h2, h3⟩ := initialGrid_ne_zero hs0
    refine ⟨s, (hv.labelled.foreground s.x s.y).1 h2, by rw [← h1, hs], ?_⟩
    rw [← hs, h1]; exact h3
  refine ⟨fun g hg x y hne => ?_, fun g hg l hl hsmall x y heq => ?_,
    growing_text_line_total hv⟩
  · obtain ⟨p, hp, hlab, harea⟩ := key g hg x y hne
    refine ⟨p, hp, hlab, harea, fun q hq => ?_⟩
    rw [← hlab]
    have := hv.labelled.component p q hp hq
    exact ⟨fun h => this.1 h.symm, fun h => (this.2 h).symm⟩
  · obtain ⟨_, _, _, harea⟩ := key g hg x y (by rw [heq]; exact hl)
    rw [heq] at harea
    omega

/-- Witness of C4 on `stackA`: the value `1` at cell `(2, 4)` is the label of
the component of ten cells. -/
theorem output_labels_are_large_seed_components_witness :
    ValidStack (ccTable 2 seedA) stackA 3 5 ∧
      growing_text_line (ccTable 2 seedA) stackA = .ok (onesPlane 3 5) ∧
      ∃ p : Point, Fg (seedOf stackA) p ∧
        cell (labelsOf (ccTable 2 seedA) stackA) p.x p.y = cell (onesPlane 3 5) 2 4 ∧
        10 ≤ componentArea (labelsOf (ccTable 2 seedA) stackA) (cell (onesPlane 3 5) 2 4) :=
  ⟨validStackA, by decide,
    ((output_labels_are_large_seed_components (ccTable 2 seedA) stackA 3 5 validStackA).1
      (onesPlane 3 5) (by decide) 2 4 (by decide)).imp
      (fun _ h => ⟨h.1, h.2.1, h.2.2.1⟩)⟩

/-- C5. On a valid stack in which every component of the seed plane has fewer
than 10 cells, `growing_text_line` returns the all-zero `H x W` grid, whatever
the other planes hold. -/
theorem small_seeds_give_zero_grid (cc : Mat → Nat × Mat) (kernels : List Mat) (H W : Nat)
    (hv : ValidStack cc kernels H W)
    (hsmall : ∀ p : Point, Fg (seedOf kernels) p →
      componentArea (labelsOf cc kernels) (cell (labelsOf cc kernels) p.x p.y) < 10) :
    growing_text_line cc kernels = .ok (Mat.zeros H W) := by
  have hsh : HasShape (labelsOf cc kernels) H W :=
    hv.labelled.hasShape (hv.shape _ (seedOf_mem hv.nonempty))
  have hz : ∀ a b, seedLabel (labelsOf cc kernels) (cell (labelsOf cc kernels) a b) = 0 := by
    intro a b
    rcases seedLabel_cases (labelsOf cc kernels) (cell (labelsOf cc kernels) a b) with
      ⟨h, _⟩ | ⟨_, h2, h3⟩
    · exact h
    · have := hsmall ⟨a, b⟩ ((hv.labelled.foreground a b).1 h3)
      simp only at this
      omega
  obtain ⟨hg, hq⟩ := initial_all_zero hsh hz
  simp only [growing_text_line, initial_state_spec hv, hg, hq, Outcome.bind_eq, Outcome.bind_ok,
    grow_rounds_empty kernels (kernels.length - 1) (by omega), Outcome.pure_eq]

/-- Witness of C5: the scenario of section 8 (`3 x 3`, seed only at `(1, 1)`,
plane 0 all ones) gives the all-zero `3 x 3` grid. -/
theorem small_seeds_give_zero_grid_witness :
    ValidStack (ccTable 2 seedDot) stackDot 3 3 ∧
      growing_text_line (ccTable 2 seedDot) stackDot = .ok [[0, 0, 0], [0, 0, 0], [0, 0, 0]] :=
  ⟨validStackDot,
    small_seeds_give_zero_grid (ccTable 2 seedDot) stackDot 3 3 validStackDot
      (fun _ _ => lt_of_le_of_lt (componentArea_le _ _) (by decide))⟩

/-- C6. For a valid stack of two planes on a grid of at least two rows, whose
plane 0 is all foreground and whose seed plane is one 4-connected component of
at least 10 cells, every cell of the grid returned by `growing_text_line` holds
the label of that component. -/
theorem single_seed_floods_grid (cc : Mat → Nat × Mat) (k0 seed : Mat) (H W : Nat)
    (hv : ValidStack cc [k0, seed] H W) (hH : 2 ≤ H)
    (hall : ∀ x y, x < H → y < W → cell k0 x y ≠ 0)
    (p0 : Point) (hp0 : Fg seed p0) (hone : ∀ q, Fg seed q → Connected4 (Fg seed) p0 q)
    (harea : 10 ≤ componentArea (cc seed).2 (cell (cc seed).2 p0.x p0.y)) :
    growing_text_line cc [k0, seed] =
      .ok (List.replicate H (List.replicate W (cell (cc seed).2 p0.x p0.y))) := by
  have hseed : seedOf [k0, seed] = seed := rfl
  have hlab : labelsOf cc [k0, seed] = (cc seed).2 := rfl
  have hcc : CCSpec seed (cc seed) := hv.labelled
  have hg0 := initial_state_good hv
  obtain ⟨g, hg⟩ := growing_text_line_total hv hH
  have hgr := growing_text_line_grown hv hg
  rw [hlab] at hgr hg0
  rw [hg]
  congr 1
  -- the label of the component
  have hL0 : cell (cc seed).2 p0.x p0.y ≠ 0 := (hcc.foreground p0.x p0.y).2 hp0
  have hLpos : 0 < cell (cc seed).2 p0.x p0.y := by
    have := (hcc.cell_range p0.x p0.y).1; omega
  have hinit : cell (initialGrid (cc seed).2) p0.x p0.y = cell (cc seed).2 p0.x p0.y := by
    rw [cell_initialGrid]
    rcases seedLabel_cases (cc seed).2 (cell (cc seed).2 p0.x p0.y) with ⟨_, h | h⟩ | ⟨h, _⟩
    · omega
    · exact absurd h hL0
    · exact h
  -- every non-zero value is that label
  have hval : ∀ x y, cell g x y ≠ 0 → cell g x y = cell (cc seed).2 p0.x p0.y := by
    intro x y hne
    obtain ⟨_, s, hs, _⟩ := hgr.provenance
      (by rw [← hlab]; exact initialGrid_foreground hv) x y hne
    have hs0 : cell (initialGrid (cc seed).2) s.x s.y ≠ 0 := by rw [hs]; exact hne
    obtain ⟨h1, h2, _⟩ := initialGrid_ne_zero hs0
    have hfs : Fg seed s := (hcc.foreground s.x s.y).1 h2
    rw [← hs, h1]
    exact ((hcc.component p0 s hp0 hfs).2 (hone s hfs)).symm
  -- every cell is labelled
  have hpos : ∀ x y, x < H → y < W → 0 < cell g x y := by
    unfold growing_text_line at hg
    simp only [initial_state_spec hv, Outcome.bind_eq, Outcome.bind_ok, Outcome.pure_eq,
      List.length_cons, List.length_nil, grow_rounds, grow_round, idx, List.getElem?_cons_zero,
      Outcome.bind_eq_ok] at hg
    obtain ⟨st, ⟨s, ⟨s', hs', hs⟩, hst⟩, hgst⟩ := hg
    have e1 := (Outcome.ok.inj hs).symm
    have e2 := (Outcome.ok.inj hst).symm
    have e3 := (Outcome.ok.inj hgst).symm
    subst e1; subst e2
    simp only at e3
    have hcl := first_round_closed hv hs'
    rw [← e3] at hcl
    obtain ⟨hx0, hy0⟩ := fg_in_bounds (hv.shape seed (by simp)) hp0
    apply grid_connected (fun x y => 0 < cell g x y) H W p0.x p0.y hx0 hy0
    · show 0 < cell g p0.x p0.y
      rw [hgr.keeps (by rw [hinit]; exact hLpos), hinit]; exact hLpos
    · intro p q _ _ hqx hqy hadj hp
      exact hcl p hp q hadj hqx hqy (hall q.x q.y hqx hqy)
  apply mat_ext (hgr.shape hg0.shape) (hasShape_replicate H W _)
  intro x y hx hy
  rw [cell_replicate _ hx hy]
  exact hval x y (by have := hpos x y hx hy; omega)

/-- Witness of C6: the scenario of section 8, a `4 x 4` block in a `10 x 10`
grid under an all-ones plane 0, floods the whole grid with label `1`. -/
theorem single_seed_floods_grid_witness :
    ValidStack (ccTable 2 seedBlock) [onesPlane 10 10, seedBlock] 10 10 ∧
      growing_text_line (ccTable 2 seedBlock) [onesPlane 10 10, seedBlock] =
        .ok (List.replicate 10 (List.replicate 10 1)) :=
  ⟨validStackBlock,
    single_seed_floods_grid (ccTable 2 seedBlock) (onesPlane 10 10) seedBlock 10 10
      validStackBlock (by decide)
      (fun x y hx hy => by rw [onesPlane, cell_replicate 1 hx hy]; decide)
      ⟨3, 3⟩ (by decide) seedBlock_connected (by decide)⟩

/-- C7. On a valid stack, let `LA` and `LB` be the labels of two seed components
of at least 10 cells each such that no 4-path through the union of the
foregrounds of the planes joins a cell of one to a cell of the other. Then in
the returned grid both labels occur, every cell of either component holds its
label, no cell joined to one component in that union carries the label of the
other, and every cell that is background in all planes is `0`. -/
theorem separated_seeds_keep_apart (cc : Mat → Nat × Mat) (kernels : List Mat) (H W : Nat)
    (hv : ValidStack cc kernels H W) (LA LB : Int) (hA0 : LA ≠ 0) (hB0 : LB ≠ 0)
    (hA : 10 ≤ componentArea (labelsOf cc kernels) LA)
    (hB : 10 ≤ componentArea (labelsOf cc kernels) LB)
    (hsep : ∀ a b : Point, cell (labelsOf cc kernels) a.x a.y = LA →
      cell (labelsOf cc kernels) b.x b.y = LB → ¬ Connected4 (FgAny kernels) a b) :
    (∀ g, growing_text_line cc kernels = .ok g →
      ((∃ x y, cell g x y = LA) ∧ (∃ x y, cell g x y = LB)) ∧
      (∀ x y, cell (labelsOf cc kernels) x y = LA → cell g x y = LA) ∧
      (∀ x y, cell (labelsOf cc kernels) x y = LB → cell g x y = LB) ∧
      (∀ a z : Point, cell (labelsOf cc kernels) a.x a.y = LA →
        Connected4 (FgAny kernels) a z → cell g z.x z.y ≠ LB) ∧
      (∀ b z : Point, cell (labelsOf cc kernels) b.x b.y = LB →
        Connected4 (FgAny kernels) b z → cell g z.x z.y ≠ LA) ∧
      (∀ x y, (∀ k ∈ kernels, cell k x y = 0) → cell g x y = 0)) ∧
    (2 ≤ H → ∃ g, growing_text_line cc kernels = .ok g) := by
  refine ⟨fun g hg => ?_, growing_text_line_total hv⟩
  have hgr := growing_text_line_grown hv hg
  have hprov := hgr.provenance (initialGrid_foreground hv)
  -- a seed cell of a component of at least ten cells keeps its label
  have hkeep : ∀ L : Int, L ≠ 0 → 10 ≤ componentArea (labelsOf cc kernels) L →
      ∀ x y, cell (labelsOf cc kernels) x y = L → cell g x y = L := by
    intro L hL0 hL x y hxy
    have hpos : 0 < L := by
      have := (hv.labelled.cell_range x y).1
      unfold labelsOf at hxy
      omega
    have hinit : cell (initialGrid (labelsOf cc kernels)) x y = L := by
      rw [cell_initialGrid, hxy]
      rcases seedLabel_cases (labelsOf cc kernels) L with ⟨_, h | h⟩ | ⟨h, _⟩
      · omega
      · exact absurd h hL0
      · exact h
    rw [hgr.keeps (by rw [hinit]; exact hpos), hinit]
  -- a cell carrying a label is joined to a seed cell of that label
  have hfrom : ∀ (L : Int) (z : Point), L ≠ 0 → cell g z.x z.y = L →
      ∃ s : Point, cell (labelsOf cc kernels) s.x s.y = L ∧ Connected4 (FgAny kernels) s z := by
    intro L z hL0 hz
    obtain ⟨_, s, hs, hcs⟩ := hprov z.x z.y (by rw [hz]; exact hL0)
    have hs0 : cell (initialGrid (labelsOf cc kernels)) s.x s.y ≠ 0 := by
      rw [hs, hz]; exact hL0
    exact ⟨s, by rw [← (initialGrid_ne_zero hs0).1, hs, hz], hcs⟩
  refine ⟨⟨?_, ?_⟩, hkeep LA hA0 hA, hkeep LB hB0 hB, ?_, ?_, ?_⟩
  · obtain ⟨x, y, hxy⟩ := @componentArea_pos (labelsOf cc kernels) LA (by omega)
    exact ⟨x, y, hkeep LA hA0 hA x y hxy⟩
  · obtain ⟨x, y, hxy⟩ := @componentArea_pos (labelsOf cc kernels) LB (by omega)
    exact ⟨x, y, hkeep LB hB0 hB x y hxy⟩
  · intro a z ha haz hz
    obtain ⟨s, hs, hsz⟩ := hfrom LB z hB0 hz
    exact hsep a s ha hs (haz.append hsz.symm)
  · intro b z hb hbz hz
    obtain ⟨s, hs, hsz⟩ := hfrom LA z hA0 hz
    exact hsep s b hs hb (hsz.append hbz.symm)
  · intro x y hall
    by_contra hne
    obtain ⟨k, hk, hk0⟩ := (hprov x y hne).1
    exact hk0 (hall k hk)

/-- Witness of C7 on `stackTwo`: labels `1` and `2` stay on their sides of column 6. -/
theorem separated_seeds_keep_apart_witness :
    ValidStack (ccTable 3 labelsTwo) stackTwo 2 13 ∧
      growing_text_line (ccTable 3 labelsTwo) stackTwo = .ok grownTwo ∧
      ((∃ x y, cell grownTwo x y = 1) ∧ (∃ x y, cell grownTwo x y = 2)) ∧
      (cell labelsTwo 1 4 = 1 → cell grownTwo 1 4 = 1) ∧
      (cell labelsTwo 0 8 = 2 → cell grownTwo 0 8 = 2) :=
  ⟨validStackTwo, by decide,
    ((separated_seeds_keep_apart (ccTable 3 labelsTwo) stackTwo 2 13 validStackTwo 1 2
      (by decide) (by decide) (by decide) (by decide) stackTwo_separated).1 grownTwo
        (by decide)).1,
    by decide, by decide⟩

/-- C8 (defect of the code). Line 98 tests the column of a neighbour against
`text_line[1].size()`. On the valid stack of two planes of one row of ten ones
the grid has the single row `text_line[0]`, the queue is not empty, and the
run reads `text_line[1]`, outside the grid: it does not complete with a grid.
(`growing_text_line_single_row` shows the same for every valid stack of one
row with a second plane and a surviving seed.) -/
theorem single_row_grid_reads_out_of_range :
    ValidStack (ccTable 2 (onesPlane 1 10)) stackRow 1 10 ∧
      growing_text_line (ccTable 2 (onesPlane 1 10)) stackRow = .outOfRange :=
  ⟨validStackRow, by decide⟩

/-- C9. On a valid stack of `H x W` planes the grid returned by
`growing_text_line` has exactly `H` rows of exactly `W` entries, and every
entry is `0` or a positive label of the label image. `merge_quadrangle_n9`
returns what `growing_text_line` returns on the planes built by `get_kernels`,
which are `P` planes of `H x W` for a buffer of `P * H * W` values. -/
theorem output_shape (cc : Mat → Nat × Mat) (kernels : List Mat) (H W : Nat)
    (hv : ValidStack cc kernels H W) :
    (∀ g, growing_text_line cc kernels = .ok g →
      HasShape g H W ∧
      ∀ row ∈ g, ∀ v ∈ row, v = 0 ∨
        (0 < v ∧ ∃ x y, cell (labelsOf cc kernels) x y = v)) ∧
    (2 ≤ H → ∃ g, growing_text_line cc kernels = .ok g) ∧
    (∀ data data_shape, get_kernels data data_shape = .ok kernels →
      merge_quadrangle_n9 cc data data_shape = growing_text_line cc kernels) ∧
    (∀ data P, data.length = P * H * W →
      ∃ ks, get_kernels data [P, H, W] = .ok ks ∧ ks.length = P ∧
        ∀ k ∈ ks, HasShape k H W) := by
  refine ⟨fun g hg => ?_, growing_text_line_total hv, fun data data_shape hk => ?_,
    fun data P hlen => ?_⟩
  · have hgr := growing_text_line_grown hv hg
    have hg0 := initial_state_good hv
    refine ⟨hgr.shape hg0.shape, fun row hrow v hmem => ?_⟩
    obtain ⟨x, y, hxy⟩ := mem_cell_of_mem hrow hmem
    by_cases hv0 : v = 0
    · exact Or.inl hv0
    · right
      have hnn := hgr.nonneg hg0.nonneg x y
      rw [hxy] at hnn
      refine ⟨by omega, ?_⟩
      obtain ⟨_, s, hs, _⟩ := hgr.provenance (initialGrid_foreground hv) x y (by rw [hxy]; exact hv0)
      have hs0 : cell (initialGrid (labelsOf cc kernels)) s.x s.y ≠ 0 := by
        rw [hs, hxy]; exact hv0
      exact ⟨s.x, s.y, by rw [← (initialGrid_ne_zero hs0).1, hs, hxy]⟩
  · simp only [merge_quadrangle_n9, hk, Outcome.bind_eq, Outcome.bind_ok]
  · obtain ⟨ks, hks, hl, hall⟩ := get_kernels_spec data P H W hlen
    refine ⟨ks, hks, hl, fun k hk => ?_⟩
    obtain ⟨i, hi, rfl⟩ := List.getElem_of_mem hk
    have := (hall i (hl ▸ hi)).1
    simpa [List.getD_eq_getElem?_getD, List.getElem?_eq_getElem hi] using this

/-- Witness of C9 on `stackA`, which `get_kernels` builds from a buffer of 30 values. -/
theorem output_shape_witness :
    ValidStack (ccTable 2 seedA) stackA 3 5 ∧
      growing_text_line (ccTable 2 seedA) stackA = .ok (onesPlane 3 5) ∧
      HasShape (onesPlane 3 5) 3 5 ∧
      merge_quadrangle_n9 (ccTable 2 seedA)
        (List.replicate 25 1 ++ List.replicate 5 0) [2, 3, 5] = .ok (onesPlane 3 5) :=
  ⟨validStackA, by decide,
    ((output_shape (ccTable 2 seedA) stackA 3 5 validStackA).1 (onesPlane 3 5) (by decide)).1,
    ((output_shape (ccTable 2 seedA) stackA 3 5 validStackA).2.2.1
      (List.replicate 25 1 ++ List.replicate 5 0) [2, 3, 5] (by decide)).trans (by decide)⟩

/-- C10. On a valid stack lines 41-76 leave the initial label grid `g` and the
initial queue `q`: a cell of `g` holds the label of its seed cell when that
label's component has at least 10 cells and `0` otherwise, and `q` lists the
non-zero cells of `g` in row-major order. With exactly one plane no growth
round runs and `growing_text_line` returns `g`. -/
theorem initial_grid_and_single_plane (cc : Mat → Nat × Mat) (kernels : List Mat) (H W : Nat)
    (hv : ValidStack cc kernels H W) :
    ∃ g q, initial_state cc kernels = .ok { text_line := g, queue := q, next_queue := [] } ∧
      HasShape g H W ∧
      (∀ x y, cell g x y =
        if 10 ≤ componentArea (labelsOf cc kernels) (cell (labelsOf cc kernels) x y)
        then cell (labelsOf cc kernels) x y else 0) ∧
      q = (rowMajor H W).filter (fun p => decide (cell g p.x p.y ≠ 0)) ∧
      (kernels.length = 1 →
        (∀ s, grow_rounds kernels (kernels.length - 1) s = .ok s) ∧
        growing_text_line cc kernels = .ok g) := by
  have hsh : HasShape (labelsOf cc kernels) H W :=
    hv.labelled.hasShape (hv.shape _ (seedOf_mem hv.nonempty))
  refine ⟨_, _, initial_state_spec hv, hasShape_initialGrid hsh, fun x y => ?_,
    initialQueue_eq hsh, fun h1 => ?_⟩
  · rw [cell_initialGrid]
    unfold seedLabel th1
    by_cases h : (componentArea (labelsOf cc kernels) (cell (labelsOf cc kernels) x y) : Int) < 10
    · rw [if_pos h, if_neg (by omega)]
    · rw [if_neg h, if_pos (by omega)]
  · have h0 : kernels.length - 1 = 0 := by omega
    refine ⟨fun s => by rw [h0]; rfl, ?_⟩
    simp only [growing_text_line, initial_state_spec hv, Outcome.bind_eq, Outcome.bind_ok, h0,
      grow_rounds, Outcome.pure_eq]

/-- Witness of C10 on the single plane `seedA`: the component of ten cells
keeps its label, and the queue lists its cells row by row; the component of
nine cells of `seedNine` is dropped. -/
theorem initial_grid_and_single_plane_witness :
    ValidStack (ccTable 2 seedA) [seedA] 3 5 ∧
      growing_text_line (ccTable 2 seedA) [seedA] = .ok seedA ∧
      growing_text_line (ccTable 2 seedNine) [seedNine] = .ok (Mat.zeros 3 5) ∧
      ∃ g q, initial_state (ccTable 2 seedA) [seedA] =
          .ok { text_line := g, queue := q, next_queue := [] } ∧
        q = (rowMajor 3 5).filter (fun p => decide (cell g p.x p.y ≠ 0)) :=
  ⟨validSingleA, by decide, by decide,
    (initial_grid_and_single_plane (ccTable 2 seedA) [seedA] 3 5 validSingleA).imp
      (fun _ h => h.imp (fun _ h' => ⟨h'.1, h'.2.2.2.1⟩))⟩

/-! ## Claims C11 to C20 -/

/-- C11 (amended). The sources test nothing and define no error: with zero
planes `get_kernels` completes with the empty list of planes, and
`growing_text_line` raises no `EmptyStack` error; its first step reads
`kernels[kernels.size() - 1]` outside the empty list, so no label grid is
produced. -/
theorem empty_stack_is_not_checked (cc : Mat → Nat × Mat) :
    growing_text_line cc [] = .outOfRange ∧
    (growing_text_line cc []).raised = none ∧
    (∀ g, growing_text_line cc [] ≠ .ok g) ∧
    ∀ (data : List Int) (H W : Nat),
      get_kernels data [0, H, W] = .ok [] ∧
      merge_quadrangle_n9 cc data [0, H, W] = .outOfRange := by
  refine ⟨rfl, rfl, fun g h => ?_, fun data H W => ⟨rfl, rfl⟩⟩
  have : growing_text_line cc [] = .outOfRange := rfl
  rw [this] at h
  exact Outcome.noConfusion h

/-- C11 as stated fails: with zero planes no `EmptyStack` error is raised; the
outcome is the read outside the empty list of planes. -/
theorem empty_stack_counterexample :
    (growing_text_line (ccTable 1 []) []).raised ≠ some SpecError.EmptyStack ∧
      growing_text_line (ccTable 1 []) [] = .outOfRange ∧
      merge_quadrangle_n9 (ccTable 1 []) [] [0, 3, 3] = .outOfRange := by
  decide

/-- C12 (amended). `get_kernels` validates nothing and raises no `InvalidShape`
error. It completes exactly when the buffer holds at least `P * H * W` values,
so for every buffer of exactly `P * H * W` values, also when `P`, `H` or `W` is
zero, and for longer buffers; it then returns `P` planes of `H x W`. -/
theorem get_kernels_is_not_validated (data : List Int) (P H W : Nat) :
    (get_kernels data [P, H, W]).raised = none ∧
    ((∃ ks, get_kernels data [P, H, W] = .ok ks) ↔ P * H * W ≤ data.length) ∧
    (∀ ks, get_kernels data [P, H, W] = .ok ks →
      ks.length = P ∧ ∀ k ∈ ks, HasShape k H W) := by
  refine ⟨?_, get_kernels_ok_iff data P H W, fun ks hks => ?_⟩
  · cases get_kernels data [P, H, W] <;> rfl
  · have hle := (get_kernels_ok_iff data P H W).1 ⟨ks, hks⟩
    obtain ⟨ks', hks', hl, hall⟩ := get_kernels_spec_le data P H W hle
    rw [hks] at hks'
    have := Outcome.ok.inj hks'
    subst this
    refine ⟨hl, fun k hk => ?_⟩
    obtain ⟨i, hi, rfl⟩ := List.getElem_of_mem hk
    have := (hall i (hl ▸ hi)).1
    simpa [List.getD_eq_getElem?_getD, List.getElem?_eq_getElem hi] using this

/-- C12 as stated fails: with `P = 0`, and with a buffer longer than
`P * H * W`, `get_kernels` completes and raises no `InvalidShape` error. -/
theorem get_kernels_counterexample :
    get_kernels [] [0, 1, 1] = .ok [] ∧
      get_kernels [7, 7] [1, 1, 1] = .ok [[[7]]] ∧
      (get_kernels [] [0, 1, 1]).raised ≠ some SpecError.InvalidShape := by
  decide

/-- C13 as stated fails: in the round of `stackTall` the cell `(3, 0)` becomes
labelled, and no coordinate of the frontier at the start of the round (the
cells of rows 0 and 1) is its 4-neighbour. -/
theorem next_frontier_counterexample :
    ValidStack (ccTable 2 seedTall) stackTall 4 5 ∧
      initial_state (ccTable 2 seedTall) stackTall =
        .ok (startState (ccTable 2 seedTall) stackTall) ∧
      cell (startState (ccTable 2 seedTall) stackTall).text_line 3 0 = 0 ∧
      grow_round stackTall 0 (startState (ccTable 2 seedTall) stackTall) = .ok roundTall ∧
      cell roundTall.text_line 3 0 = 1 ∧
      ∀ p ∈ (startState (ccTable 2 seedTall) stackTall).queue, ¬ Adj4 p ⟨3, 0⟩ :=
  ⟨validStackTall, by decide⟩

/-- C13 (amended). In every growth round a claimed cell is appended to the
current queue, not to the next round's frontier, and is dequeued and expanded
later in the same round: every cell that becomes labelled in a round is a
4-neighbour of a coordinate dequeued in that round, and a coordinate dequeued
in a round was in the frontier when the round began or was claimed earlier in
the round. -/
theorem claimed_cells_join_current_queue (kernels : List Mat) (kernel_id H W : Nat)
    (st r : GrowState) (hg : GoodState H W st)
    (h : grow_round kernels kernel_id st = .ok r) :
    ∃ kernel, idx kernels kernel_id = .ok kernel ∧
      (∀ e ∈ dequeues kernel (st.queue.length + unlabelled st.text_line) st,
        ∃ new, e.after.queue = e.before.queue ++ new ∧
          e.after.next_queue = e.before.next_queue ++ (if new = [] then [e.point] else []) ∧
          ∀ q : Point, q ∈ new ↔
            (cell e.before.text_line q.x q.y ≤ 0 ∧ 0 < cell e.after.text_line q.x q.y)) ∧
      (∀ z : Point, cell st.text_line z.x z.y ≤ 0 → 0 < cell r.text_line z.x z.y →
        (∃ e ∈ dequeues kernel (st.queue.length + unlabelled st.text_line) st,
          Adj4 e.point z ∧ cell e.before.text_line z.x z.y ≤ 0 ∧
            0 < cell e.after.text_line z.x z.y) ∧
        z ∈ (dequeues kernel (st.queue.length + unlabelled st.text_line) st).map
          Dequeue.point) ∧
      (∀ e ∈ dequeues kernel (st.queue.length + unlabelled st.text_line) st,
        e.point ∈ st.queue ∨
          (cell st.text_line e.point.x e.point.y ≤ 0 ∧
            0 < cell r.text_line e.point.x e.point.y)) := by
  obtain ⟨kernel, s, hk, hd, rfl⟩ := grow_round_drain h
  refine ⟨kernel, hk, ?_, fun z h0 h1 => hd.claimed hg z h0 h1, hd.origin hg⟩
  intro e he
  obtain ⟨_, _, _, hent⟩ := hd.entries hg
  obtain ⟨hp, hgb, _, _, _⟩ := hent e he
  have hpos : 0 < cell e.before.text_line e.point.x e.point.y :=
    hgb.queued e.point (List.mem_append_left _ (List.mem_cons_self _ _))
  obtain ⟨_, new, hq, hnq, hnew, hall, _⟩ := process_point_spec hpos hp
  refine ⟨new, hq, hnq, fun q => ⟨fun hm => ?_, fun hc => hall q.x q.y hc.1 hc.2⟩⟩
  obtain ⟨_, _, h3, h4⟩ := hnew q hm
  exact ⟨h3, by rw [h4]; exact hpos⟩

/-- Witness of C13 (amended) on the round of `stackTall`. -/
theorem claimed_cells_join_current_queue_witness :
    GoodState 4 5 (startState (ccTable 2 seedTall) stackTall) ∧
      grow_round stackTall 0 (startState (ccTable 2 seedTall) stackTall) = .ok roundTall ∧
      ∃ kernel, idx stackTall 0 = .ok kernel ∧
        ∀ e ∈ dequeues kernel
            ((startState (ccTable 2 seedTall) stackTall).queue.length +
              unlabelled (startState (ccTable 2 seedTall) stackTall).text_line)
            (startState (ccTable 2 seedTall) stackTall),
          e.point ∈ (startState (ccTable 2 seedTall) stackTall).queue ∨
            (cell (startState (ccTable 2 seedTall) stackTall).text_line e.point.x e.point.y ≤ 0 ∧
              0 < cell roundTall.text_line e.point.x e.point.y) :=
  ⟨startState_good validStackTall, by decide,
    (claimed_cells_join_current_queue stackTall 0 4 5 _ roundTall
      (startState_good validStackTall) (by decide)).imp (fun _ h => ⟨h.1, h.2.2.2⟩)⟩

/-- C14. Carry-forward. In a growth round that starts with an empty
`next_queue`, a dequeued coordinate is appended unchanged to `next_queue`, the
grid and the queue staying as they are, exactly when it has no eligible
neighbour at that time (each neighbour is outside the grid, background in the
round's plane, or labelled); otherwise `next_queue` stays as it is. The queue
handed to the next round is exactly the sequence of those coordinates in
dequeue order, and each of them is dequeued again in the next round. -/
theorem carry_forward (kernels : List Mat) (kernel_id H W : Nat) (st r : GrowState)
    (hg : GoodState H W st) (hnq : st.next_queue = [])
    (h : grow_round kernels kernel_id st = .ok r) :
    ∃ kernel, idx kernels kernel_id = .ok kernel ∧
      (∀ e ∈ dequeues kernel (st.queue.length + unlabelled st.text_line) st,
        process_point kernel e.point e.before = .ok e.after ∧
        (Closed kernel H W e.before.text_line e.point →
          e.after.next_queue = e.before.next_queue ++ [e.point] ∧
          e.after.queue = e.before.queue ∧ e.after.text_line = e.before.text_line) ∧
        (¬ Closed kernel H W e.before.text_line e.point →
          e.after.next_queue = e.before.next_queue)) ∧
      r.queue = ((dequeues kernel (st.queue.length + unlabelled st.text_line) st).filter
        (fun e => decide (Closed kernel H W e.before.text_line e.point))).map Dequeue.point ∧
      r.next_queue = [] ∧ GoodState H W r ∧
      ∀ k r', grow_round kernels k r = .ok r' →
        ∃ kernel', idx kernels k = .ok kernel' ∧
          ∀ p ∈ r.queue,
            p ∈ (dequeues kernel' (r.queue.length + unlabelled r.text_line) r).map
              Dequeue.point := by
  obtain ⟨kernel, s, hk, hd, rfl⟩ := grow_round_drain h
  obtain ⟨hgs, hsq, _, hent⟩ := hd.entries hg
  have hgr : GoodState H W
      { text_line := s.text_line, queue := s.next_queue, next_queue := s.queue } := by
    refine ⟨hgs.shape, hgs.nonneg, fun p hp => hgs.queued p ?_⟩
    simp only [List.mem_append] at hp ⊢
    tauto
  refine ⟨kernel, hk, fun e he => ?_, ?_, hsq, hgr, fun k r' hr' => ?_⟩
  · obtain ⟨hp, hgb, _, _, _⟩ := hent e he
    obtain ⟨hc, ho⟩ := process_point_edge hgb hp
    exact ⟨hp, hc, fun hn => (ho hn).1⟩
  · have := hd.next_queue_eq hg
    rw [hnq, List.nil_append] at this
    exact this
  · obtain ⟨kernel', s', hk', hd', _⟩ := grow_round_drain hr'
    exact ⟨kernel', hk', hd'.all_dequeued hgr⟩

/-- Witness of C14 on the round of `stackTall`: rows 0 and 3 are carried forward. -/
theorem carry_forward_witness :
    GoodState 4 5 (startState (ccTable 2 seedTall) stackTall) ∧
      (startState (ccTable 2 seedTall) stackTall).next_queue = [] ∧
      grow_round stackTall 0 (startState (ccTable 2 seedTall) stackTall) = .ok roundTall ∧
      ∃ kernel, idx stackTall 0 = .ok kernel ∧
        roundTall.queue = ((dequeues kernel
          ((startState (ccTable 2 seedTall) stackTall).queue.length +
            unlabelled (startState (ccTable 2 seedTall) stackTall).text_line)
          (startState (ccTable 2 seedTall) stackTall)).filter
          (fun e => decide (Closed kernel 4 5 e.before.text_line e.point))).map Dequeue.point :=
  ⟨startState_good validStackTall, rfl, by decide,
    (carry_forward stackTall 0 4 5 _ roundTall (startState_good validStackTall) rfl
      (by decide)).imp (fun _ h => ⟨h.1, h.2.2.1⟩)⟩

/-- C15. FIFO tie-break. In every growth round a cell claimed in an iteration
is a 4-neighbour of the coordinate dequeued in that iteration and ends the round
with the label that coordinate had; no coordinate dequeued earlier in the round
is its 4-neighbour. In particular a cell that is unlabelled at the start of the
round, inside the grid and foreground in the round's plane, and whose first
4-neighbour in the frontier is `p`, ends the round with the label of `p`. -/
theorem fifo_tie_break (kernels : List Mat) (kernel_id H W : Nat) (st r : GrowState)
    (hg : GoodState H W st) (h : grow_round kernels kernel_id st = .ok r) :
    ∃ kernel, idx kernels kernel_id = .ok kernel ∧
      (∀ e ∈ dequeues kernel (st.queue.length + unlabelled st.text_line) st,
        ∀ z : Point, cell e.before.text_line z.x z.y ≤ 0 →
          0 < cell e.after.text_line z.x z.y →
          Adj4 e.point z ∧
            cell r.text_line z.x z.y = cell e.before.text_line e.point.x e.point.y) ∧
      (dequeues kernel (st.queue.length + unlabelled st.text_line) st).Pairwise
        (fun e e' => ∀ z : Point, cell e'.before.text_line z.x z.y ≤ 0 →
          0 < cell e'.after.text_line z.x z.y → ¬ Adj4 e.point z) ∧
      (∀ (l1 l2 : List Point) (p z : Point), st.queue = l1 ++ p :: l2 →
        cell st.text_line z.x z.y ≤ 0 → z.x < H → z.y < W → cell kernel z.x z.y ≠ 0 →
        Adj4 p z → (∀ q ∈ l1, ¬ Adj4 q z) →
        cell r.text_line z.x z.y = cell st.text_line p.x p.y) := by
  obtain ⟨kernel, s, hk, hd, rfl⟩ := grow_round_drain h
  refine ⟨kernel, hk, fun e he z h0 h1 => ?_, hd.earliest hg, ?_⟩
  · obtain ⟨h2, _, h3⟩ := hd.label_of_claim hg e he z h0 h1
    exact ⟨h2, h3⟩
  · intro l1 l2 p z hq hz0 hzx hzy hzk hadj hfirst
    simp only
    generalize dequeues kernel (st.queue.length + unlabelled st.text_line) st = T at hd
    obtain ⟨_, _, _, hent⟩ := hd.entries hg
    obtain ⟨X, hX⟩ := hd.points_start hg
    rw [hq, List.append_assoc, List.map_eq_append_iff] at hX
    obtain ⟨T1, T2, hT, hT1, hT2⟩ := hX
    rw [List.cons_append, List.map_eq_cons_iff] at hT2
    obtain ⟨ep, T3, rfl, hep, _⟩ := hT2
    have hpw := hd.earliest hg
    rw [hT, List.pairwise_append] at hpw
    obtain ⟨_, hpw2, _⟩ := hpw
    have hepmem : ep ∈ T := by
      rw [hT]; simp
    have hclosed := hd.closed_at_end hg ep hepmem
    rw [hep] at hclosed
    have hzpos := hclosed z hadj hzx hzy hzk
    obtain ⟨⟨ec, hec, hadjc, hc0, hc1⟩, _⟩ := hd.claimed hg z hz0 hzpos
    rw [hT] at hec
    rcases List.mem_append.1 hec with hm | hm
    · exfalso
      apply hfirst ec.point _ hadjc
      rw [← hT1]
      exact List.mem_map_of_mem _ hm
    · rcases List.mem_cons.1 hm with rfl | hm
      · obtain ⟨_, _, hlab⟩ := hd.label_of_claim hg ec hepmem z hc0 hc1
        obtain ⟨_, _, _, hgb, _⟩ := hent ec hepmem
        rw [hlab, hep]
        apply hgb.keeps
        rw [← hep]
        exact (hd.origin hg ec hepmem).elim
          (fun hm => hg.queued _ (List.mem_append_left _ hm))
          (fun hc => by
            exfalso
            have := hg.queued p (List.mem_append_left _ (by rw [hq]; simp))
            rw [hep] at hc
            omega)
      · exfalso
        rw [List.pairwise_cons] at hpw2
        have := hpw2.1 ec hm z hc0 hc1
        rw [hep] at this
        exact this hadj

/-- Witness of C15 on the round of `stackDuel`: the cell `(0, 5)` is a neighbour
of `(0, 4)`, label `1`, and of `(0, 6)`, label `2`; `(0, 4)` comes first in the
row-major frontier and the cell ends with label `1`. -/
theorem fifo_tie_break_witness :
    GoodState 2 11 (startState (ccTable 3 labelsDuel) stackDuel) ∧
      (startState (ccTable 3 labelsDuel) stackDuel).queue =
        [⟨0, 0⟩, ⟨0, 1⟩, ⟨0, 2⟩, ⟨0, 3⟩] ++ ⟨0, 4⟩ ::
          [⟨0, 6⟩, ⟨0, 7⟩, ⟨0, 8⟩, ⟨0, 9⟩, ⟨0, 10⟩, ⟨1, 0⟩, ⟨1, 1⟩, ⟨1, 2⟩, ⟨1, 3⟩, ⟨1, 4⟩,
            ⟨1, 6⟩, ⟨1, 7⟩, ⟨1, 8⟩, ⟨1, 9⟩, ⟨1, 10⟩] ∧
      Adj4 ⟨0, 4⟩ ⟨0, 5⟩ ∧ Adj4 ⟨0, 6⟩ ⟨0, 5⟩ ∧
      cell (startState (ccTable 3 labelsDuel) stackDuel).text_line 0 4 = 1 ∧
      cell (startState (ccTable 3 labelsDuel) stackDuel).text_line 0 6 = 2 ∧
      ∃ r, grow_round stackDuel 0 (startState (ccTable 3 labelsDuel) stackDuel) = .ok r ∧
        cell r.text_line 0 5 = 1 := by
  have hg := startState_good validStackDuel
  obtain ⟨r, hr⟩ := @grow_round_total stackDuel 0 _ 2 11 hg (by decide)
    validStackDuel.shape (by decide)
  obtain ⟨kernel, hk, _, _, hfirst⟩ :=
    fifo_tie_break stackDuel 0 2 11 (startState (ccTable 3 labelsDuel) stackDuel) r hg hr
  have hk0 : kernel = onesPlane 2 11 := by
    have : idx stackDuel 0 = .ok (onesPlane 2 11) := rfl
    rw [this] at hk
    exact (Outcome.ok.inj hk).symm
  subst hk0
  have hq : (startState (ccTable 3 labelsDuel) stackDuel).queue =
      [⟨0, 0⟩, ⟨0, 1⟩, ⟨0, 2⟩, ⟨0, 3⟩] ++ ⟨0, 4⟩ ::
        [⟨0, 6⟩, ⟨0, 7⟩, ⟨0, 8⟩, ⟨0, 9⟩, ⟨0, 10⟩, ⟨1, 0⟩, ⟨1, 1⟩, ⟨1, 2⟩, ⟨1, 3⟩, ⟨1, 4⟩,
          ⟨1, 6⟩, ⟨1, 7⟩, ⟨1, 8⟩, ⟨1, 9⟩, ⟨1, 10⟩] := by decide
  refine ⟨hg, hq, by decide, by decide, by decide, by decide, r, hr, ?_⟩
  have := hfirst _ _ ⟨0, 4⟩ ⟨0, 5⟩ hq (by decide) (by decide) (by decide) (by decide)
    (by decide) (by decide)
  rw [this]
  decide

/-- C16 as stated fails: in `stackSmall` the cell `(3, 0)` is a seed component
of one cell, label `2`; plane 0 is all ones, and the cell is returned with
label `1` of the component of ten cells, not `0`. -/
theorem dropped_seed_counterexample :
    ValidStack (ccTable 3 labelsSmall) stackSmall 4 5 ∧
      componentArea labelsSmall (cell labelsSmall 3 0) = 1 ∧
      cell seedSmall 3 0 ≠ 0 ∧
      growing_text_line (ccTable 3 labelsSmall) stackSmall = .ok (onesPlane 4 5) ∧
      cell (onesPlane 4 5) 3 0 = 1 :=
  ⟨validStackSmall, by decide⟩

/-- C16 (amended). Dropped seeds never receive their own label: on a valid
stack a cell of a seed component of fewer than 10 cells is `0` in the initial
grid and is not in the initial frontier, and in the grid that is returned it
holds `0` or the label of a seed component of at least 10 cells, never its own
label. -/
theorem dropped_seed_never_keeps_own_label (cc : Mat → Nat × Mat) (kernels : List Mat)
    (H W : Nat) (hv : ValidStack cc kernels H W) (p : Point) (hp : Fg (seedOf kernels) p)
    (hsmall : componentArea (labelsOf cc kernels) (cell (labelsOf cc kernels) p.x p.y) < 10) :
    cell (initialGrid (labelsOf cc kernels)) p.x p.y = 0 ∧
    p ∉ initialQueue (labelsOf cc kernels) ∧
    (∀ g, growing_text_line cc kernels = .ok g →
      cell g p.x p.y ≠ cell (labelsOf cc kernels) p.x p.y ∧
      (cell g p.x p.y = 0 ∨
        (10 ≤ componentArea (labelsOf cc kernels) (cell g p.x p.y) ∧
          ∃ k ∈ kernels, cell k p.x p.y ≠ 0))) ∧
    (2 ≤ H → ∃ g, growing_text_line cc kernels = .ok g) := by
  have hl0 : cell (labelsOf cc kernels) p.x p.y ≠ 0 := (hv.labelled.foreground p.x p.y).2 hp
  have hinit : cell (initialGrid (labelsOf cc kernels)) p.x p.y = 0 := by
    rw [cell_initialGrid]
    rcases seedLabel_cases (labelsOf cc kernels) (cell (labelsOf cc kernels) p.x p.y) with
      ⟨h, _⟩ | ⟨_, h2, _⟩
    · exact h
    · omega
  refine ⟨hinit, fun hm => mem_initialQueue hm hinit, fun g hg => ?_,
    growing_text_line_total hv⟩
  have hprov := (growing_text_line_grown hv hg).provenance (initialGrid_foreground hv)
  have key : cell g p.x p.y ≠ 0 →
      10 ≤ componentArea (labelsOf cc kernels) (cell g p.x p.y) ∧
        ∃ k ∈ kernels, cell k p.x p.y ≠ 0 := by
    intro hne
    obtain ⟨hfg, s, hs, _⟩ := hprov p.x p.y hne
    have hs0 : cell (initialGrid (labelsOf cc kernels)) s.x s.y ≠ 0 := by rw [hs]; exact hne
    obtain ⟨h1, _, h3⟩ := initialGrid_ne_zero hs0
    exact ⟨by rw [← hs, h1]; exact h3, hfg⟩
  constructor
  · intro heq
    have := (key (by rw [heq]; exact hl0)).1
    rw [heq] at this
    omega
  · by_cases h0 : cell g p.x p.y = 0
    · exact Or.inl h0
    · exact Or.inr (key h0)

/-- Witness of C16 (amended) on `stackSmall`. -/
theorem dropped_seed_never_keeps_own_label_witness :
    ValidStack (ccTable 3 labelsSmall) stackSmall 4 5 ∧ Fg (seedOf stackSmall) ⟨3, 0⟩ ∧
      componentArea (labelsOf (ccTable 3 labelsSmall) stackSmall)
        (cell (labelsOf (ccTable 3 labelsSmall) stackSmall) 3 0) < 10 ∧
      cell (initialGrid (labelsOf (ccTable 3 labelsSmall) stackSmall)) 3 0 = 0 :=
  ⟨validStackSmall, by decide, by decide,
    (dropped_seed_never_keeps_own_label (ccTable 3 labelsSmall) stackSmall 4 5 validStackSmall
      ⟨3, 0⟩ (by decide) (by decide)).1⟩

/-- C17. Termination of growth. From a state with the invariant in which no
coordinate is queued twice, the `while` loop of a round does not run out of the
fuel `|queue| + |cells not labelled|`, which is at most `H * W`; the number of
its dequeues is at most that fuel; in every iteration every queued coordinate
holds a positive label and no coordinate is in the two queues twice; and the
round hands on a state of the same kind. The initial state is of that kind, so
on a valid stack `growing_text_line` never runs out of fuel. -/
theorem growth_terminates (cc : Mat → Nat × Mat) (kernels : List Mat) (H W : Nat)
    (hv : ValidStack cc kernels H W) :
    (GoodState H W (startState cc kernels) ∧
      ((startState cc kernels).queue ++ (startState cc kernels).next_queue).Nodup) ∧
    growing_text_line cc kernels ≠ .outOfFuel ∧
    (2 ≤ H → ∃ g, growing_text_line cc kernels = .ok g) ∧
    ∀ (kernel_id : Nat) (st : GrowState), GoodState H W st →
      (st.queue ++ st.next_queue).Nodup →
      grow_round kernels kernel_id st ≠ .outOfFuel ∧
      st.queue.length + unlabelled st.text_line ≤ H * W ∧
      (∀ kernel, (dequeues kernel (st.queue.length + unlabelled st.text_line) st).length ≤
        st.queue.length + unlabelled st.text_line) ∧
      ∀ r, grow_round kernels kernel_id st = .ok r →
        GoodState H W r ∧ (r.queue ++ r.next_queue).Nodup ∧
        ∃ kernel, idx kernels kernel_id = .ok kernel ∧
          ∀ e ∈ dequeues kernel (st.queue.length + unlabelled st.text_line) st,
            GoodState H W { e.before with queue := e.point :: e.before.queue } ∧
            (e.point :: e.before.queue ++ e.before.next_queue).Nodup ∧
            GoodState H W e.after ∧ (e.after.queue ++ e.after.next_queue).Nodup := by
  refine ⟨⟨startState_good hv, ?_⟩, growing_text_line_ne_fuel hv, growing_text_line_total hv,
    fun kernel_id st hg hnd => ⟨?_, ?_, fun kernel => dequeues_length_le hg, fun r hr => ?_⟩⟩
  · simp only [startState, List.append_nil]
    exact initialQueue_nodup _
  · unfold grow_round
    simp only [Outcome.bind_eq, Outcome.pure_eq]
    refine Outcome.bind_ne_fuel (idx_ne_fuel _ _) (fun kernel => ?_)
    refine Outcome.bind_ne_fuel (whileQueue_ne_fuel hg (le_refl _)) (fun s => ?_)
    simp
  · exact queue_length_le hg (List.Nodup.of_append_left hnd)
  · obtain ⟨kernel, s, hk, hd, rfl⟩ := grow_round_drain hr
    obtain ⟨hgs, _, _, hent⟩ := hd.entries hg
    obtain ⟨hnds, hndall⟩ := hd.nodup hg hnd
    refine ⟨⟨hgs.shape, hgs.nonneg, fun p hp => hgs.queued p ?_⟩, ?_, kernel, hk, ?_⟩
    · simp only [List.mem_append] at hp ⊢
      tauto
    · simp only
      rw [List.nodup_append] at hnds ⊢
      exact ⟨hnds.2.1, hnds.1, fun a ha hb => hnds.2.2 hb ha⟩
    · intro e he
      obtain ⟨_, h2, h3, _⟩ := hent e he
      obtain ⟨h4, h5⟩ := hndall e he
      exact ⟨h2, h4, h3, h5⟩

/-- Witness of C17 on `stackTall`: the round dequeues 20 coordinates, the fuel is 20. -/
theorem growth_terminates_witness :
    ValidStack (ccTable 2 seedTall) stackTall 4 5 ∧
      growing_text_line (ccTable 2 seedTall) stackTall = .ok (onesPlane 4 5) ∧
      (startState (ccTable 2 seedTall) stackTall).queue.length +
        unlabelled (startState (ccTable 2 seedTall) stackTall).text_line = 20 ∧
      (dequeues (onesPlane 4 5) 20 (startState (ccTable 2 seedTall) stackTall)).length = 20 ∧
      growing_text_line (ccTable 2 seedTall) stackTall ≠ .outOfFuel :=
  ⟨validStackTall, by decide, by decide, by decide,
    (growth_terminates (ccTable 2 seedTall) stackTall 4 5 validStackTall).2.1⟩

/-- C18 as stated fails: on the three nested planes of `stackLine` the cell
`(0, 9)` is `0` in the returned grid and foreground in plane 0, and its
neighbour `(1, 9)` holds label `1`. -/
theorem growth_completion_counterexample :
    ValidStack (ccTable 2 seedLine) stackLine 3 11 ∧
      (∀ a, a < 3 → ∀ b, b < 11 → (cell seedLine a b ≠ 0 → cell midLine a b ≠ 0) ∧
        (cell midLine a b ≠ 0 → cell outerLine a b ≠ 0)) ∧
      growing_text_line (ccTable 2 seedLine) stackLine = .ok grownLine ∧
      cell grownLine 0 9 = 0 ∧ cell outerLine 0 9 ≠ 0 ∧ Adj4 ⟨0, 9⟩ ⟨1, 9⟩ ∧
      cell grownLine 1 9 = 1 :=
  ⟨validStackLine, by decide⟩

/-- C18 (amended). Growth runs to completion around the last frontier. On a
valid stack of at least two planes, let `s` be the state in front of the last
round (the round against plane 0). In the grid that is returned, every cell
that is in the frontier of `s` or is labelled during the last round has no
neighbour that is foreground in plane 0 and holds `0`. With exactly two planes
this covers every labelled cell. A cell labelled before the last round that is
not in its frontier is not covered. -/
theorem growth_completes_around_last_frontier (cc : Mat → Nat × Mat) (kernels : List Mat)
    (H W : Nat) (hv : ValidStack cc kernels H W) (hP : 2 ≤ kernels.length) :
    (2 ≤ H → ∃ g, growing_text_line cc kernels = .ok g) ∧
    ∀ g, growing_text_line cc kernels = .ok g →
      ∃ k0 s r, idx kernels 0 = .ok k0 ∧
        early_rounds kernels (kernels.length - 2) (startState cc kernels) = .ok s ∧
        grow_round kernels 0 s = .ok r ∧ r.text_line = g ∧
        (∀ p : Point, 0 < cell g p.x p.y → (p ∈ s.queue ∨ cell s.text_line p.x p.y = 0) →
          Closed k0 H W g p) ∧
        (kernels.length = 2 → ∀ p : Point, 0 < cell g p.x p.y → Closed k0 H W g p) := by
  refine ⟨growing_text_line_total hv, fun g hg => ?_⟩
  have hst := initial_state_spec hv
  have hg0 : GoodState H W (startState cc kernels) := startState_good hv
  unfold growing_text_line at hg
  simp only [Outcome.bind_eq, Outcome.pure_eq, Outcome.bind_eq_ok] at hg
  obtain ⟨st0, h0, r, hr, hgr⟩ := hg
  have hst0 : st0 = startState cc kernels := by
    rw [hst] at h0; exact (Outcome.ok.inj h0).symm
  subst hst0
  have hlen : kernels.length - 1 = (kernels.length - 2) + 1 := by omega
  rw [hlen, grow_rounds_last, Outcome.bind_eq_ok] at hr
  obtain ⟨s, hs, hr⟩ := hr
  obtain ⟨hgs, _⟩ := early_rounds_spec hg0 hs
  obtain ⟨k0, t, hk, hd, rfl⟩ := grow_round_drain hr
  have hgt : t.text_line = g := Outcome.ok.inj hgr
  have key : ∀ p : Point, 0 < cell g p.x p.y →
      (p ∈ s.queue ∨ cell s.text_line p.x p.y = 0) → Closed k0 H W g p := by
    intro p hpos hp
    have hmem : p ∈ (dequeues k0 (s.queue.length + unlabelled s.text_line) s).map
        Dequeue.point := by
      rcases hp with hp | hp
      · exact hd.all_dequeued hgs p hp
      · exact (hd.claimed hgs p (by omega) (by rw [hgt]; exact hpos)).2
    obtain ⟨e, he, rfl⟩ := List.mem_map.1 hmem
    rw [← hgt]
    exact hd.closed_at_end hgs e he
  refine ⟨k0, s, _, hk, hs, hr, hgt, key, fun h2 p hpos => key p hpos ?_⟩
  have hs0 : s = startState cc kernels := by
    rw [h2] at hs
    simp only [early_rounds] at hs
    exact (Outcome.ok.inj hs).symm
  subst hs0
  have hsh : HasShape (labelsOf cc kernels) H W :=
    hv.labelled.hasShape (hv.shape _ (seedOf_mem hv.nonempty))
  by_cases hz : cell (startState cc kernels).text_line p.x p.y = 0
  · exact Or.inr hz
  · left
    have hn := hg0.nonneg p.x p.y
    exact mem_initialQueue_of_pos hsh (by simp only [startState] at hz hn ⊢; omega)

/-- Witness of C18 (amended) on `stackLine`. -/
theorem growth_completes_around_last_frontier_witness :
    ValidStack (ccTable 2 seedLine) stackLine 3 11 ∧ 2 ≤ stackLine.length ∧
      ∃ g, growing_text_line (ccTable 2 seedLine) stackLine = .ok g :=
  ⟨validStackLine, by decide,
    (growth_completes_around_last_frontier (ccTable 2 seedLine) stackLine 3 11 validStackLine
      (by decide)).1 (by decide)⟩

/-- C19. Label regions stay connected to their seed. On a valid stack the
initial grid is anchored in the label image of the seed plane; a growth round
from a state grown from the initial grid ends in such a state, with an anchored
grid; and the grid that is returned is anchored. Anchored: every cell with a
non-zero label `L` is joined by a 4-path of cells labelled `L` to a cell of the
seed component `L`, all cells of the seed component `L` hold `L`, and any two
cells labelled `L` are joined by a 4-path of cells labelled `L`. -/
theorem label_regions_stay_connected (cc : Mat → Nat × Mat) (kernels : List Mat) (H W : Nat)
    (hv : ValidStack cc kernels H W) :
    (GoodState H W (startState cc kernels) ∧
      Anchored (labelsOf cc kernels) (startState cc kernels).text_line) ∧
    (∀ (kernel_id : Nat) (st r : GrowState), GoodState H W st →
      Grown kernels (initialGrid (labelsOf cc kernels)) st.text_line →
      grow_round kernels kernel_id st = .ok r →
      GoodState H W r ∧ Grown kernels (initialGrid (labelsOf cc kernels)) r.text_line ∧
        Anchored (labelsOf cc kernels) r.text_line) ∧
    (∀ g, growing_text_line cc kernels = .ok g → Anchored (labelsOf cc kernels) g) ∧
    (2 ≤ H → ∃ g, growing_text_line cc kernels = .ok g) := by
  refine ⟨⟨startState_good hv, anchored_of_grown hv (Grown.refl _ _)⟩, ?_, ?_,
    growing_text_line_total hv⟩
  · intro kernel_id st r hg hgr hr
    obtain ⟨h1, h2⟩ := grow_round_spec hg hr
    exact ⟨h1, hgr.trans h2, anchored_of_grown hv (hgr.trans h2)⟩
  · intro g hg
    exact anchored_of_grown hv (growing_text_line_grown hv hg)

/-- Witness of C19 on `stackDuel`: the returned grid `grownDuel` is anchored in
`labelsDuel`. -/
theorem label_regions_stay_connected_witness :
    ValidStack (ccTable 3 labelsDuel) stackDuel 2 11 ∧
      growing_text_line (ccTable 3 labelsDuel) stackDuel = .ok grownDuel ∧
      Anchored (labelsOf (ccTable 3 labelsDuel) stackDuel) grownDuel :=
  ⟨validStackDuel, by decide,
    (label_regions_stay_connected (ccTable 3 labelsDuel) stackDuel 2 11 validStackDuel).2.2.1
      grownDuel (by decide)⟩

/-- C20. Nearest-seed ownership in a 2-plane stack. On a valid stack
`[k0, seed]` of planes with at least two rows a grid `g` is returned. Its
non-zero cells are exactly the surviving seed cells (the cells that are not
zero in the initial grid: seed cells of a component of at least ten cells)
together with the cells to which a 4-path leads from a surviving seed cell, each
cell of the path after its start being a surviving seed cell or foreground in
plane 0. Every non-zero cell carries the label of a surviving seed cell at
minimum path length from it. -/
theorem nearest_seed_ownership (cc : Mat → Nat × Mat) (k0 seed : Mat) (H W : Nat)
    (hv : ValidStack cc [k0, seed] H W) (hH : 2 ≤ H) :
    ∃ g, growing_text_line cc [k0, seed] = .ok g ∧
      (∀ z : Point, cell g z.x z.y ≠ 0 ↔
        (cell (initialGrid (labelsOf cc [k0, seed])) z.x z.y ≠ 0 ∨
          ∃ (s : Point) (n : Nat), cell (initialGrid (labelsOf cc [k0, seed])) s.x s.y ≠ 0 ∧
            Walk (Passable (initialGrid (labelsOf cc [k0, seed])) k0) s n z)) ∧
      (∀ z : Point, cell g z.x z.y ≠ 0 →
        ∃ s : Point, NearestSeed (initialGrid (labelsOf cc [k0, seed])) k0 s z ∧
          cell g z.x z.y = cell (initialGrid (labelsOf cc [k0, seed])) s.x s.y) ∧
      (∀ s : Point, cell (initialGrid (labelsOf cc [k0, seed])) s.x s.y ≠ 0 ↔
        (cell seed s.x s.y ≠ 0 ∧
          10 ≤ componentArea (labelsOf cc [k0, seed]) (cell (labelsOf cc [k0, seed]) s.x s.y))) ∧
      (∀ s : Point, cell (initialGrid (labelsOf cc [k0, seed])) s.x s.y ≠ 0 →
        cell g s.x s.y = cell (labelsOf cc [k0, seed]) s.x s.y) := by
  obtain ⟨g, hg⟩ := growing_text_line_total hv hH
  obtain ⟨T, s, hd, rfl⟩ := two_plane_drain hv hg
  have hgs0 := startState_good hv
  have hk : HasShape k0 H W := hv.shape k0 (List.mem_cons_self _ _)
  obtain ⟨hgs, _, hgrown, _⟩ := hd.entries hgs0
  obtain ⟨d1, L⟩ := hd.layered hgs0 hgs0.shape hk 0 _ _ (startState_layered hv k0)
  have hseedfg : ∀ a b, cell (labelsOf cc [k0, seed]) a b ≠ 0 ↔ cell seed a b ≠ 0 :=
    hv.labelled.foreground
  refine ⟨s.text_line, hg, fun z => ?_, L.label, fun p => ?_, fun p hp => ?_⟩
  · rw [L.reached hgs hk z]
    constructor
    · rintro ⟨n, p, hp, hw⟩
      exact Or.inr ⟨p, n, hp, hw⟩
    · rintro (h | ⟨p, n, hp, hw⟩)
      · exact ⟨0, z, h, Walk.here⟩
      · exact ⟨n, p, hp, hw⟩
  · constructor
    · intro h
      obtain ⟨_, h2, h3⟩ := initialGrid_ne_zero h
      exact ⟨(hseedfg p.x p.y).1 h2, h3⟩
    · rintro ⟨h1, h2⟩
      rw [cell_initialGrid]
      rcases seedLabel_cases (labelsOf cc [k0, seed]) (cell (labelsOf cc [k0, seed]) p.x p.y)
        with ⟨_, h3 | h3⟩ | ⟨h3, _, h4⟩
      · omega
      · exact absurd h3 ((hseedfg p.x p.y).2 h1)
      · rw [h3]; exact h4
  · have hpos : 0 < cell (startState cc [k0, seed]).text_line p.x p.y := by
      have := hgs0.nonneg p.x p.y
      simp only [startState] at this ⊢
      omega
    rw [hgrown.keeps hpos]
    exact (initialGrid_ne_zero hp).1

/-- Witness of C20 on `stackDuel`: two seed components of ten cells under a
plane 0 that is all foreground. -/
theorem nearest_seed_ownership_witness :
    ValidStack (ccTable 3 labelsDuel) [onesPlane 2 11, seedDuel] 2 11 ∧
      ∃ g, growing_text_line (ccTable 3 labelsDuel) [onesPlane 2 11, seedDuel] = .ok g ∧
        ∀ z : Point, cell g z.x z.y ≠ 0 →
          ∃ s : Point,
            NearestSeed (initialGrid (labelsOf (ccTable 3 labelsDuel) [onesPlane 2 11, seedDuel]))
              (onesPlane 2 11) s z ∧
            cell g z.x z.y =
              cell (initialGrid (labelsOf (ccTable 3 labelsDuel) [onesPlane 2 11, seedDuel]))
                s.x s.y :=
  ⟨validStackDuel,
    (nearest_seed_ownership (ccTable 3 labelsDuel) (onesPlane 2 11) seedDuel 2 11 validStackDuel
      (by decide)).imp (fun _ h => ⟨h.1, h.2.2.1⟩)⟩

end lanms_adaptor
